import Mathlib

/-!
Verification model of the `fsync` folder-diff/synchronization tool
(`src/fsync/fsync.py`).

The filesystem is modelled shallowly: a directory's contents are a
`List FSEntry`, where an entry is either a regular file (name and byte
contents, bytes as `List Nat`) or a subdirectory (name and contents).
Real directories never contain two entries with the same name; this is
captured by the well-formedness predicates `WfT`/`WfE` used as hypotheses.

The byte-level helpers that the source delegates to the Python runtime are
modelled as parameters, collected in `FileOracle`:
  * `isText c` models `FSync._is_file_text` (the attempt to decode the
    file's leading bytes as text; its result is a function of the file's
    contents);
  * `md5 c` models `hashlib.md5(contents).digest()` (an arbitrary but
    fixed digest function of the contents).
All theorems are proved for an arbitrary oracle unless stated otherwise.
-/

/-- A filesystem entry: a regular file with contents, or a directory with
its list of children (`DirData` entries in the source are paths; here an
entry carries the whole subtree). -/
inductive FSEntry where
  | file (name : String) (content : List Nat)
  | dir (name : String) (children : List FSEntry)

/-- The contents of one directory. -/
abbrev FsTree := List FSEntry

/-- Name (last path component) of an entry. -/
def FSEntry.name : FSEntry → String
  | .file n _ => n
  | .dir n _ => n

/-- Python's `Path.is_file()` for an existing entry. -/
def FSEntry.isFile : FSEntry → Bool
  | .file _ _ => true
  | .dir _ _ => false

/-- Python's `Path.is_dir()` for an existing entry. -/
def FSEntry.isDir : FSEntry → Bool
  | .file _ _ => false
  | .dir _ _ => true

/-- Byte contents of a file entry (unused for directories). -/
def FSEntry.content : FSEntry → List Nat
  | .file _ c => c
  | .dir _ _ => []

/-- Children of a directory entry (unused for files). -/
def FSEntry.childrenOf : FSEntry → List FSEntry
  | .file _ _ => []
  | .dir _ ch => ch

/-- The runtime-provided byte-level operations:
text/binary classification and content digest. -/
structure FileOracle where
  isText : List Nat → Bool
  md5 : List Nat → List Nat

/-- Well-formedness of an entry: inside every directory, names are
distinct (as in a real filesystem). -/
def WfE : FSEntry → Prop
  | .file _ _ => True
  | .dir _ ch => (ch.map FSEntry.name).Nodup ∧ ∀ e ∈ ch, WfE e
decreasing_by
  rename_i ch h
  have h1 := List.sizeOf_lt_of_mem h
  simp only [FSEntry.dir.sizeOf_spec]
  omega

/-- Well-formedness of a directory listing. -/
def WfT (t : FsTree) : Prop :=
  (t.map FSEntry.name).Nodup ∧ ∀ e ∈ t, WfE e

/-- An element of one of the diff collections: the path of the entry
relative to its root, together with the entry itself (the source stores
the absolute `Path`; relative path plus subtree is the same data). -/
structure Item where
  rpath : List String
  entry : FSEntry

/-- The `DirsData` aggregate built by the diff phase: items only in the
left tree (`data_left.diff`), items only in the right tree
(`data_right.diff`), and same-named file pairs with differing contents
(`hash_diff`). -/
structure DiffResult where
  leftOnly : List Item
  rightOnly : List Item
  hashDiff : List (Item × Item)

/-- `FSync._are_files_equal`, as a function of the two files' contents:
compare sizes first; if the left file is not text and is larger than
1,000,000 bytes, report equal; otherwise compare digests. -/
def areFilesEqual (o : FileOracle) (lc rc : List Nat) : Bool :=
  if lc.length ≠ rc.length then false
  else if o.isText lc = false ∧ lc.length > 1000000 then true
  else o.md5 lc == o.md5 rc

/-- The item recorded for entry `e` of the directory at relative path `p`. -/
def itemOf (p : List String) (e : FSEntry) : Item :=
  ⟨p ++ [e.name], e⟩

/-- `FSync._compare_subfiles`: two-pointer merge over the (sorted) file
sublists of one directory level.  Name ties run the equality oracle and
record a `hash_diff` pair on mismatch; otherwise the smaller name goes to
its side's `-only` list. -/
def mergeFiles (o : FileOracle) (p : List String) :
    List FSEntry → List FSEntry → DiffResult
  | [], [] => ⟨[], [], []⟩
  | [], r :: rs =>
    let rest := mergeFiles o p [] rs
    ⟨rest.leftOnly, itemOf p r :: rest.rightOnly, rest.hashDiff⟩
  | l :: ls, [] =>
    let rest := mergeFiles o p ls []
    ⟨itemOf p l :: rest.leftOnly, rest.rightOnly, rest.hashDiff⟩
  | l :: ls, r :: rs =>
    if l.name = r.name then
      let rest := mergeFiles o p ls rs
      if areFilesEqual o l.content r.content then rest
      else ⟨rest.leftOnly, rest.rightOnly, (itemOf p l, itemOf p r) :: rest.hashDiff⟩
    else if l.name < r.name then
      let rest := mergeFiles o p ls (r :: rs)
      ⟨itemOf p l :: rest.leftOnly, rest.rightOnly, rest.hashDiff⟩
    else
      let rest := mergeFiles o p (l :: ls) rs
      ⟨rest.leftOnly, itemOf p r :: rest.rightOnly, rest.hashDiff⟩
termination_by ls rs => ls.length + rs.length

/-- `FSync._compare_subdirs` (merge part): two-pointer merge over the
(sorted) subdirectory sublists.  Name ties are queued in `next_subdirs`
for recursion; mismatches go whole to their side's `-only` list.
Returns (left-only, right-only, matched pairs). -/
def mergeSubdirs (p : List String) :
    List FSEntry → List FSEntry →
    List Item × List Item × List (FSEntry × FSEntry)
  | [], [] => ⟨[], [], []⟩
  | [], r :: rs =>
    let rest := mergeSubdirs p [] rs
    ⟨rest.1, itemOf p r :: rest.2.1, rest.2.2⟩
  | l :: ls, [] =>
    let rest := mergeSubdirs p ls []
    ⟨itemOf p l :: rest.1, rest.2.1, rest.2.2⟩
  | l :: ls, r :: rs =>
    if l.name = r.name then
      let rest := mergeSubdirs p ls rs
      ⟨rest.1, rest.2.1, (l, r) :: rest.2.2⟩
    else if l.name < r.name then
      let rest := mergeSubdirs p ls (r :: rs)
      ⟨itemOf p l :: rest.1, rest.2.1, rest.2.2⟩
    else
      let rest := mergeSubdirs p (l :: ls) rs
      ⟨rest.1, itemOf p r :: rest.2.1, rest.2.2⟩
termination_by ls rs => ls.length + rs.length

/-- Matched pairs produced by `mergeSubdirs` are members of its inputs
(needed to justify the recursion in `compareDirContents`). -/
def mergeSubdirsMatchedMem :
    ∀ (p : List String) (ls rs : List FSEntry) (pr : FSEntry × FSEntry),
      pr ∈ (mergeSubdirs p ls rs).2.2 → pr.1 ∈ ls ∧ pr.2 ∈ rs
  | p, [], [], pr, h => by simp [mergeSubdirs] at h
  | p, [], r :: rs, pr, h => by
    rw [mergeSubdirs] at h
    have := mergeSubdirsMatchedMem p [] rs pr h
    exact ⟨this.1, List.mem_cons_of_mem _ this.2⟩
  | p, l :: ls, [], pr, h => by
    rw [mergeSubdirs] at h
    have := mergeSubdirsMatchedMem p ls [] pr h
    exact ⟨List.mem_cons_of_mem _ this.1, this.2⟩
  | p, l :: ls, r :: rs, pr, h => by
    rw [mergeSubdirs] at h
    by_cases h1 : l.name = r.name
    · simp only [if_pos h1] at h
      rcases List.mem_cons.1 h with h2 | h2
      · subst h2; exact ⟨List.mem_cons_self _ _, List.mem_cons_self _ _⟩
      · have := mergeSubdirsMatchedMem p ls rs pr h2
        exact ⟨List.mem_cons_of_mem _ this.1, List.mem_cons_of_mem _ this.2⟩
    · simp only [if_neg h1] at h
      by_cases h2 : l.name < r.name
      · simp only [if_pos h2] at h
        have := mergeSubdirsMatchedMem p ls (r :: rs) pr h
        exact ⟨List.mem_cons_of_mem _ this.1, this.2⟩
      · simp only [if_neg h2] at h
        have := mergeSubdirsMatchedMem p (l :: ls) rs pr h
        exact ⟨this.1, List.mem_cons_of_mem _ this.2⟩
termination_by _ ls rs => ls.length + rs.length

/-- Name ordering used by `sorted(...)` on one directory's listing
(single-component `Path` comparison is plain string comparison). -/
def nameLe (a b : FSEntry) : Bool :=
  a.name ≤ b.name

/-- `FSync._compare_dir_contents`: sort both listings, merge the file
sublists, merge the subdirectory sublists, then recurse into each matched
subdirectory pair in order.  Appends performed by the source on the
shared `DirsData` lists become list concatenation in call order. -/
def compareDirContents (o : FileOracle) (p : List String)
    (lcs rcs : List FSEntry) : DiffResult :=
  let lsort := lcs.mergeSort nameLe
  let rsort := rcs.mergeSort nameLe
  let dF := mergeFiles o p (lsort.filter FSEntry.isFile) (rsort.filter FSEntry.isFile)
  let dD := mergeSubdirs p (lsort.filter FSEntry.isDir) (rsort.filter FSEntry.isDir)
  let subResults := dD.2.2.attach.map fun pr =>
    compareDirContents o (p ++ [pr.1.1.name]) pr.1.1.childrenOf pr.1.2.childrenOf
  ⟨dF.leftOnly ++ dD.1 ++ (subResults.map DiffResult.leftOnly).flatten,
   dF.rightOnly ++ dD.2.1 ++ (subResults.map DiffResult.rightOnly).flatten,
   dF.hashDiff ++ (subResults.map DiffResult.hashDiff).flatten⟩
termination_by sizeOf lcs
decreasing_by
  have hmem := mergeSubdirsMatchedMem _ _ _ _ pr.2
  have h1 : pr.1.1 ∈ lcs := by
    have h2 := List.mem_filter.1 hmem.1
    exact (lcs.mergeSort_perm nameLe).mem_iff.1 h2.1
  have h3 := List.sizeOf_lt_of_mem h1
  have h4 : sizeOf pr.1.1.childrenOf < sizeOf pr.1.1 := by
    cases pr.1.1 with
    | file n c =>
      have h5 : sizeOf (FSEntry.childrenOf (.file n c)) = 1 := rfl
      rw [h5]
      simp only [FSEntry.file.sizeOf_spec]
      cases n with
      | mk data => simp only [String.mk.sizeOf_spec]; omega
    | dir n ch =>
      simp only [FSEntry.childrenOf, FSEntry.dir.sizeOf_spec]
      omega
  omega

/-- `FSync.check_differences`: compare the two roots. -/
def checkDifferences (o : FileOracle) (left right : FsTree) : DiffResult :=
  compareDirContents o [] left right

/-- A directory listing strictly sorted by entry name (what `sorted(...)`
produces on a listing with distinct names). -/
def SortedNames (l : List FSEntry) : Prop :=
  l.Pairwise (fun a b => a.name < b.name)

/-- No same-named file/directory kind conflict between the two trees, at
any pair of same-named nested directories. -/
def NoClashT (a b : FsTree) : Prop :=
  (∀ n, ¬((∃ c, FSEntry.file n c ∈ a) ∧ (∃ ch, FSEntry.dir n ch ∈ b))) ∧
  (∀ n, ¬((∃ ch, FSEntry.dir n ch ∈ a) ∧ (∃ c, FSEntry.file n c ∈ b))) ∧
  (∀ n chA chB, FSEntry.dir n chA ∈ a → FSEntry.dir n chB ∈ b → NoClashT chA chB)
termination_by sizeOf a
decreasing_by
  have h1 := List.sizeOf_lt_of_mem ‹FSEntry.dir n chA ∈ a›
  simp only [FSEntry.dir.sizeOf_spec] at h1
  omega

/-- Every file in the subtree is at most 1,000,000 bytes (so the
large-binary-file shortcut of the equality oracle never fires). -/
def SmallE : FSEntry → Prop
  | .file _ c => c.length ≤ 1000000
  | .dir _ ch => ∀ e ∈ ch, SmallE e
decreasing_by
  rename_i ch h
  have h1 := List.sizeOf_lt_of_mem h
  simp only [FSEntry.dir.sizeOf_spec]
  omega

/-- Every file in the tree is at most 1,000,000 bytes. -/
def SmallT (t : FsTree) : Prop :=
  ∀ e ∈ t, SmallE e

/-- Look up the entry at a (non-empty) path relative to a directory:
Python's `Path.exists()` / `stat` on `root / path`. -/
def getAt : FsTree → List String → Option FSEntry
  | _, [] => none
  | t, [n] => t.find? (fun e => e.name == n)
  | t, n :: rest =>
    match t.find? (fun e => e.name == n) with
    | some (.dir _ ch) => getAt ch rest
    | _ => none

/-- Pointwise action of `setChildren` on a single entry. -/
def replaceChild (n : String) (ch : FsTree) (e : FSEntry) : FSEntry :=
  match e with
  | .dir m _ => if m = n then .dir m ch else e
  | _ => e

/-- Replace the children of the directory named `n` at the top level. -/
def setChildren (t : FsTree) (n : String) (ch : FsTree) : FsTree :=
  t.map fun e => match e with
    | .dir m _ => if m = n then .dir m ch else e
    | _ => e

/-- Delete the entry at `path` (`shutil.rmtree` / `Path.unlink`); leaves
the tree unchanged when the path does not resolve. -/
def removeAt : FsTree → List String → FsTree
  | t, [] => t
  | t, [n] => t.filter (fun e => !(e.name == n))
  | t, n :: rest =>
    t.map fun e => match e with
      | .dir m ch => if m = n then .dir m (removeAt ch rest) else e
      | _ => e

/-- `FSync._remove_item`: delete only if the item exists. -/
def removeItem (t : FsTree) (r : List String) : FsTree :=
  if (getAt t r).isSome then removeAt t r else t

/-- `shutil.copyfile(src, root/path)` writing bytes `c`: the parent
directories must already exist, and the target must not be a directory;
`none` models the raised `OSError`. -/
def copyfileAt : FsTree → List String → List Nat → Option FsTree
  | _, [], _ => none
  | t, [n], c =>
    match t.find? (fun e => e.name == n) with
    | some (.dir _ _) => none
    | some (.file _ _) => some (t.map fun e => if e.name = n then .file n c else e)
    | none => some (t ++ [.file n c])
  | t, n :: rest, c =>
    match t.find? (fun e => e.name == n) with
    | some (.dir _ ch) => (copyfileAt ch rest c).map (setChildren t n)
    | _ => none

/-- `shutil.copytree(src, root/path)` copying a directory with contents
`ch`: `os.makedirs` creates missing parent directories, a parent that is
a regular file or an already-existing target raises (`none`). -/
def copytreeAt : FsTree → List String → FsTree → Option FsTree
  | _, [], _ => none
  | t, [n], ch =>
    match t.find? (fun e => e.name == n) with
    | some _ => none
    | none => some (t ++ [.dir n ch])
  | t, n :: rest, ch =>
    match t.find? (fun e => e.name == n) with
    | some (.dir _ ch2) => (copytreeAt ch2 rest ch).map (setChildren t n)
    | some (.file _ _) => none
    | none => (copytreeAt [] rest ch).map (fun ch2 => t ++ [.dir n ch2])

/-- `FSync._sync_items(item1, item2, overwrite)`: `item1` lives at `rs`
relative to the source root (tree `src`), `item2` at `rd` relative to the
destination root (tree `dst`).  Returns the updated destination tree, or
`none` when one of the copy/delete primitives raises. -/
def syncItems (src dst : FsTree) (rs rd : List String) (overwrite : Bool) :
    Option FsTree :=
  match getAt src rs with
  | none => some dst
  | some e1 =>
    if overwrite = false ∧ (getAt dst rd).isNone = true then
      if e1.isDir then copytreeAt dst rd e1.childrenOf
      else copyfileAt dst rd e1.content
    else if overwrite then
      if e1.isDir then
        match getAt dst rd with
        | some (.file _ _) => none
        | some (.dir _ _) => copytreeAt (removeAt dst rd) rd e1.childrenOf
        | none => copytreeAt dst rd e1.childrenOf
      else copyfileAt dst rd e1.content
    else some dst

/-- The three phases of `FSync.sync_dirs`, acting on the destination tree
`dst0` with source tree `src`: add items missing in the destination
(`add_missing`), remove items extra in the destination (`remove_extra`),
then overwrite the differing pairs (`overwrite`); each pair of `prs` is
already oriented as (source item, destination item). -/
def syncPhases (src dst0 : FsTree) (addItems rmItems : List Item)
    (prs : List (Item × Item)) (overwrite add_missing remove_extra : Bool) :
    Option FsTree :=
  let step1 : Option FsTree :=
    if add_missing then
      addItems.foldlM (fun b it => syncItems src b it.rpath it.rpath overwrite) dst0
    else some dst0
  match step1 with
  | none => none
  | some d1 =>
    let d2 :=
      if remove_extra then rmItems.foldl (fun b it => removeItem b it.rpath) d1
      else d1
    if overwrite then
      prs.foldlM (fun b pr => syncItems src b pr.1.rpath pr.2.rpath true) d2
    else some d2

/-- `FSync.sync_dirs`: apply the policy flags to the stored diff result.
With `reverse_direction = true` (the source's default) the right tree is
the source and the left tree the destination, and each `hash_diff` pair
`(left, right)` is used as (source, destination) = (right, left); with
`false` the roles are as stored.  Returns the updated pair of trees, or
`none` when a filesystem primitive raises. -/
def sync_dirs (left right : FsTree) (d : DiffResult)
    (overwrite : Bool := false) (add_missing : Bool := false)
    (remove_extra : Bool := false) (reverse_direction : Bool := true) :
    Option (FsTree × FsTree) :=
  if reverse_direction then
    (syncPhases right left d.rightOnly d.leftOnly
        (d.hashDiff.map fun pr => (pr.2, pr.1))
        overwrite add_missing remove_extra).map fun dfin => (dfin, right)
  else
    (syncPhases left right d.leftOnly d.rightOnly d.hashDiff
        overwrite add_missing remove_extra).map fun dfin => (left, dfin)

/-- `FSync.__init__`: each root is supplied as `some tree` when the path
is an existing directory and `none` otherwise.  The left root is checked
first, then the right; on failure no traversal happens and no diff data
exists (the error carries only the message). -/
def fsyncInit (left right : Option FsTree) : Except String (FsTree × FsTree) :=
  match left with
  | none => .error "Left path is not a valid directory!"
  | some lt =>
    match right with
    | none => .error "Right path is not a valid directory!"
    | some rt => .ok (lt, rt)

/-- The CLI flags of `prepare_args_parser`; every `store_true` flag
defaults to `false` when not passed on the command line. -/
structure CliArgs where
  hide_progress_bar : Bool := false
  add_missing : Bool := false
  remove_extra : Bool := false
  overwrite_hash : Bool := false
  reverse_sync_direction : Bool := false
  mirror_contents : Bool := false

/-- The sync part of `main`: `--mirror-contents` turns on all three
operation flags; `sync_dirs` runs only if at least one of them is set,
and receives the CLI's `reverse_sync_direction` value explicitly. -/
def mainSync (left right : FsTree) (d : DiffResult) (args : CliArgs) :
    Option (FsTree × FsTree) :=
  let add := args.add_missing || args.mirror_contents
  let rem := args.remove_extra || args.mirror_contents
  let ow := args.overwrite_hash || args.mirror_contents
  if add || rem || ow then
    sync_dirs left right d ow add rem args.reverse_sync_direction
  else some (left, right)

/-- A simple concrete oracle for witnesses: everything is text, the digest
is the identity. -/
def oracleId : FileOracle := ⟨fun _ => true, fun c => c⟩

/-- A concrete oracle under which classification looks at the first byte
(1 ⇒ text) and the digest is the first byte. -/
def oracleHead : FileOracle := ⟨fun c => c.head? == some 1, fun c => c.take 1⟩

/-- A 1,000,001-byte content that `oracleHead` classifies as binary. -/
def bigBinary : List Nat := List.replicate 1000001 0

/-- A 1,000,001-byte content that `oracleHead` classifies as text, with a
different first byte than `bigBinary`. -/
def bigText : List Nat := 1 :: List.replicate 1000000 0

/-- Left tree of the mirror counterexample: one large binary file. -/
def mirrorExL : FsTree := [.file "a" bigBinary]

/-- Right tree of the mirror counterexample: an equal-sized text file with
different contents. -/
def mirrorExR : FsTree := [.file "a" bigText]

/-- Left tree of the kind-clash example: `a` is a regular file. -/
def clashExL : FsTree := [.file "a" [0]]

/-- Right tree of the kind-clash example: `a` is a directory. -/
def clashExR : FsTree := [.dir "a" []]

/-- Scenario C of the specification: the left root contains `sub/x.txt`. -/
def scenC_L : FsTree := [.dir "sub" [.file "x.txt" [104, 105]]]

/-- An item at path component deeper: relative paths of a subdirectory's
diff, re-based under the subdirectory name `n`. -/
def shiftItem (n : String) (i : Item) : Item :=
  ⟨n :: i.rpath, i.entry⟩

/-- A whole diff result re-based under subdirectory name `n`. -/
def shiftDiff (n : String) (d : DiffResult) : DiffResult :=
  ⟨d.leftOnly.map (shiftItem n), d.rightOnly.map (shiftItem n),
   d.hashDiff.map fun pr => (shiftItem n pr.1, shiftItem n pr.2)⟩

/-- The semantic alignment that makes a diff empty: every file of `A` has
a same-named file in `B` that the (left-oriented) equality oracle accepts,
every file of `B` has a same-named file in `A`, directory names coincide,
and same-named directories are recursively aligned. -/
def Aligned (o : FileOracle) (A B : FsTree) : Prop :=
  (∀ e ∈ A, e.isFile = true → ∃ f, f ∈ B ∧ f.isFile = true ∧
    f.name = e.name ∧ areFilesEqual o e.content f.content = true) ∧
  (∀ f ∈ B, f.isFile = true → ∃ e, e ∈ A ∧ e.isFile = true ∧
    e.name = f.name) ∧
  (∀ e ∈ A, e.isDir = true → ∃ f, f ∈ B ∧ f.isDir = true ∧
    f.name = e.name) ∧
  (∀ f ∈ B, f.isDir = true → ∃ e, e ∈ A ∧ e.isDir = true ∧
    e.name = f.name) ∧
  (∀ (n : String) (chA chB : List FSEntry),
    FSEntry.dir n chA ∈ A → FSEntry.dir n chB ∈ B → Aligned o chA chB)
termination_by sizeOf A
decreasing_by
  have h1 := List.sizeOf_lt_of_mem ‹FSEntry.dir n chA ∈ A›
  simp only [FSEntry.dir.sizeOf_spec] at h1
  omega

/-- The file-equality verdict as the stored diff computed it: with
`flip = false` the sync source was the left argument of the comparison,
with `flip = true` it was the right argument. -/
def vFlip (o : FileOracle) (flip : Bool) (a b : List Nat) : Bool :=
  if flip then areFilesEqual o b a else areFilesEqual o a b

/-- The stored diff data as consumed by a sync run with source `S` and
destination `D`: with `flip = false` the diff was `compare S D` (source
on the left); with `flip = true` it was `compare D S` (source on the
right), so the two `-only` lists swap roles and each hash pair is
reversed into (source item, destination item) order — exactly the lists
`sync_dirs` hands to the three phases in its two direction branches. -/
def diffOf (o : FileOracle) (flip : Bool) (S D : FsTree) : DiffResult :=
  if flip then
    ⟨(compareDirContents o [] D S).rightOnly,
     (compareDirContents o [] D S).leftOnly,
     (compareDirContents o [] D S).hashDiff.map fun pr => (pr.2, pr.1)⟩
  else compareDirContents o [] S D

/-- Alignment oriented the way the re-run diff will list the two roots. -/
def AlignedF (o : FileOracle) (flip : Bool) (S D : FsTree) : Prop :=
  if flip then Aligned o D S else Aligned o S D

/-- The matched top-level subdirectory pairs of the stored diff, oriented
as (source entry, destination entry). -/
def matchedOf (flip : Bool) (S D : FsTree) : List (FSEntry × FSEntry) :=
  match flip with
  | true =>
    (mergeSubdirs [] ((D.mergeSort nameLe).filter FSEntry.isDir)
      ((S.mergeSort nameLe).filter FSEntry.isDir)).2.2.map fun pr => (pr.2, pr.1)
  | false =>
    (mergeSubdirs [] ((S.mergeSort nameLe).filter FSEntry.isDir)
      ((D.mergeSort nameLe).filter FSEntry.isDir)).2.2

/-- The top-level source-only items of the stored diff (the segment of the
add-phase work list that belongs to the root directory itself). -/
def levelAdds (o : FileOracle) (flip : Bool) (S D : FsTree) : List Item :=
  match flip with
  | true =>
    (mergeFiles o [] ((D.mergeSort nameLe).filter FSEntry.isFile)
      ((S.mergeSort nameLe).filter FSEntry.isFile)).rightOnly
    ++ (mergeSubdirs [] ((D.mergeSort nameLe).filter FSEntry.isDir)
      ((S.mergeSort nameLe).filter FSEntry.isDir)).2.1
  | false =>
    (mergeFiles o [] ((S.mergeSort nameLe).filter FSEntry.isFile)
      ((D.mergeSort nameLe).filter FSEntry.isFile)).leftOnly
    ++ (mergeSubdirs [] ((S.mergeSort nameLe).filter FSEntry.isDir)
      ((D.mergeSort nameLe).filter FSEntry.isDir)).1

/-- The top-level destination-only items of the stored diff (the root
segment of the remove-phase work list). -/
def levelRms (o : FileOracle) (flip : Bool) (S D : FsTree) : List Item :=
  match flip with
  | true =>
    (mergeFiles o [] ((D.mergeSort nameLe).filter FSEntry.isFile)
      ((S.mergeSort nameLe).filter FSEntry.isFile)).leftOnly
    ++ (mergeSubdirs [] ((D.mergeSort nameLe).filter FSEntry.isDir)
      ((S.mergeSort nameLe).filter FSEntry.isDir)).1
  | false =>
    (mergeFiles o [] ((S.mergeSort nameLe).filter FSEntry.isFile)
      ((D.mergeSort nameLe).filter FSEntry.isFile)).rightOnly
    ++ (mergeSubdirs [] ((S.mergeSort nameLe).filter FSEntry.isDir)
      ((D.mergeSort nameLe).filter FSEntry.isDir)).2.1

/-- The top-level differing file pairs of the stored diff, oriented as
(source item, destination item) — the root segment of the overwrite-phase
work list. -/
def levelOws (o : FileOracle) (flip : Bool) (S D : FsTree) :
    List (Item × Item) :=
  match flip with
  | true =>
    (mergeFiles o [] ((D.mergeSort nameLe).filter FSEntry.isFile)
      ((S.mergeSort nameLe).filter FSEntry.isFile)).hashDiff.map
      fun pr => (pr.2, pr.1)
  | false =>
    (mergeFiles o [] ((S.mergeSort nameLe).filter FSEntry.isFile)
      ((D.mergeSort nameLe).filter FSEntry.isFile)).hashDiff

/-! ## Theorems -/

theorem areFilesEqual_of_length_ne (o : FileOracle) {lc rc : List Nat}
    (h : lc.length ≠ rc.length) : areFilesEqual o lc rc = false := by
  simp only [areFilesEqual, if_pos h]

theorem areFilesEqual_shortcut (o : FileOracle) {lc rc : List Nat}
    (h : lc.length = rc.length) (hT : o.isText lc = false)
    (hL : lc.length > 1000000) : areFilesEqual o lc rc = true := by
  have hcond : o.isText lc = false ∧ lc.length > 1000000 := ⟨hT, hL⟩
  simp only [areFilesEqual, if_neg (by omega : ¬lc.length ≠ rc.length),
    if_pos hcond]

theorem areFilesEqual_hash (o : FileOracle) {lc rc : List Nat}
    (h : lc.length = rc.length) (h2 : ¬(o.isText lc = false ∧ lc.length > 1000000)) :
    areFilesEqual o lc rc = (o.md5 lc == o.md5 rc) := by
  simp only [areFilesEqual, if_neg (by omega : ¬lc.length ≠ rc.length), if_neg h2]

theorem areFilesEqual_refl (o : FileOracle) (c : List Nat) :
    areFilesEqual o c c = true := by
  by_cases h2 : o.isText c = false ∧ c.length > 1000000
  · exact areFilesEqual_shortcut o rfl h2.1 h2.2
  · rw [areFilesEqual_hash o rfl h2]
    exact beq_self_eq_true _

/-- C2: for same-sized file contents, if the left file is classified
binary (text decoding fails) and its size strictly exceeds 1,000,000
bytes, `_are_files_equal` answers `true` for every possible digest
function (so without consulting the files' full contents); in every other
case it answers `true` exactly when the two digests are equal. -/
theorem C2_are_files_equal_spec (o : FileOracle) (lc rc : List Nat)
    (h : lc.length = rc.length) :
    (o.isText lc = false → lc.length > 1000000 →
      ∀ m : List Nat → List Nat, areFilesEqual ⟨o.isText, m⟩ lc rc = true) ∧
    (¬(o.isText lc = false ∧ lc.length > 1000000) →
      (areFilesEqual o lc rc = true ↔ o.md5 lc = o.md5 rc)) := by
  constructor
  · intro hT hL m
    exact areFilesEqual_shortcut ⟨o.isText, m⟩ h hT hL
  · intro h2
    rw [areFilesEqual_hash o h h2]
    exact beq_iff_eq

theorem C2_witness :
    (([0] : List Nat).length = [1].length) ∧
    ¬(oracleId.isText [0] = false ∧ ([0] : List Nat).length > 1000000) ∧
    (areFilesEqual oracleId [0] [1] = true ↔ oracleId.md5 [0] = oracleId.md5 [1]) :=
  ⟨rfl, by decide, (C2_are_files_equal_spec oracleId [0] [1] rfl).2 (by decide)⟩

/-- C4: the equality oracle never equates contents of different sizes,
always equates two zero-byte contents, and always equates text contents
that are byte-for-byte identical. -/
theorem C4_oracle_basic (o : FileOracle) :
    (∀ lc rc : List Nat, lc.length ≠ rc.length → areFilesEqual o lc rc = false) ∧
    (areFilesEqual o [] [] = true) ∧
    (∀ lc rc : List Nat, o.isText lc = true → lc = rc → areFilesEqual o lc rc = true) := by
  refine ⟨fun lc rc h => areFilesEqual_of_length_ne o h, ?_, ?_⟩
  · exact areFilesEqual_refl o []
  · intro lc rc _ h
    subst h
    exact areFilesEqual_refl o lc

theorem C4_witness :
    (([] : List Nat).length ≠ [0].length ∧ areFilesEqual oracleId [] [0] = false) ∧
    (areFilesEqual oracleId [] [] = true) ∧
    (oracleId.isText [5] = true ∧ areFilesEqual oracleId [5] [5] = true) :=
  ⟨⟨by decide, (C4_oracle_basic oracleId).1 [] [0] (by decide)⟩,
   (C4_oracle_basic oracleId).2.1,
   ⟨rfl, (C4_oracle_basic oracleId).2.2 [5] [5] rfl rfl⟩⟩

/-- C7: construction checks the left root, then the right root; a missing
or non-directory root yields an error identifying that side and no tree
data is handed to the diff phase, while two existing directories are
accepted unchanged. -/
theorem C7_init_validation :
    (∀ r : Option FsTree,
      fsyncInit none r = .error "Left path is not a valid directory!") ∧
    (∀ lt : FsTree,
      fsyncInit (some lt) none = .error "Right path is not a valid directory!") ∧
    (∀ (lt rt : FsTree), fsyncInit (some lt) (some rt) = .ok (lt, rt)) :=
  ⟨fun _ => rfl, fun _ => rfl, fun _ _ => rfl⟩

/-- C8: `sync_dirs` called without the direction argument behaves as
`reverse_direction = true` (right is the source: the right tree is left
untouched and the left tree receives the updates), while the CLI default
for `--reverse-sync-direction` is `false`, and `main` passes that value,
giving a left-to-right sync (left untouched). -/
theorem C8_direction_defaults :
    (∀ (L R : FsTree) (d : DiffResult) (ov ad rm : Bool),
      sync_dirs L R d ov ad rm = sync_dirs L R d ov ad rm true) ∧
    (({} : CliArgs).reverse_sync_direction = false) ∧
    (∀ (L R : FsTree) (d : DiffResult),
      mainSync L R d {add_missing := true} = sync_dirs L R d false true false false) ∧
    (∀ (L R : FsTree) (d : DiffResult) (ov ad rm : Bool) (p : FsTree × FsTree),
      sync_dirs L R d ov ad rm true = some p → p.2 = R) ∧
    (∀ (L R : FsTree) (d : DiffResult) (ov ad rm : Bool) (p : FsTree × FsTree),
      sync_dirs L R d ov ad rm false = some p → p.1 = L) := by
  refine ⟨fun _ _ _ _ _ _ => rfl, rfl, fun _ _ _ => rfl, ?_, ?_⟩
  · intro L R d ov ad rm p h
    rw [sync_dirs, if_pos rfl, Option.map_eq_some'] at h
    obtain ⟨dfin, _, h3⟩ := h
    rw [← h3]
  · intro L R d ov ad rm p h
    rw [sync_dirs, if_neg (by simp), Option.map_eq_some'] at h
    obtain ⟨dfin, _, h3⟩ := h
    rw [← h3]

theorem C8_witness :
    sync_dirs [] [] ⟨[], [], []⟩ false false false true = some ([], []) ∧
    (([], []) : FsTree × FsTree).2 = ([] : FsTree) ∧
    sync_dirs [] [] ⟨[], [], []⟩ false false false false = some ([], []) ∧
    (([], []) : FsTree × FsTree).1 = ([] : FsTree) :=
  ⟨rfl,
   C8_direction_defaults.2.2.2.1 [] [] ⟨[], [], []⟩ false false false ([], []) rfl,
   rfl,
   C8_direction_defaults.2.2.2.2 [] [] ⟨[], [], []⟩ false false false ([], []) rfl⟩

/-- C10: a copy whose source item no longer exists, and a removal whose
target no longer exists, are skipped silently: the destination tree is
returned unchanged and no error is raised. -/
theorem C10_missing_items_skipped :
    (∀ (src dst : FsTree) (rs rd : List String) (ov : Bool),
      getAt src rs = none → syncItems src dst rs rd ov = some dst) ∧
    (∀ (t : FsTree) (r : List String),
      getAt t r = none → removeItem t r = t) := by
  constructor
  · intro src dst rs rd ov h
    simp only [syncItems, h]
  · intro t r h
    simp only [removeItem, h, Option.isSome_none, Bool.false_eq_true, if_false]

theorem C10_witness :
    (getAt [] ["a"] = none ∧ syncItems [] [] ["a"] ["a"] false = some []) ∧
    (getAt [] ["a"] = none ∧ removeItem [] ["a"] = []) :=
  ⟨⟨rfl, C10_missing_items_skipped.1 [] [] ["a"] ["a"] false rfl⟩,
   ⟨rfl, C10_missing_items_skipped.2 [] ["a"] rfl⟩⟩

theorem nameLe_trans : ∀ a b c : FSEntry,
    nameLe a b = true → nameLe b c = true → nameLe a c = true := by
  intro a b c hab hbc
  simp only [nameLe, decide_eq_true_eq] at *
  exact le_trans hab hbc

theorem nameLe_total : ∀ a b : FSEntry, (nameLe a b || nameLe b a) = true := by
  intro a b
  simp only [nameLe, Bool.or_eq_true, decide_eq_true_eq]
  exact le_total a.name b.name

theorem sortedNames_mergeSort {t : FsTree} (h : (t.map FSEntry.name).Nodup) :
    SortedNames (t.mergeSort nameLe) := by
  have hp := List.sorted_mergeSort nameLe_trans nameLe_total t
  have hperm : ((t.mergeSort nameLe).map FSEntry.name).Perm (t.map FSEntry.name) :=
    (t.mergeSort_perm nameLe).map _
  have hnd : ((t.mergeSort nameLe).map FSEntry.name).Nodup := hperm.nodup_iff.2 h
  have hne : (t.mergeSort nameLe).Pairwise (fun a b => a.name ≠ b.name) :=
    List.pairwise_map.1 hnd
  have hand := hp.and hne
  refine hand.imp ?_
  intro a b hab
  have h1 : a.name ≤ b.name := by
    have := hab.1
    simpa [nameLe, decide_eq_true_eq] using this
  exact lt_of_le_of_ne h1 hab.2

theorem SortedNames.namesNodup {l : List FSEntry} (h : SortedNames l) :
    (l.map FSEntry.name).Nodup := by
  refine List.pairwise_map.2 ?_
  exact h.imp fun hab => ne_of_lt hab

theorem SortedNames.filter (p : FSEntry → Bool) {l : List FSEntry}
    (h : SortedNames l) : SortedNames (l.filter p) :=
  List.Pairwise.filter p h

theorem mergeFiles_leftOnly_iff (o : FileOracle) (p : List String) :
    ∀ (ls rs : List FSEntry), SortedNames ls → SortedNames rs → ∀ i : Item,
    (i ∈ (mergeFiles o p ls rs).leftOnly ↔
      ∃ e, e ∈ ls ∧ i = itemOf p e ∧ e.name ∉ rs.map FSEntry.name) := by
  intro ls rs
  induction ls, rs using mergeFiles.induct o p with
  | case1 =>
    intro _ _ i
    simp [mergeFiles]
  | case2 r rs ih =>
    intro hl hr i
    rw [mergeFiles]
    dsimp only
    rw [ih hl hr.of_cons i]
    simp
  | case3 l ls ih =>
    intro hl hr i
    rw [mergeFiles]
    dsimp only
    constructor
    · intro h
      rcases List.mem_cons.1 h with h | h
      · exact ⟨l, List.mem_cons_self _ _, h, by simp⟩
      · obtain ⟨e, he, hi, -⟩ := (ih hl.of_cons hr i).1 h
        exact ⟨e, List.mem_cons_of_mem _ he, hi, by simp⟩
    · rintro ⟨e, he, hi, -⟩
      rcases List.mem_cons.1 he with rfl | he
      · exact List.mem_cons.2 (Or.inl hi)
      · exact List.mem_cons.2 (Or.inr ((ih hl.of_cons hr i).2 ⟨e, he, hi, by simp⟩))
  | case4 l ls r rs hname hv ih =>
    intro hl hr i
    rw [mergeFiles, if_pos hname, if_pos hv]
    rw [ih hl.of_cons hr.of_cons i]
    constructor
    · rintro ⟨e, he, hi, hn⟩
      refine ⟨e, List.mem_cons_of_mem _ he, hi, ?_⟩
      intro hc
      rw [List.map_cons, List.mem_cons] at hc
      rcases hc with hc | hc
      · have h2 := List.rel_of_pairwise_cons hl he
        rw [hc, ← hname] at h2
        exact absurd h2 (lt_irrefl _)
      · exact hn hc
    · rintro ⟨e, he, hi, hn⟩
      rcases List.mem_cons.1 he with rfl | he
      · exact absurd (by rw [List.map_cons]; exact List.mem_cons.2 (Or.inl hname)) hn
      · exact ⟨e, he, hi, fun hc => hn (by rw [List.map_cons]; exact List.mem_cons_of_mem _ hc)⟩
  | case5 l ls r rs hname hv ih =>
    intro hl hr i
    rw [mergeFiles, if_pos hname, if_neg hv]
    dsimp only
    rw [ih hl.of_cons hr.of_cons i]
    constructor
    · rintro ⟨e, he, hi, hn⟩
      refine ⟨e, List.mem_cons_of_mem _ he, hi, ?_⟩
      intro hc
      rw [List.map_cons, List.mem_cons] at hc
      rcases hc with hc | hc
      · have h2 := List.rel_of_pairwise_cons hl he
        rw [hc, ← hname] at h2
        exact absurd h2 (lt_irrefl _)
      · exact hn hc
    · rintro ⟨e, he, hi, hn⟩
      rcases List.mem_cons.1 he with rfl | he
      · exact absurd (by rw [List.map_cons]; exact List.mem_cons.2 (Or.inl hname)) hn
      · exact ⟨e, he, hi, fun hc => hn (by rw [List.map_cons]; exact List.mem_cons_of_mem _ hc)⟩
  | case6 l ls r rs hname hlt ih =>
    intro hl hr i
    rw [mergeFiles, if_neg hname, if_pos hlt]
    dsimp only
    constructor
    · intro h
      rcases List.mem_cons.1 h with h | h
      · refine ⟨l, List.mem_cons_self _ _, h, ?_⟩
        intro hc
        rw [List.map_cons, List.mem_cons] at hc
        rcases hc with hc | hc
        · exact hname hc
        · obtain ⟨x, hx, hxe⟩ := List.mem_map.1 hc
          have h2 := List.rel_of_pairwise_cons hr hx
          have h3 := hlt.trans h2
          rw [hxe] at h3
          exact absurd h3 (lt_irrefl _)
      · obtain ⟨e, he, hi, hn⟩ := (ih hl.of_cons hr i).1 h
        exact ⟨e, List.mem_cons_of_mem _ he, hi, hn⟩
    · rintro ⟨e, he, hi, hn⟩
      rcases List.mem_cons.1 he with rfl | he
      · exact List.mem_cons.2 (Or.inl hi)
      · exact List.mem_cons.2 (Or.inr ((ih hl.of_cons hr i).2 ⟨e, he, hi, hn⟩))
  | case7 l ls r rs hname hnlt ih =>
    intro hl hr i
    have hgt : r.name < l.name :=
      lt_of_le_of_ne (le_of_not_lt hnlt) (fun hc => hname hc.symm)
    rw [mergeFiles, if_neg hname, if_neg hnlt]
    dsimp only
    rw [ih hl hr.of_cons i]
    constructor
    · rintro ⟨e, he, hi, hn⟩
      refine ⟨e, he, hi, ?_⟩
      intro hc
      rw [List.map_cons, List.mem_cons] at hc
      rcases hc with hc | hc
      · rcases List.mem_cons.1 he with rfl | he2
        · exact hname hc
        · have h2 := List.rel_of_pairwise_cons hl he2
          rw [hc] at h2
          exact hnlt h2
      · exact hn hc
    · rintro ⟨e, he, hi, hn⟩
      exact ⟨e, he, hi, fun hc => hn (by rw [List.map_cons]; exact List.mem_cons_of_mem _ hc)⟩

theorem mergeFiles_swap_only (o : FileOracle) (p : List String) :
    ∀ ls rs : List FSEntry,
      (mergeFiles o p rs ls).leftOnly = (mergeFiles o p ls rs).rightOnly ∧
      (mergeFiles o p rs ls).rightOnly = (mergeFiles o p ls rs).leftOnly := by
  intro ls rs
  induction ls, rs using mergeFiles.induct o p with
  | case1 => simp [mergeFiles]
  | case2 r rs ih =>
    simp only [mergeFiles]
    exact ⟨congrArg _ ih.1, ih.2⟩
  | case3 l ls ih =>
    simp only [mergeFiles]
    exact ⟨ih.1, congrArg _ ih.2⟩
  | case4 l ls r rs hname hv ih =>
    simp only [mergeFiles]
    rw [if_pos hname, if_pos hv, if_pos hname.symm]
    cases hv2 : areFilesEqual o r.content l.content
    · rw [if_neg Bool.false_ne_true]
      exact ⟨ih.1, ih.2⟩
    · rw [if_pos rfl]
      exact ⟨ih.1, ih.2⟩
  | case5 l ls r rs hname hv ih =>
    simp only [mergeFiles]
    rw [if_pos hname, if_neg hv, if_pos hname.symm]
    cases hv2 : areFilesEqual o r.content l.content
    · rw [if_neg Bool.false_ne_true]
      exact ⟨ih.1, ih.2⟩
    · rw [if_pos rfl]
      exact ⟨ih.1, ih.2⟩
  | case6 l ls r rs hname hlt ih =>
    simp only [mergeFiles]
    rw [if_neg hname, if_pos hlt, if_neg (fun hc => hname hc.symm),
      if_neg (lt_asymm hlt)]
    exact ⟨ih.1, congrArg _ ih.2⟩
  | case7 l ls r rs hname hnlt ih =>
    have hgt : r.name < l.name :=
      lt_of_le_of_ne (le_of_not_lt hnlt) (fun hc => hname hc.symm)
    simp only [mergeFiles]
    rw [if_neg hname, if_neg hnlt, if_neg (fun hc => hname hc.symm),
      if_pos hgt]
    exact ⟨congrArg _ ih.1, ih.2⟩

theorem mergeFiles_rightOnly_iff (o : FileOracle) (p : List String)
    {ls rs : List FSEntry} (hl : SortedNames ls) (hr : SortedNames rs)
    (i : Item) :
    i ∈ (mergeFiles o p ls rs).rightOnly ↔
      ∃ e, e ∈ rs ∧ i = itemOf p e ∧ e.name ∉ ls.map FSEntry.name := by
  rw [← (mergeFiles_swap_only o p ls rs).1]
  exact mergeFiles_leftOnly_iff o p rs ls hr hl i

theorem mergeFiles_hashDiff_iff (o : FileOracle) (p : List String) :
    ∀ (ls rs : List FSEntry), SortedNames ls → SortedNames rs → ∀ pr : Item × Item,
    (pr ∈ (mergeFiles o p ls rs).hashDiff ↔
      ∃ e, e ∈ ls ∧ ∃ f, f ∈ rs ∧ pr = (itemOf p e, itemOf p f) ∧
        e.name = f.name ∧ areFilesEqual o e.content f.content = false) := by
  intro ls rs
  induction ls, rs using mergeFiles.induct o p with
  | case1 =>
    intro _ _ pr
    simp [mergeFiles]
  | case2 r rs ih =>
    intro hl hr pr
    simp only [mergeFiles]
    rw [ih hl hr.of_cons pr]
    simp
  | case3 l ls ih =>
    intro hl hr pr
    simp only [mergeFiles]
    rw [ih hl.of_cons hr pr]
    simp
  | case4 l ls r rs hname hv ih =>
    intro hl hr pr
    simp only [mergeFiles]
    rw [if_pos hname, if_pos hv, ih hl.of_cons hr.of_cons pr]
    constructor
    · rintro ⟨e, he, f, hf, hpr, hn, hvf⟩
      exact ⟨e, List.mem_cons_of_mem _ he, f, List.mem_cons_of_mem _ hf, hpr, hn, hvf⟩
    · rintro ⟨e, he, f, hf, hpr, hn, hvf⟩
      rcases List.mem_cons.1 he with rfl | he
      · rcases List.mem_cons.1 hf with rfl | hf
        · exact absurd (hv.symm.trans hvf) (by simp)
        · have h2 := List.rel_of_pairwise_cons hr hf
          rw [← hn, hname] at h2
          exact absurd h2 (lt_irrefl _)
      · rcases List.mem_cons.1 hf with rfl | hf
        · have h2 := List.rel_of_pairwise_cons hl he
          rw [hn, ← hname] at h2
          exact absurd h2 (lt_irrefl _)
        · exact ⟨e, he, f, hf, hpr, hn, hvf⟩
  | case5 l ls r rs hname hv ih =>
    intro hl hr pr
    simp only [mergeFiles]
    rw [if_pos hname, if_neg hv]
    dsimp only
    constructor
    · intro h
      rcases List.mem_cons.1 h with rfl | h
      · exact ⟨l, List.mem_cons_self _ _, r, List.mem_cons_self _ _, rfl, hname,
          Bool.eq_false_iff.2 hv⟩
      · obtain ⟨e, he, f, hf, hpr, hn, hvf⟩ := (ih hl.of_cons hr.of_cons pr).1 h
        exact ⟨e, List.mem_cons_of_mem _ he, f, List.mem_cons_of_mem _ hf, hpr, hn, hvf⟩
    · rintro ⟨e, he, f, hf, hpr, hn, hvf⟩
      rcases List.mem_cons.1 he with rfl | he
      · rcases List.mem_cons.1 hf with rfl | hf
        · exact List.mem_cons.2 (Or.inl hpr)
        · have h2 := List.rel_of_pairwise_cons hr hf
          rw [← hn, hname] at h2
          exact absurd h2 (lt_irrefl _)
      · rcases List.mem_cons.1 hf with rfl | hf
        · have h2 := List.rel_of_pairwise_cons hl he
          rw [hn, ← hname] at h2
          exact absurd h2 (lt_irrefl _)
        · exact List.mem_cons.2
            (Or.inr ((ih hl.of_cons hr.of_cons pr).2 ⟨e, he, f, hf, hpr, hn, hvf⟩))
  | case6 l ls r rs hname hlt ih =>
    intro hl hr pr
    simp only [mergeFiles]
    rw [if_neg hname, if_pos hlt]
    dsimp only
    rw [ih hl.of_cons hr pr]
    constructor
    · rintro ⟨e, he, f, hf, hpr, hn, hvf⟩
      exact ⟨e, List.mem_cons_of_mem _ he, f, hf, hpr, hn, hvf⟩
    · rintro ⟨e, he, f, hf, hpr, hn, hvf⟩
      rcases List.mem_cons.1 he with rfl | he
      · rcases List.mem_cons.1 hf with rfl | hf
        · exact absurd hn hname
        · have h2 := List.rel_of_pairwise_cons hr hf
          rw [← hn] at h2
          exact absurd (hlt.trans h2) (lt_irrefl _)
      · exact ⟨e, he, f, hf, hpr, hn, hvf⟩
  | case7 l ls r rs hname hnlt ih =>
    intro hl hr pr
    have hgt : r.name < l.name :=
      lt_of_le_of_ne (le_of_not_lt hnlt) (fun hc => hname hc.symm)
    simp only [mergeFiles]
    rw [if_neg hname, if_neg hnlt]
    dsimp only
    rw [ih hl hr.of_cons pr]
    constructor
    · rintro ⟨e, he, f, hf, hpr, hn, hvf⟩
      exact ⟨e, he, f, List.mem_cons_of_mem _ hf, hpr, hn, hvf⟩
    · rintro ⟨e, he, f, hf, hpr, hn, hvf⟩
      rcases List.mem_cons.1 hf with rfl | hf
      · rcases List.mem_cons.1 he with rfl | he
        · exact absurd hn hname
        · have h2 := List.rel_of_pairwise_cons hl he
          rw [hn] at h2
          exact absurd h2 hnlt
      · exact ⟨e, he, f, hf, hpr, hn, hvf⟩

theorem mergeFiles_swap_hash (o : FileOracle) (p : List String) :
    ∀ ls rs : List FSEntry,
    (∀ l ∈ ls, ∀ r ∈ rs, areFilesEqual o r.content l.content
        = areFilesEqual o l.content r.content) →
    (mergeFiles o p rs ls).hashDiff
      = (mergeFiles o p ls rs).hashDiff.map (fun pr => (pr.2, pr.1)) := by
  intro ls rs
  induction ls, rs using mergeFiles.induct o p with
  | case1 =>
    intro _
    simp [mergeFiles]
  | case2 r rs ih =>
    intro hsym
    simp only [mergeFiles]
    exact ih fun l hl => (List.not_mem_nil _ hl).elim
  | case3 l ls ih =>
    intro hsym
    simp only [mergeFiles]
    exact ih fun l' hl' r' hr' => (List.not_mem_nil _ hr').elim
  | case4 l ls r rs hname hv ih =>
    intro hsym
    have hv2 : areFilesEqual o r.content l.content = true :=
      (hsym l (List.mem_cons_self _ _) r (List.mem_cons_self _ _)).trans hv
    simp only [mergeFiles]
    rw [if_pos hname, if_pos hv, if_pos hname.symm, if_pos hv2]
    exact ih fun l' hl' r' hr' =>
      hsym l' (List.mem_cons_of_mem _ hl') r' (List.mem_cons_of_mem _ hr')
  | case5 l ls r rs hname hv ih =>
    intro hsym
    have hv2 : ¬areFilesEqual o r.content l.content = true := by
      rw [hsym l (List.mem_cons_self _ _) r (List.mem_cons_self _ _)]
      exact hv
    simp only [mergeFiles]
    rw [if_pos hname, if_neg hv, if_pos hname.symm, if_neg hv2]
    dsimp only
    rw [List.map_cons]
    exact congrArg _ (ih fun l' hl' r' hr' =>
      hsym l' (List.mem_cons_of_mem _ hl') r' (List.mem_cons_of_mem _ hr'))
  | case6 l ls r rs hname hlt ih =>
    intro hsym
    simp only [mergeFiles]
    rw [if_neg hname, if_pos hlt, if_neg (fun hc => hname hc.symm),
      if_neg (lt_asymm hlt)]
    exact ih fun l' hl' r' hr' => hsym l' (List.mem_cons_of_mem _ hl') r' hr'
  | case7 l ls r rs hname hnlt ih =>
    intro hsym
    have hgt : r.name < l.name :=
      lt_of_le_of_ne (le_of_not_lt hnlt) (fun hc => hname hc.symm)
    simp only [mergeFiles]
    rw [if_neg hname, if_neg hnlt, if_neg (fun hc => hname hc.symm), if_pos hgt]
    exact ih fun l' hl' r' hr' => hsym l' hl' r' (List.mem_cons_of_mem _ hr')

theorem mergeSubdirs_leftOnly_iff (p : List String) :
    ∀ (ls rs : List FSEntry), SortedNames ls → SortedNames rs → ∀ i : Item,
    (i ∈ (mergeSubdirs p ls rs).1 ↔
      ∃ e, e ∈ ls ∧ i = itemOf p e ∧ e.name ∉ rs.map FSEntry.name) := by
  intro ls rs
  induction ls, rs using mergeSubdirs.induct p with
  | case1 =>
    intro _ _ i
    simp [mergeSubdirs]
  | case2 r rs ih =>
    intro hl hr i
    simp only [mergeSubdirs]
    rw [ih hl hr.of_cons i]
    simp
  | case3 l ls ih =>
    intro hl hr i
    simp only [mergeSubdirs]
    constructor
    · intro h
      rcases List.mem_cons.1 h with h | h
      · exact ⟨l, List.mem_cons_self _ _, h, by simp⟩
      · obtain ⟨e, he, hi, -⟩ := (ih hl.of_cons hr i).1 h
        exact ⟨e, List.mem_cons_of_mem _ he, hi, by simp⟩
    · rintro ⟨e, he, hi, -⟩
      rcases List.mem_cons.1 he with rfl | he
      · exact List.mem_cons.2 (Or.inl hi)
      · exact List.mem_cons.2 (Or.inr ((ih hl.of_cons hr i).2 ⟨e, he, hi, by simp⟩))
  | case4 l ls r rs hname ih =>
    intro hl hr i
    simp only [mergeSubdirs]
    rw [if_pos hname]
    dsimp only
    rw [ih hl.of_cons hr.of_cons i]
    constructor
    · rintro ⟨e, he, hi, hn⟩
      refine ⟨e, List.mem_cons_of_mem _ he, hi, ?_⟩
      intro hc
      rw [List.map_cons, List.mem_cons] at hc
      rcases hc with hc | hc
      · have h2 := List.rel_of_pairwise_cons hl he
        rw [hc, ← hname] at h2
        exact absurd h2 (lt_irrefl _)
      · exact hn hc
    · rintro ⟨e, he, hi, hn⟩
      rcases List.mem_cons.1 he with rfl | he
      · exact absurd (by rw [List.map_cons]; exact List.mem_cons.2 (Or.inl hname)) hn
      · exact ⟨e, he, hi, fun hc => hn (by rw [List.map_cons]; exact List.mem_cons_of_mem _ hc)⟩
  | case5 l ls r rs hname hlt ih =>
    intro hl hr i
    simp only [mergeSubdirs]
    rw [if_neg hname, if_pos hlt]
    dsimp only
    constructor
    · intro h
      rcases List.mem_cons.1 h with h | h
      · refine ⟨l, List.mem_cons_self _ _, h, ?_⟩
        intro hc
        rw [List.map_cons, List.mem_cons] at hc
        rcases hc with hc | hc
        · exact hname hc
        · obtain ⟨x, hx, hxe⟩ := List.mem_map.1 hc
          have h2 := List.rel_of_pairwise_cons hr hx
          have h3 := hlt.trans h2
          rw [hxe] at h3
          exact absurd h3 (lt_irrefl _)
      · obtain ⟨e, he, hi, hn⟩ := (ih hl.of_cons hr i).1 h
        exact ⟨e, List.mem_cons_of_mem _ he, hi, hn⟩
    · rintro ⟨e, he, hi, hn⟩
      rcases List.mem_cons.1 he with rfl | he
      · exact List.mem_cons.2 (Or.inl hi)
      · exact List.mem_cons.2 (Or.inr ((ih hl.of_cons hr i).2 ⟨e, he, hi, hn⟩))
  | case6 l ls r rs hname hnlt ih =>
    intro hl hr i
    simp only [mergeSubdirs]
    rw [if_neg hname, if_neg hnlt]
    dsimp only
    rw [ih hl hr.of_cons i]
    constructor
    · rintro ⟨e, he, hi, hn⟩
      refine ⟨e, he, hi, ?_⟩
      intro hc
      rw [List.map_cons, List.mem_cons] at hc
      rcases hc with hc | hc
      · rcases List.mem_cons.1 he with rfl | he2
        · exact hname hc
        · have h2 := List.rel_of_pairwise_cons hl he2
          rw [hc] at h2
          exact hnlt h2
      · exact hn hc
    · rintro ⟨e, he, hi, hn⟩
      exact ⟨e, he, hi, fun hc => hn (by rw [List.map_cons]; exact List.mem_cons_of_mem _ hc)⟩

theorem mergeSubdirs_swap (p : List String) :
    ∀ ls rs : List FSEntry,
      (mergeSubdirs p rs ls).1 = (mergeSubdirs p ls rs).2.1 ∧
      (mergeSubdirs p rs ls).2.1 = (mergeSubdirs p ls rs).1 ∧
      (mergeSubdirs p rs ls).2.2
        = (mergeSubdirs p ls rs).2.2.map (fun pr => (pr.2, pr.1)) := by
  intro ls rs
  induction ls, rs using mergeSubdirs.induct p with
  | case1 => simp [mergeSubdirs]
  | case2 r rs ih =>
    simp only [mergeSubdirs]
    exact ⟨congrArg _ ih.1, ih.2.1, ih.2.2⟩
  | case3 l ls ih =>
    simp only [mergeSubdirs]
    exact ⟨ih.1, congrArg _ ih.2.1, ih.2.2⟩
  | case4 l ls r rs hname ih =>
    simp only [mergeSubdirs]
    rw [if_pos hname, if_pos hname.symm]
    dsimp only
    rw [List.map_cons]
    exact ⟨ih.1, ih.2.1, congrArg _ ih.2.2⟩
  | case5 l ls r rs hname hlt ih =>
    simp only [mergeSubdirs]
    rw [if_neg hname, if_pos hlt, if_neg (fun hc => hname hc.symm),
      if_neg (lt_asymm hlt)]
    dsimp only
    exact ⟨ih.1, congrArg _ ih.2.1, ih.2.2⟩
  | case6 l ls r rs hname hnlt ih =>
    have hgt : r.name < l.name :=
      lt_of_le_of_ne (le_of_not_lt hnlt) (fun hc => hname hc.symm)
    simp only [mergeSubdirs]
    rw [if_neg hname, if_neg hnlt, if_neg (fun hc => hname hc.symm), if_pos hgt]
    dsimp only
    exact ⟨congrArg _ ih.1, ih.2.1, ih.2.2⟩

theorem mergeSubdirs_rightOnly_iff (p : List String)
    {ls rs : List FSEntry} (hl : SortedNames ls) (hr : SortedNames rs)
    (i : Item) :
    i ∈ (mergeSubdirs p ls rs).2.1 ↔
      ∃ e, e ∈ rs ∧ i = itemOf p e ∧ e.name ∉ ls.map FSEntry.name := by
  rw [← (mergeSubdirs_swap p ls rs).1]
  exact mergeSubdirs_leftOnly_iff p rs ls hr hl i

theorem mergeSubdirs_matched_iff (p : List String) :
    ∀ (ls rs : List FSEntry), SortedNames ls → SortedNames rs →
      ∀ pr : FSEntry × FSEntry,
    (pr ∈ (mergeSubdirs p ls rs).2.2 ↔
      pr.1 ∈ ls ∧ pr.2 ∈ rs ∧ pr.1.name = pr.2.name) := by
  intro ls rs
  induction ls, rs using mergeSubdirs.induct p with
  | case1 =>
    intro _ _ pr
    simp [mergeSubdirs]
  | case2 r rs ih =>
    intro hl hr pr
    simp only [mergeSubdirs]
    rw [ih hl hr.of_cons pr]
    simp
  | case3 l ls ih =>
    intro hl hr pr
    simp only [mergeSubdirs]
    rw [ih hl.of_cons hr pr]
    simp
  | case4 l ls r rs hname ih =>
    intro hl hr pr
    simp only [mergeSubdirs]
    rw [if_pos hname]
    dsimp only
    constructor
    · intro h
      rcases List.mem_cons.1 h with rfl | h
      · exact ⟨List.mem_cons_self _ _, List.mem_cons_self _ _, hname⟩
      · obtain ⟨h1, h2, h3⟩ := (ih hl.of_cons hr.of_cons pr).1 h
        exact ⟨List.mem_cons_of_mem _ h1, List.mem_cons_of_mem _ h2, h3⟩
    · rintro ⟨h1, h2, h3⟩
      rcases List.mem_cons.1 h1 with he | he
      · rcases List.mem_cons.1 h2 with hf | hf
        · refine List.mem_cons.2 (Or.inl ?_)
          rcases pr with ⟨a, b⟩
          simp only at he hf
          rw [he, hf]
        · have hx := List.rel_of_pairwise_cons hr hf
          rw [← h3, he, hname] at hx
          exact absurd hx (lt_irrefl _)
      · rcases List.mem_cons.1 h2 with hf | hf
        · have hx := List.rel_of_pairwise_cons hl he
          rw [h3, hf, ← hname] at hx
          exact absurd hx (lt_irrefl _)
        · exact List.mem_cons.2 (Or.inr ((ih hl.of_cons hr.of_cons pr).2 ⟨he, hf, h3⟩))
  | case5 l ls r rs hname hlt ih =>
    intro hl hr pr
    simp only [mergeSubdirs]
    rw [if_neg hname, if_pos hlt]
    dsimp only
    rw [ih hl.of_cons hr pr]
    constructor
    · rintro ⟨h1, h2, h3⟩
      exact ⟨List.mem_cons_of_mem _ h1, h2, h3⟩
    · rintro ⟨h1, h2, h3⟩
      rcases List.mem_cons.1 h1 with he | he
      · rcases List.mem_cons.1 h2 with hf | hf
        · rw [he, hf] at h3
          exact absurd h3 hname
        · have hx := List.rel_of_pairwise_cons hr hf
          rw [← h3, he] at hx
          exact absurd (hlt.trans hx) (lt_irrefl _)
      · exact ⟨he, h2, h3⟩
  | case6 l ls r rs hname hnlt ih =>
    intro hl hr pr
    have hgt : r.name < l.name :=
      lt_of_le_of_ne (le_of_not_lt hnlt) (fun hc => hname hc.symm)
    simp only [mergeSubdirs]
    rw [if_neg hname, if_neg hnlt]
    dsimp only
    rw [ih hl hr.of_cons pr]
    constructor
    · rintro ⟨h1, h2, h3⟩
      exact ⟨h1, List.mem_cons_of_mem _ h2, h3⟩
    · rintro ⟨h1, h2, h3⟩
      rcases List.mem_cons.1 h2 with hf | hf
      · rcases List.mem_cons.1 h1 with he | he
        · rw [he, hf] at h3
          exact absurd h3 hname
        · have hx := List.rel_of_pairwise_cons hl he
          rw [h3, hf] at hx
          exact absurd hx hnlt
      · exact ⟨h1, hf, h3⟩

theorem mem_sortFilter (pred : FSEntry → Bool) (t : FsTree) (e : FSEntry) :
    e ∈ (t.mergeSort nameLe).filter pred ↔ e ∈ t ∧ pred e = true := by
  rw [List.mem_filter, (t.mergeSort_perm nameLe).mem_iff]

theorem mem_names_sortFilter (pred : FSEntry → Bool) (t : FsTree) (n : String) :
    n ∈ ((t.mergeSort nameLe).filter pred).map FSEntry.name ↔
      ∃ f, f ∈ t ∧ pred f = true ∧ f.name = n := by
  rw [List.mem_map]
  constructor
  · rintro ⟨f, hf, hn⟩
    rw [mem_sortFilter] at hf
    exact ⟨f, hf.1, hf.2, hn⟩
  · rintro ⟨f, hf, hp, hn⟩
    exact ⟨f, (mem_sortFilter pred t f).2 ⟨hf, hp⟩, hn⟩

theorem compare_leftOnly_iff (o : FileOracle) (p : List String) (lcs rcs : FsTree)
    (hl : (lcs.map FSEntry.name).Nodup) (hr : (rcs.map FSEntry.name).Nodup)
    (i : Item) :
    i ∈ (compareDirContents o p lcs rcs).leftOnly ↔
      (∃ e, e ∈ lcs ∧ e.isFile = true ∧ i = itemOf p e ∧
        ¬∃ f, f ∈ rcs ∧ f.isFile = true ∧ f.name = e.name) ∨
      (∃ e, e ∈ lcs ∧ e.isDir = true ∧ i = itemOf p e ∧
        ¬∃ f, f ∈ rcs ∧ f.isDir = true ∧ f.name = e.name) ∨
      (∃ dl, dl ∈ lcs ∧ ∃ dr, dr ∈ rcs ∧ dl.isDir = true ∧ dr.isDir = true ∧
        dl.name = dr.name ∧
        i ∈ (compareDirContents o (p ++ [dl.name])
              dl.childrenOf dr.childrenOf).leftOnly) := by
  have hsl := sortedNames_mergeSort hl
  have hsr := sortedNames_mergeSort hr
  rw [compareDirContents]
  simp only [List.mem_append]
  have e1 : i ∈ (mergeFiles o p ((lcs.mergeSort nameLe).filter FSEntry.isFile)
      ((rcs.mergeSort nameLe).filter FSEntry.isFile)).leftOnly ↔
      (∃ e, e ∈ lcs ∧ e.isFile = true ∧ i = itemOf p e ∧
        ¬∃ f, f ∈ rcs ∧ f.isFile = true ∧ f.name = e.name) := by
    rw [mergeFiles_leftOnly_iff o p _ _ (hsl.filter _) (hsr.filter _) i]
    constructor
    · rintro ⟨e, he, hi, hn⟩
      rw [mem_sortFilter] at he
      refine ⟨e, he.1, he.2, hi, ?_⟩
      rintro ⟨f, hf, hp2, hfe⟩
      exact hn ((mem_names_sortFilter _ _ _).2 ⟨f, hf, hp2, hfe⟩)
    · rintro ⟨e, he, hef, hi, hn⟩
      refine ⟨e, (mem_sortFilter _ _ _).2 ⟨he, hef⟩, hi, ?_⟩
      intro hc
      obtain ⟨f, hf, hp2, hfe⟩ := (mem_names_sortFilter _ _ _).1 hc
      exact hn ⟨f, hf, hp2, hfe⟩
  have e2 : i ∈ (mergeSubdirs p ((lcs.mergeSort nameLe).filter FSEntry.isDir)
      ((rcs.mergeSort nameLe).filter FSEntry.isDir)).1 ↔
      (∃ e, e ∈ lcs ∧ e.isDir = true ∧ i = itemOf p e ∧
        ¬∃ f, f ∈ rcs ∧ f.isDir = true ∧ f.name = e.name) := by
    rw [mergeSubdirs_leftOnly_iff p _ _ (hsl.filter _) (hsr.filter _) i]
    constructor
    · rintro ⟨e, he, hi, hn⟩
      rw [mem_sortFilter] at he
      refine ⟨e, he.1, he.2, hi, ?_⟩
      rintro ⟨f, hf, hp2, hfe⟩
      exact hn ((mem_names_sortFilter _ _ _).2 ⟨f, hf, hp2, hfe⟩)
    · rintro ⟨e, he, hef, hi, hn⟩
      refine ⟨e, (mem_sortFilter _ _ _).2 ⟨he, hef⟩, hi, ?_⟩
      intro hc
      obtain ⟨f, hf, hp2, hfe⟩ := (mem_names_sortFilter _ _ _).1 hc
      exact hn ⟨f, hf, hp2, hfe⟩
  have e3 : i ∈ (((mergeSubdirs p ((lcs.mergeSort nameLe).filter FSEntry.isDir)
        ((rcs.mergeSort nameLe).filter FSEntry.isDir)).2.2.attach.map fun pr =>
          compareDirContents o (p ++ [pr.1.1.name])
            pr.1.1.childrenOf pr.1.2.childrenOf).map DiffResult.leftOnly).flatten ↔
      (∃ dl, dl ∈ lcs ∧ ∃ dr, dr ∈ rcs ∧ dl.isDir = true ∧ dr.isDir = true ∧
        dl.name = dr.name ∧
        i ∈ (compareDirContents o (p ++ [dl.name])
              dl.childrenOf dr.childrenOf).leftOnly) := by
    constructor
    · intro h
      rw [List.mem_flatten] at h
      obtain ⟨ll, hll, hin⟩ := h
      rw [List.mem_map] at hll
      obtain ⟨dres, hdres, rfl⟩ := hll
      rw [List.mem_map] at hdres
      obtain ⟨⟨pr, hpr⟩, -, rfl⟩ := hdres
      have hm := (mergeSubdirs_matched_iff p _ _
        (hsl.filter _) (hsr.filter _) pr).1 hpr
      obtain ⟨h1, h2, h3⟩ := hm
      rw [mem_sortFilter] at h1 h2
      exact ⟨pr.1, h1.1, pr.2, h2.1, h1.2, h2.2, h3, hin⟩
    · rintro ⟨dl, hdl, dr, hdr, hdlD, hdrD, hn, hin⟩
      have hm : (dl, dr) ∈ (mergeSubdirs p
          ((lcs.mergeSort nameLe).filter FSEntry.isDir)
          ((rcs.mergeSort nameLe).filter FSEntry.isDir)).2.2 :=
        (mergeSubdirs_matched_iff p _ _ (hsl.filter _) (hsr.filter _) (dl, dr)).2
          ⟨(mem_sortFilter _ _ _).2 ⟨hdl, hdlD⟩,
           (mem_sortFilter _ _ _).2 ⟨hdr, hdrD⟩, hn⟩
      rw [List.mem_flatten]
      refine ⟨(compareDirContents o (p ++ [dl.name])
          dl.childrenOf dr.childrenOf).leftOnly, ?_, hin⟩
      rw [List.mem_map]
      refine ⟨compareDirContents o (p ++ [dl.name]) dl.childrenOf dr.childrenOf,
        ?_, rfl⟩
      rw [List.mem_map]
      exact ⟨⟨(dl, dr), hm⟩, List.mem_attach _ _, rfl⟩
  rw [e1, e2, e3, or_assoc]

theorem compare_rightOnly_iff (o : FileOracle) (p : List String) (lcs rcs : FsTree)
    (hl : (lcs.map FSEntry.name).Nodup) (hr : (rcs.map FSEntry.name).Nodup)
    (i : Item) :
    i ∈ (compareDirContents o p lcs rcs).rightOnly ↔
      (∃ e, e ∈ rcs ∧ e.isFile = true ∧ i = itemOf p e ∧
        ¬∃ f, f ∈ lcs ∧ f.isFile = true ∧ f.name = e.name) ∨
      (∃ e, e ∈ rcs ∧ e.isDir = true ∧ i = itemOf p e ∧
        ¬∃ f, f ∈ lcs ∧ f.isDir = true ∧ f.name = e.name) ∨
      (∃ dl, dl ∈ lcs ∧ ∃ dr, dr ∈ rcs ∧ dl.isDir = true ∧ dr.isDir = true ∧
        dl.name = dr.name ∧
        i ∈ (compareDirContents o (p ++ [dl.name])
              dl.childrenOf dr.childrenOf).rightOnly) := by
  have hsl := sortedNames_mergeSort hl
  have hsr := sortedNames_mergeSort hr
  rw [compareDirContents]
  simp only [List.mem_append]
  have e1 : i ∈ (mergeFiles o p ((lcs.mergeSort nameLe).filter FSEntry.isFile)
      ((rcs.mergeSort nameLe).filter FSEntry.isFile)).rightOnly ↔
      (∃ e, e ∈ rcs ∧ e.isFile = true ∧ i = itemOf p e ∧
        ¬∃ f, f ∈ lcs ∧ f.isFile = true ∧ f.name = e.name) := by
    rw [mergeFiles_rightOnly_iff o p (hsl.filter _) (hsr.filter _) i]
    constructor
    · rintro ⟨e, he, hi, hn⟩
      rw [mem_sortFilter] at he
      refine ⟨e, he.1, he.2, hi, ?_⟩
      rintro ⟨f, hf, hp2, hfe⟩
      exact hn ((mem_names_sortFilter _ _ _).2 ⟨f, hf, hp2, hfe⟩)
    · rintro ⟨e, he, hef, hi, hn⟩
      refine ⟨e, (mem_sortFilter _ _ _).2 ⟨he, hef⟩, hi, ?_⟩
      intro hc
      obtain ⟨f, hf, hp2, hfe⟩ := (mem_names_sortFilter _ _ _).1 hc
      exact hn ⟨f, hf, hp2, hfe⟩
  have e2 : i ∈ (mergeSubdirs p ((lcs.mergeSort nameLe).filter FSEntry.isDir)
      ((rcs.mergeSort nameLe).filter FSEntry.isDir)).2.1 ↔
      (∃ e, e ∈ rcs ∧ e.isDir = true ∧ i = itemOf p e ∧
        ¬∃ f, f ∈ lcs ∧ f.isDir = true ∧ f.name = e.name) := by
    rw [mergeSubdirs_rightOnly_iff p (hsl.filter _) (hsr.filter _) i]
    constructor
    · rintro ⟨e, he, hi, hn⟩
      rw [mem_sortFilter] at he
      refine ⟨e, he.1, he.2, hi, ?_⟩
      rintro ⟨f, hf, hp2, hfe⟩
      exact hn ((mem_names_sortFilter _ _ _).2 ⟨f, hf, hp2, hfe⟩)
    · rintro ⟨e, he, hef, hi, hn⟩
      refine ⟨e, (mem_sortFilter _ _ _).2 ⟨he, hef⟩, hi, ?_⟩
      intro hc
      obtain ⟨f, hf, hp2, hfe⟩ := (mem_names_sortFilter _ _ _).1 hc
      exact hn ⟨f, hf, hp2, hfe⟩
  have e3 : i ∈ (((mergeSubdirs p ((lcs.mergeSort nameLe).filter FSEntry.isDir)
        ((rcs.mergeSort nameLe).filter FSEntry.isDir)).2.2.attach.map fun pr =>
          compareDirContents o (p ++ [pr.1.1.name])
            pr.1.1.childrenOf pr.1.2.childrenOf).map DiffResult.rightOnly).flatten ↔
      (∃ dl, dl ∈ lcs ∧ ∃ dr, dr ∈ rcs ∧ dl.isDir = true ∧ dr.isDir = true ∧
        dl.name = dr.name ∧
        i ∈ (compareDirContents o (p ++ [dl.name])
              dl.childrenOf dr.childrenOf).rightOnly) := by
    constructor
    · intro h
      rw [List.mem_flatten] at h
      obtain ⟨ll, hll, hin⟩ := h
      rw [List.mem_map] at hll
      obtain ⟨dres, hdres, rfl⟩ := hll
      rw [List.mem_map] at hdres
      obtain ⟨⟨pr, hpr⟩, -, rfl⟩ := hdres
      have hm := (mergeSubdirs_matched_iff p _ _
        (hsl.filter _) (hsr.filter _) pr).1 hpr
      obtain ⟨h1, h2, h3⟩ := hm
      rw [mem_sortFilter] at h1 h2
      exact ⟨pr.1, h1.1, pr.2, h2.1, h1.2, h2.2, h3, hin⟩
    · rintro ⟨dl, hdl, dr, hdr, hdlD, hdrD, hn, hin⟩
      have hm : (dl, dr) ∈ (mergeSubdirs p
          ((lcs.mergeSort nameLe).filter FSEntry.isDir)
          ((rcs.mergeSort nameLe).filter FSEntry.isDir)).2.2 :=
        (mergeSubdirs_matched_iff p _ _ (hsl.filter _) (hsr.filter _) (dl, dr)).2
          ⟨(mem_sortFilter _ _ _).2 ⟨hdl, hdlD⟩,
           (mem_sortFilter _ _ _).2 ⟨hdr, hdrD⟩, hn⟩
      rw [List.mem_flatten]
      refine ⟨(compareDirContents o (p ++ [dl.name])
          dl.childrenOf dr.childrenOf).rightOnly, ?_, hin⟩
      rw [List.mem_map]
      refine ⟨compareDirContents o (p ++ [dl.name]) dl.childrenOf dr.childrenOf,
        ?_, rfl⟩
      rw [List.mem_map]
      exact ⟨⟨(dl, dr), hm⟩, List.mem_attach _ _, rfl⟩
  rw [e1, e2, e3, or_assoc]

theorem compare_hashDiff_iff (o : FileOracle) (p : List String) (lcs rcs : FsTree)
    (hl : (lcs.map FSEntry.name).Nodup) (hr : (rcs.map FSEntry.name).Nodup)
    (pr : Item × Item) :
    pr ∈ (compareDirContents o p lcs rcs).hashDiff ↔
      (∃ e, e ∈ lcs ∧ e.isFile = true ∧ ∃ f, f ∈ rcs ∧ f.isFile = true ∧
        pr = (itemOf p e, itemOf p f) ∧ e.name = f.name ∧
        areFilesEqual o e.content f.content = false) ∨
      (∃ dl, dl ∈ lcs ∧ ∃ dr, dr ∈ rcs ∧ dl.isDir = true ∧ dr.isDir = true ∧
        dl.name = dr.name ∧
        pr ∈ (compareDirContents o (p ++ [dl.name])
              dl.childrenOf dr.childrenOf).hashDiff) := by
  have hsl := sortedNames_mergeSort hl
  have hsr := sortedNames_mergeSort hr
  rw [compareDirContents]
  simp only [List.mem_append]
  have e1 : pr ∈ (mergeFiles o p ((lcs.mergeSort nameLe).filter FSEntry.isFile)
      ((rcs.mergeSort nameLe).filter FSEntry.isFile)).hashDiff ↔
      (∃ e, e ∈ lcs ∧ e.isFile = true ∧ ∃ f, f ∈ rcs ∧ f.isFile = true ∧
        pr = (itemOf p e, itemOf p f) ∧ e.name = f.name ∧
        areFilesEqual o e.content f.content = false) := by
    rw [mergeFiles_hashDiff_iff o p _ _ (hsl.filter _) (hsr.filter _) pr]
    constructor
    · rintro ⟨e, he, f, hf, hpr, hn, hv⟩
      rw [mem_sortFilter] at he hf
      exact ⟨e, he.1, he.2, f, hf.1, hf.2, hpr, hn, hv⟩
    · rintro ⟨e, he, hef, f, hf, hff, hpr, hn, hv⟩
      exact ⟨e, (mem_sortFilter _ _ _).2 ⟨he, hef⟩, f,
        (mem_sortFilter _ _ _).2 ⟨hf, hff⟩, hpr, hn, hv⟩
  have e3 : pr ∈ (((mergeSubdirs p ((lcs.mergeSort nameLe).filter FSEntry.isDir)
        ((rcs.mergeSort nameLe).filter FSEntry.isDir)).2.2.attach.map fun q =>
          compareDirContents o (p ++ [q.1.1.name])
            q.1.1.childrenOf q.1.2.childrenOf).map DiffResult.hashDiff).flatten ↔
      (∃ dl, dl ∈ lcs ∧ ∃ dr, dr ∈ rcs ∧ dl.isDir = true ∧ dr.isDir = true ∧
        dl.name = dr.name ∧
        pr ∈ (compareDirContents o (p ++ [dl.name])
              dl.childrenOf dr.childrenOf).hashDiff) := by
    constructor
    · intro h
      rw [List.mem_flatten] at h
      obtain ⟨ll, hll, hin⟩ := h
      rw [List.mem_map] at hll
      obtain ⟨dres, hdres, rfl⟩ := hll
      rw [List.mem_map] at hdres
      obtain ⟨⟨q, hq⟩, -, rfl⟩ := hdres
      have hm := (mergeSubdirs_matched_iff p _ _
        (hsl.filter _) (hsr.filter _) q).1 hq
      obtain ⟨h1, h2, h3⟩ := hm
      rw [mem_sortFilter] at h1 h2
      exact ⟨q.1, h1.1, q.2, h2.1, h1.2, h2.2, h3, hin⟩
    · rintro ⟨dl, hdl, dr, hdr, hdlD, hdrD, hn, hin⟩
      have hm : (dl, dr) ∈ (mergeSubdirs p
          ((lcs.mergeSort nameLe).filter FSEntry.isDir)
          ((rcs.mergeSort nameLe).filter FSEntry.isDir)).2.2 :=
        (mergeSubdirs_matched_iff p _ _ (hsl.filter _) (hsr.filter _) (dl, dr)).2
          ⟨(mem_sortFilter _ _ _).2 ⟨hdl, hdlD⟩,
           (mem_sortFilter _ _ _).2 ⟨hdr, hdrD⟩, hn⟩
      rw [List.mem_flatten]
      refine ⟨(compareDirContents o (p ++ [dl.name])
          dl.childrenOf dr.childrenOf).hashDiff, ?_, hin⟩
      rw [List.mem_map]
      refine ⟨compareDirContents o (p ++ [dl.name]) dl.childrenOf dr.childrenOf,
        ?_, rfl⟩
      rw [List.mem_map]
      exact ⟨⟨(dl, dr), hm⟩, List.mem_attach _ _, rfl⟩
  rw [e1, e3]

theorem WfE_dir_iff {n : String} {ch : List FSEntry} :
    WfE (.dir n ch) ↔ (ch.map FSEntry.name).Nodup ∧ ∀ e ∈ ch, WfE e := by
  rw [WfE]

theorem WfT.children {t : FsTree} (h : WfT t) {n : String} {ch : List FSEntry}
    (hm : FSEntry.dir n ch ∈ t) : WfT ch := by
  have h2 := h.2 _ hm
  rw [WfE] at h2
  exact h2

theorem WfT.childrenOf_mem {t : FsTree} (h : WfT t) {e : FSEntry} (hm : e ∈ t)
    (hd : e.isDir = true) : WfT e.childrenOf := by
  cases e with
  | file n c => simp [FSEntry.isDir] at hd
  | dir n ch => exact h.children hm

theorem mem_name_unique {a b : FSEntry} :
    ∀ {t : FsTree}, (t.map FSEntry.name).Nodup → a ∈ t → b ∈ t →
      a.name = b.name → a = b := by
  intro t
  induction t with
  | nil =>
    intro _ ha
    exact absurd ha (List.not_mem_nil _)
  | cons x xs ih =>
    intro h ha hb hn
    rw [List.map_cons, List.nodup_cons] at h
    rcases List.mem_cons.1 ha with rfl | ha2
    · rcases List.mem_cons.1 hb with rfl | hb2
      · rfl
      · exact absurd (by rw [hn]; exact List.mem_map_of_mem _ hb2) h.1
    · rcases List.mem_cons.1 hb with rfl | hb2
      · exact absurd (by rw [← hn]; exact List.mem_map_of_mem _ ha2) h.1
      · exact ih h.2 ha2 hb2 hn

theorem compare_shape (o : FileOracle) (p : List String) (lcs rcs : FsTree) :
    WfT lcs → WfT rcs →
    ((∀ i ∈ (compareDirContents o p lcs rcs).leftOnly,
        ∃ e s, e ∈ lcs ∧ i.rpath = p ++ e.name :: s) ∧
     (∀ i ∈ (compareDirContents o p lcs rcs).rightOnly,
        ∃ e s, e ∈ rcs ∧ i.rpath = p ++ e.name :: s) ∧
     (∀ pr ∈ (compareDirContents o p lcs rcs).hashDiff,
        (∃ e s, e ∈ lcs ∧ pr.1.rpath = p ++ e.name :: s) ∧
        pr.2.rpath = pr.1.rpath)) := by
  induction p, lcs, rcs using compareDirContents.induct o with
  | _ p lcs rcs ls1 rs1 dD1 ih =>
  intro hwl hwr
  refine ⟨?_, ?_, ?_⟩
  · intro i hi
    rcases (compare_leftOnly_iff o p lcs rcs hwl.1 hwr.1 i).1 hi with
      ⟨e, he, -, hie, -⟩ | ⟨e, he, -, hie, -⟩ |
      ⟨dl, hdl, dr, hdr, hdlD, hdrD, hn, hin⟩
    · exact ⟨e, [], he, by rw [hie]; rfl⟩
    · exact ⟨e, [], he, by rw [hie]; rfl⟩
    · have hm : (dl, dr) ∈ (mergeSubdirs p
          ((lcs.mergeSort nameLe).filter FSEntry.isDir)
          ((rcs.mergeSort nameLe).filter FSEntry.isDir)).2.2 :=
        (mergeSubdirs_matched_iff p _ _
          ((sortedNames_mergeSort hwl.1).filter _)
          ((sortedNames_mergeSort hwr.1).filter _) (dl, dr)).2
          ⟨(mem_sortFilter _ _ _).2 ⟨hdl, hdlD⟩,
           (mem_sortFilter _ _ _).2 ⟨hdr, hdrD⟩, hn⟩
      have hrec := (ih ⟨(dl, dr), hm⟩ (hwl.childrenOf_mem hdl hdlD)
        (hwr.childrenOf_mem hdr hdrD)).1 i hin
      obtain ⟨e', s', -, hsp⟩ := hrec
      exact ⟨dl, e'.name :: s', hdl, by rw [hsp, List.append_assoc]; rfl⟩
  · intro i hi
    rcases (compare_rightOnly_iff o p lcs rcs hwl.1 hwr.1 i).1 hi with
      ⟨e, he, -, hie, -⟩ | ⟨e, he, -, hie, -⟩ |
      ⟨dl, hdl, dr, hdr, hdlD, hdrD, hn, hin⟩
    · exact ⟨e, [], he, by rw [hie]; rfl⟩
    · exact ⟨e, [], he, by rw [hie]; rfl⟩
    · have hm : (dl, dr) ∈ (mergeSubdirs p
          ((lcs.mergeSort nameLe).filter FSEntry.isDir)
          ((rcs.mergeSort nameLe).filter FSEntry.isDir)).2.2 :=
        (mergeSubdirs_matched_iff p _ _
          ((sortedNames_mergeSort hwl.1).filter _)
          ((sortedNames_mergeSort hwr.1).filter _) (dl, dr)).2
          ⟨(mem_sortFilter _ _ _).2 ⟨hdl, hdlD⟩,
           (mem_sortFilter _ _ _).2 ⟨hdr, hdrD⟩, hn⟩
      have hrec := (ih ⟨(dl, dr), hm⟩ (hwl.childrenOf_mem hdl hdlD)
        (hwr.childrenOf_mem hdr hdrD)).2.1 i hin
      obtain ⟨e', s', he', hsp⟩ := hrec
      refine ⟨dr, e'.name :: s', hdr, ?_⟩
      rw [hsp, List.append_assoc, ← hn]
      rfl
  · intro pr hpr
    rcases (compare_hashDiff_iff o p lcs rcs hwl.1 hwr.1 pr).1 hpr with
      ⟨e, he, -, f, hf, -, hpe, hn, -⟩ |
      ⟨dl, hdl, dr, hdr, hdlD, hdrD, hn, hin⟩
    · constructor
      · exact ⟨e, [], he, by rw [hpe]; rfl⟩
      · rw [hpe]
        show p ++ [f.name] = p ++ [e.name]
        rw [hn]
    · have hm : (dl, dr) ∈ (mergeSubdirs p
          ((lcs.mergeSort nameLe).filter FSEntry.isDir)
          ((rcs.mergeSort nameLe).filter FSEntry.isDir)).2.2 :=
        (mergeSubdirs_matched_iff p _ _
          ((sortedNames_mergeSort hwl.1).filter _)
          ((sortedNames_mergeSort hwr.1).filter _) (dl, dr)).2
          ⟨(mem_sortFilter _ _ _).2 ⟨hdl, hdlD⟩,
           (mem_sortFilter _ _ _).2 ⟨hdr, hdrD⟩, hn⟩
      have hrec := (ih ⟨(dl, dr), hm⟩ (hwl.childrenOf_mem hdl hdlD)
        (hwr.childrenOf_mem hdr hdrD)).2.2 pr hin
      obtain ⟨⟨e', s', he', hsp⟩, hpp⟩ := hrec
      exact ⟨⟨dl, e'.name :: s', hdl, by rw [hsp, List.append_assoc]; rfl⟩, hpp⟩

theorem compare_disjoint (o : FileOracle) (p : List String) (lcs rcs : FsTree) :
    WfT lcs → WfT rcs →
    ((∀ i ∈ (compareDirContents o p lcs rcs).leftOnly,
       ∀ j ∈ (compareDirContents o p lcs rcs).rightOnly,
        i.rpath = j.rpath →
          (i.entry.isFile = true ∧ j.entry.isDir = true) ∨
          (i.entry.isDir = true ∧ j.entry.isFile = true)) ∧
     (∀ i ∈ (compareDirContents o p lcs rcs).leftOnly,
       ∀ pr ∈ (compareDirContents o p lcs rcs).hashDiff,
        i.rpath ≠ pr.1.rpath ∧ i.rpath ≠ pr.2.rpath) ∧
     (∀ j ∈ (compareDirContents o p lcs rcs).rightOnly,
       ∀ pr ∈ (compareDirContents o p lcs rcs).hashDiff,
        j.rpath ≠ pr.1.rpath ∧ j.rpath ≠ pr.2.rpath)) := by
  induction p, lcs, rcs using compareDirContents.induct o with
  | _ p lcs rcs ls1 rs1 dD1 ih =>
  intro hwl hwr
  have hmk : ∀ {dl dr : FSEntry}, dl ∈ lcs → dr ∈ rcs → dl.isDir = true →
      dr.isDir = true → dl.name = dr.name →
      (dl, dr) ∈ (mergeSubdirs p
        ((lcs.mergeSort nameLe).filter FSEntry.isDir)
        ((rcs.mergeSort nameLe).filter FSEntry.isDir)).2.2 :=
    fun hdl hdr h1 h2 h3 =>
      (mergeSubdirs_matched_iff p _ _
        ((sortedNames_mergeSort hwl.1).filter _)
        ((sortedNames_mergeSort hwr.1).filter _) _).2
        ⟨(mem_sortFilter _ _ _).2 ⟨hdl, h1⟩,
         (mem_sortFilter _ _ _).2 ⟨hdr, h2⟩, h3⟩
  have hsplit : ∀ (x : String) (t : List String), (p ++ [x]) ++ t = p ++ x :: t := by
    intro x t
    rw [List.append_assoc]
    rfl
  have hcons : ∀ {n n' : String} {s s' : List String},
      p ++ n :: s = p ++ n' :: s' → n = n' ∧ s = s' := by
    intro n n' s s' h
    have h2 := List.append_cancel_left h
    rw [List.cons.injEq] at h2
    exact h2
  refine ⟨?_, ?_, ?_⟩
  · -- leftOnly vs rightOnly
    intro i hi j hj hrp
    rcases (compare_leftOnly_iff o p lcs rcs hwl.1 hwr.1 i).1 hi with
      ⟨e, he, hef, hie, hnone⟩ | ⟨e, he, hed, hie, hnone⟩ |
      ⟨dl, hdl, dr, hdr, hdlD, hdrD, hn, hin⟩
    · -- i is a left-only file at this level
      rcases (compare_rightOnly_iff o p lcs rcs hwl.1 hwr.1 j).1 hj with
        ⟨f, hf, hff, hjf, hnone2⟩ | ⟨f, hf, hfd, hjf, hnone2⟩ |
        ⟨dl', hdl', dr', hdr', hdlD', hdrD', hn', hin'⟩
      · rw [hie, hjf] at hrp
        have hnm := (hcons hrp).1
        exact absurd ⟨f, hf, hff, hnm.symm⟩ hnone
      · rw [hie, hjf]
        exact Or.inl ⟨hef, hfd⟩
      · have hsh := (compare_shape o (p ++ [dl'.name]) dl'.childrenOf
          dr'.childrenOf (hwl.childrenOf_mem hdl' hdlD')
          (hwr.childrenOf_mem hdr' hdrD')).2.1 j hin'
        obtain ⟨e', s', -, hjp⟩ := hsh
        rw [hie, hjp, hsplit] at hrp
        have := (hcons hrp).2
        exact absurd this.symm (List.cons_ne_nil _ _)
    · -- i is a left-only directory at this level
      rcases (compare_rightOnly_iff o p lcs rcs hwl.1 hwr.1 j).1 hj with
        ⟨f, hf, hff, hjf, hnone2⟩ | ⟨f, hf, hfd, hjf, hnone2⟩ |
        ⟨dl', hdl', dr', hdr', hdlD', hdrD', hn', hin'⟩
      · rw [hie, hjf]
        exact Or.inr ⟨hed, hff⟩
      · rw [hie, hjf] at hrp
        have hnm := (hcons hrp).1
        exact absurd ⟨f, hf, hfd, hnm.symm⟩ hnone
      · have hsh := (compare_shape o (p ++ [dl'.name]) dl'.childrenOf
          dr'.childrenOf (hwl.childrenOf_mem hdl' hdlD')
          (hwr.childrenOf_mem hdr' hdrD')).2.1 j hin'
        obtain ⟨e', s', -, hjp⟩ := hsh
        rw [hie, hjp, hsplit] at hrp
        have := (hcons hrp).2
        exact absurd this.symm (List.cons_ne_nil _ _)
    · -- i comes from the recursion into matched pair (dl, dr)
      have hshi := (compare_shape o (p ++ [dl.name]) dl.childrenOf
        dr.childrenOf (hwl.childrenOf_mem hdl hdlD)
        (hwr.childrenOf_mem hdr hdrD)).1 i hin
      obtain ⟨e1, s1, -, hip⟩ := hshi
      rcases (compare_rightOnly_iff o p lcs rcs hwl.1 hwr.1 j).1 hj with
        ⟨f, hf, hff, hjf, hnone2⟩ | ⟨f, hf, hfd, hjf, hnone2⟩ |
        ⟨dl', hdl', dr', hdr', hdlD', hdrD', hn', hin'⟩
      · rw [hip, hsplit, hjf] at hrp
        have := (hcons hrp).2
        exact absurd this (List.cons_ne_nil _ _)
      · rw [hip, hsplit, hjf] at hrp
        have := (hcons hrp).2
        exact absurd this (List.cons_ne_nil _ _)
      · have hshj := (compare_shape o (p ++ [dl'.name]) dl'.childrenOf
          dr'.childrenOf (hwl.childrenOf_mem hdl' hdlD')
          (hwr.childrenOf_mem hdr' hdrD')).2.1 j hin'
        obtain ⟨e2, s2, -, hjp⟩ := hshj
        have hrp2 := hrp
        rw [hip, hsplit, hjp, hsplit] at hrp2
        have hdname := (hcons hrp2).1
        have hdleq : dl = dl' := mem_name_unique hwl.1 hdl hdl' hdname
        have hdreq : dr = dr' :=
          mem_name_unique hwr.1 hdr hdr' (by rw [← hn, ← hn', hdname])
        subst hdleq
        subst hdreq
        exact (ih ⟨(dl, dr), hmk hdl hdr hdlD hdrD hn⟩
          (hwl.childrenOf_mem hdl hdlD) (hwr.childrenOf_mem hdr hdrD)).1
          i hin j hin' hrp
  · -- leftOnly vs hashDiff
    intro i hi pr hpr
    have hpp := ((compare_shape o p lcs rcs hwl hwr).2.2 pr hpr).2
    have main : i.rpath ≠ pr.1.rpath := by
      rcases (compare_leftOnly_iff o p lcs rcs hwl.1 hwr.1 i).1 hi with
        ⟨e, he, hef, hie, hnone⟩ | ⟨e, he, hed, hie, hnone⟩ |
        ⟨dl, hdl, dr, hdr, hdlD, hdrD, hn, hin⟩
      · rcases (compare_hashDiff_iff o p lcs rcs hwl.1 hwr.1 pr).1 hpr with
          ⟨e', he', hef', f', hf', hff', hpe, hn', -⟩ |
          ⟨dl', hdl', dr', hdr', hdlD', hdrD', hn', hin'⟩
        · intro hrp
          rw [hie, hpe] at hrp
          have hnm := (hcons hrp).1
          exact hnone ⟨f', hf', hff', by rw [← hn', ← hnm]⟩
        · intro hrp
          have hsh := (compare_shape o (p ++ [dl'.name]) dl'.childrenOf
            dr'.childrenOf (hwl.childrenOf_mem hdl' hdlD')
            (hwr.childrenOf_mem hdr' hdrD')).2.2 pr hin'
          obtain ⟨⟨e2, s2, -, hpr1⟩, -⟩ := hsh
          rw [hie, hpr1, hsplit] at hrp
          have := (hcons hrp).2
          exact absurd this.symm (List.cons_ne_nil _ _)
      · rcases (compare_hashDiff_iff o p lcs rcs hwl.1 hwr.1 pr).1 hpr with
          ⟨e', he', hef', f', hf', hff', hpe, hn', -⟩ |
          ⟨dl', hdl', dr', hdr', hdlD', hdrD', hn', hin'⟩
        · intro hrp
          rw [hie, hpe] at hrp
          have hnm := (hcons hrp).1
          have heq : e = e' := mem_name_unique hwl.1 he he' hnm
          subst heq
          cases e with
          | file n c => simp [FSEntry.isDir] at hed
          | dir n ch => simp [FSEntry.isFile] at hef'
        · intro hrp
          have hsh := (compare_shape o (p ++ [dl'.name]) dl'.childrenOf
            dr'.childrenOf (hwl.childrenOf_mem hdl' hdlD')
            (hwr.childrenOf_mem hdr' hdrD')).2.2 pr hin'
          obtain ⟨⟨e2, s2, -, hpr1⟩, -⟩ := hsh
          rw [hie, hpr1, hsplit] at hrp
          have := (hcons hrp).2
          exact absurd this.symm (List.cons_ne_nil _ _)
      · have hshi := (compare_shape o (p ++ [dl.name]) dl.childrenOf
          dr.childrenOf (hwl.childrenOf_mem hdl hdlD)
          (hwr.childrenOf_mem hdr hdrD)).1 i hin
        obtain ⟨e1, s1, -, hip⟩ := hshi
        rcases (compare_hashDiff_iff o p lcs rcs hwl.1 hwr.1 pr).1 hpr with
          ⟨e', he', hef', f', hf', hff', hpe, hn', -⟩ |
          ⟨dl', hdl', dr', hdr', hdlD', hdrD', hn', hin'⟩
        · intro hrp
          rw [hip, hsplit, hpe] at hrp
          have := (hcons hrp).2
          exact absurd this (List.cons_ne_nil _ _)
        · intro hrp
          have hsh := (compare_shape o (p ++ [dl'.name]) dl'.childrenOf
            dr'.childrenOf (hwl.childrenOf_mem hdl' hdlD')
            (hwr.childrenOf_mem hdr' hdrD')).2.2 pr hin'
          obtain ⟨⟨e2, s2, -, hpr1⟩, -⟩ := hsh
          have hrp2 := hrp
          rw [hip, hsplit, hpr1, hsplit] at hrp2
          have hdname := (hcons hrp2).1
          have hdleq : dl = dl' := mem_name_unique hwl.1 hdl hdl' hdname
          have hdreq : dr = dr' :=
            mem_name_unique hwr.1 hdr hdr' (by rw [← hn, ← hn', hdname])
          subst hdleq
          subst hdreq
          exact ((ih ⟨(dl, dr), hmk hdl hdr hdlD hdrD hn⟩
            (hwl.childrenOf_mem hdl hdlD) (hwr.childrenOf_mem hdr hdrD)).2.1
            i hin pr hin').1 hrp
    exact ⟨main, by rw [hpp]; exact main⟩
  · -- rightOnly vs hashDiff
    intro j hj pr hpr
    have hpp := ((compare_shape o p lcs rcs hwl hwr).2.2 pr hpr).2
    have main : j.rpath ≠ pr.1.rpath := by
      rcases (compare_rightOnly_iff o p lcs rcs hwl.1 hwr.1 j).1 hj with
        ⟨e, he, hef, hie, hnone⟩ | ⟨e, he, hed, hie, hnone⟩ |
        ⟨dl, hdl, dr, hdr, hdlD, hdrD, hn, hin⟩
      · rcases (compare_hashDiff_iff o p lcs rcs hwl.1 hwr.1 pr).1 hpr with
          ⟨e', he', hef', f', hf', hff', hpe, hn', -⟩ |
          ⟨dl', hdl', dr', hdr', hdlD', hdrD', hn', hin'⟩
        · intro hrp
          rw [hie, hpe] at hrp
          have hnm := (hcons hrp).1
          exact hnone ⟨e', he', hef', hnm.symm⟩
        · intro hrp
          have hsh := (compare_shape o (p ++ [dl'.name]) dl'.childrenOf
            dr'.childrenOf (hwl.childrenOf_mem hdl' hdlD')
            (hwr.childrenOf_mem hdr' hdrD')).2.2 pr hin'
          obtain ⟨⟨e2, s2, -, hpr1⟩, -⟩ := hsh
          rw [hie, hpr1, hsplit] at hrp
          have := (hcons hrp).2
          exact absurd this.symm (List.cons_ne_nil _ _)
      · rcases (compare_hashDiff_iff o p lcs rcs hwl.1 hwr.1 pr).1 hpr with
          ⟨e', he', hef', f', hf', hff', hpe, hn', -⟩ |
          ⟨dl', hdl', dr', hdr', hdlD', hdrD', hn', hin'⟩
        · intro hrp
          rw [hie, hpe] at hrp
          have hnm := (hcons hrp).1
          have heq : e = f' := mem_name_unique hwr.1 he hf' (by rw [hnm, ← hn'])
          subst heq
          cases e with
          | file n c => simp [FSEntry.isDir] at hed
          | dir n ch => simp [FSEntry.isFile] at hff'
        · intro hrp
          have hsh := (compare_shape o (p ++ [dl'.name]) dl'.childrenOf
            dr'.childrenOf (hwl.childrenOf_mem hdl' hdlD')
            (hwr.childrenOf_mem hdr' hdrD')).2.2 pr hin'
          obtain ⟨⟨e2, s2, -, hpr1⟩, -⟩ := hsh
          rw [hie, hpr1, hsplit] at hrp
          have := (hcons hrp).2
          exact absurd this.symm (List.cons_ne_nil _ _)
      · have hshj := (compare_shape o (p ++ [dl.name]) dl.childrenOf
          dr.childrenOf (hwl.childrenOf_mem hdl hdlD)
          (hwr.childrenOf_mem hdr hdrD)).2.1 j hin
        obtain ⟨e1, s1, -, hjp⟩ := hshj
        rcases (compare_hashDiff_iff o p lcs rcs hwl.1 hwr.1 pr).1 hpr with
          ⟨e', he', hef', f', hf', hff', hpe, hn', -⟩ |
          ⟨dl', hdl', dr', hdr', hdlD', hdrD', hn', hin'⟩
        · intro hrp
          rw [hjp, hsplit, hpe] at hrp
          have := (hcons hrp).2
          exact absurd this (List.cons_ne_nil _ _)
        · intro hrp
          have hsh := (compare_shape o (p ++ [dl'.name]) dl'.childrenOf
            dr'.childrenOf (hwl.childrenOf_mem hdl' hdlD')
            (hwr.childrenOf_mem hdr' hdrD')).2.2 pr hin'
          obtain ⟨⟨e2, s2, -, hpr1⟩, -⟩ := hsh
          have hrp2 := hrp
          rw [hjp, hsplit, hpr1, hsplit] at hrp2
          have hdname := (hcons hrp2).1
          have hdleq : dl = dl' := mem_name_unique hwl.1 hdl hdl' hdname
          have hdreq : dr = dr' :=
            mem_name_unique hwr.1 hdr hdr' (by rw [← hn, ← hn', hdname])
          subst hdleq
          subst hdreq
          exact ((ih ⟨(dl, dr), hmk hdl hdr hdlD hdrD hn⟩
            (hwl.childrenOf_mem hdl hdlD) (hwr.childrenOf_mem hdr hdrD)).2.2
            j hin pr hin').1 hrp
    exact ⟨main, by rw [hpp]; exact main⟩

theorem compare_no_items_under (o : FileOracle) (p : List String)
    (lcs rcs : FsTree) (hwl : WfT lcs) (hwr : WfT rcs) (n : String)
    (hno : ¬∃ dl, dl ∈ lcs ∧ ∃ dr, dr ∈ rcs ∧ dl.isDir = true ∧
      dr.isDir = true ∧ dl.name = n ∧ dr.name = n) :
    (∀ i ∈ (compareDirContents o p lcs rcs).leftOnly,
      ∀ q : List String, q ≠ [] → i.rpath ≠ p ++ n :: q) ∧
    (∀ i ∈ (compareDirContents o p lcs rcs).rightOnly,
      ∀ q : List String, q ≠ [] → i.rpath ≠ p ++ n :: q) ∧
    (∀ pr ∈ (compareDirContents o p lcs rcs).hashDiff,
      ∀ q : List String, q ≠ [] →
        pr.1.rpath ≠ p ++ n :: q ∧ pr.2.rpath ≠ p ++ n :: q) := by
  have hcons : ∀ {m m' : String} {s s' : List String},
      p ++ m :: s = p ++ m' :: s' → m = m' ∧ s = s' := by
    intro m m' s s' h
    have h2 := List.append_cancel_left h
    rw [List.cons.injEq] at h2
    exact h2
  have hsplit : ∀ (x : String) (t : List String),
      (p ++ [x]) ++ t = p ++ x :: t := by
    intro x t
    rw [List.append_assoc]
    rfl
  refine ⟨?_, ?_, ?_⟩
  · intro i hi q hq hrp
    rcases (compare_leftOnly_iff o p lcs rcs hwl.1 hwr.1 i).1 hi with
      ⟨e, he, hef, hie, -⟩ | ⟨e, he, hed, hie, -⟩ |
      ⟨dl, hdl, dr, hdr, hdlD, hdrD, hn, hin⟩
    · rw [hie] at hrp
      exact hq ((hcons hrp).2).symm
    · rw [hie] at hrp
      exact hq ((hcons hrp).2).symm
    · have hsh := (compare_shape o (p ++ [dl.name]) dl.childrenOf
        dr.childrenOf (hwl.childrenOf_mem hdl hdlD)
        (hwr.childrenOf_mem hdr hdrD)).1 i hin
      obtain ⟨e1, s1, -, hip⟩ := hsh
      rw [hip, hsplit] at hrp
      have hdn := (hcons hrp).1
      exact hno ⟨dl, hdl, dr, hdr, hdlD, hdrD, hdn, by rw [← hn, hdn]⟩
  · intro i hi q hq hrp
    rcases (compare_rightOnly_iff o p lcs rcs hwl.1 hwr.1 i).1 hi with
      ⟨e, he, hef, hie, -⟩ | ⟨e, he, hed, hie, -⟩ |
      ⟨dl, hdl, dr, hdr, hdlD, hdrD, hn, hin⟩
    · rw [hie] at hrp
      exact hq ((hcons hrp).2).symm
    · rw [hie] at hrp
      exact hq ((hcons hrp).2).symm
    · have hsh := (compare_shape o (p ++ [dl.name]) dl.childrenOf
        dr.childrenOf (hwl.childrenOf_mem hdl hdlD)
        (hwr.childrenOf_mem hdr hdrD)).2.1 i hin
      obtain ⟨e1, s1, -, hip⟩ := hsh
      rw [hip, hsplit] at hrp
      have hdn := (hcons hrp).1
      exact hno ⟨dl, hdl, dr, hdr, hdlD, hdrD, hdn, by rw [← hn, hdn]⟩
  · intro pr hpr q hq
    have hpp := ((compare_shape o p lcs rcs hwl hwr).2.2 pr hpr).2
    have main : pr.1.rpath ≠ p ++ n :: q := by
      intro hrp
      rcases (compare_hashDiff_iff o p lcs rcs hwl.1 hwr.1 pr).1 hpr with
        ⟨e, he, hef, f, hfm, hff, hpe, hn2, -⟩ |
        ⟨dl, hdl, dr, hdr, hdlD, hdrD, hn, hin⟩
      · rw [hpe] at hrp
        exact hq ((hcons hrp).2).symm
      · have hsh := (compare_shape o (p ++ [dl.name]) dl.childrenOf
          dr.childrenOf (hwl.childrenOf_mem hdl hdlD)
          (hwr.childrenOf_mem hdr hdrD)).2.2 pr hin
        obtain ⟨⟨e1, s1, -, hip⟩, -⟩ := hsh
        rw [hip, hsplit] at hrp
        have hdn := (hcons hrp).1
        exact hno ⟨dl, hdl, dr, hdr, hdlD, hdrD, hdn, by rw [← hn, hdn]⟩
    exact ⟨main, by rw [hpp]; exact main⟩

theorem WfT_clashExL : WfT clashExL := by
  constructor
  · simp [clashExL]
  · intro e he
    simp only [clashExL, List.mem_singleton] at he
    subst he
    simp [WfE]

theorem WfT_clashExR : WfT clashExR := by
  constructor
  · simp [clashExR]
  · intro e he
    simp only [clashExR, List.mem_singleton] at he
    subst he
    rw [WfE]
    simp [WfT]

theorem clashEx_eval : checkDifferences oracleId clashExL clashExR =
    ⟨[⟨["a"], .file "a" [0]⟩], [⟨["a"], .dir "a" []⟩], []⟩ := by
  rw [checkDifferences, compareDirContents]
  simp [clashExL, clashExR, List.mergeSort_singleton, FSEntry.isFile,
    FSEntry.isDir, mergeFiles, mergeSubdirs, itemOf, FSEntry.name]

/-- C1 (counterexample): on the well-formed trees with a regular file `a`
on the left and a directory `a` on the right, the relative path `["a"]`
occurs in both the left-only and the right-only list, so the collections
are not pairwise disjoint by relative path as the claim states. -/
theorem C1_counterexample :
    WfT clashExL ∧ WfT clashExR ∧
    ¬(∀ i ∈ (checkDifferences oracleId clashExL clashExR).leftOnly,
      ∀ j ∈ (checkDifferences oracleId clashExL clashExR).rightOnly,
        i.rpath ≠ j.rpath) := by
  refine ⟨WfT_clashExL, WfT_clashExR, fun h => ?_⟩
  have h2 := h ⟨["a"], .file "a" [0]⟩ (by rw [clashEx_eval]; exact List.mem_singleton.2 rfl)
    ⟨["a"], .dir "a" []⟩ (by rw [clashEx_eval]; exact List.mem_singleton.2 rfl)
  exact h2 rfl

/-- C1 (amended): for well-formed trees, the three collections of the diff
are pairwise disjoint by relative path, except that one relative path may
occur in both the left-only and the right-only list precisely when the
entry is a regular file on one side and a directory on the other; the
left-only and right-only lists never share a relative path with the
paired-differences list. -/
theorem C1_diff_classification (o : FileOracle) (L R : FsTree)
    (hL : WfT L) (hR : WfT R) :
    (∀ i ∈ (checkDifferences o L R).leftOnly,
      ∀ j ∈ (checkDifferences o L R).rightOnly,
        i.rpath = j.rpath →
          (i.entry.isFile = true ∧ j.entry.isDir = true) ∨
          (i.entry.isDir = true ∧ j.entry.isFile = true)) ∧
    (∀ i ∈ (checkDifferences o L R).leftOnly,
      ∀ pr ∈ (checkDifferences o L R).hashDiff,
        i.rpath ≠ pr.1.rpath ∧ i.rpath ≠ pr.2.rpath) ∧
    (∀ j ∈ (checkDifferences o L R).rightOnly,
      ∀ pr ∈ (checkDifferences o L R).hashDiff,
        j.rpath ≠ pr.1.rpath ∧ j.rpath ≠ pr.2.rpath) :=
  compare_disjoint o [] L R hL hR

theorem C1_witness :
    WfT clashExL ∧ WfT clashExR ∧
    (((Item.mk ["a"] (FSEntry.file "a" [0])).entry.isFile = true ∧
      (Item.mk ["a"] (FSEntry.dir "a" [])).entry.isDir = true) ∨
     ((Item.mk ["a"] (FSEntry.file "a" [0])).entry.isDir = true ∧
      (Item.mk ["a"] (FSEntry.dir "a" [])).entry.isFile = true)) := by
  refine ⟨WfT_clashExL, WfT_clashExR, ?_⟩
  exact (C1_diff_classification oracleId clashExL clashExR
      WfT_clashExL WfT_clashExR).1
    ⟨["a"], .file "a" [0]⟩
    (by rw [clashEx_eval]; exact List.mem_singleton.2 rfl)
    ⟨["a"], .dir "a" []⟩
    (by rw [clashEx_eval]; exact List.mem_singleton.2 rfl)
    rfl

/-- C5: an unmatched subdirectory is appended whole (with its entire
subtree) to its side's `-only` list, and no collection contains any item
strictly below it: only name-matched subdirectory pairs are descended
into. -/
theorem C5_unmatched_subdir_whole (o : FileOracle) (p : List String)
    (lcs rcs : FsTree) (hwl : WfT lcs) (hwr : WfT rcs) :
    (∀ d ∈ lcs, d.isDir = true →
      (¬∃ f, f ∈ rcs ∧ f.isDir = true ∧ f.name = d.name) →
      itemOf p d ∈ (compareDirContents o p lcs rcs).leftOnly ∧
      (∀ i ∈ (compareDirContents o p lcs rcs).leftOnly,
        ∀ q : List String, q ≠ [] → i.rpath ≠ p ++ d.name :: q) ∧
      (∀ i ∈ (compareDirContents o p lcs rcs).rightOnly,
        ∀ q : List String, q ≠ [] → i.rpath ≠ p ++ d.name :: q) ∧
      (∀ pr ∈ (compareDirContents o p lcs rcs).hashDiff,
        ∀ q : List String, q ≠ [] →
          pr.1.rpath ≠ p ++ d.name :: q ∧ pr.2.rpath ≠ p ++ d.name :: q)) ∧
    (∀ d ∈ rcs, d.isDir = true →
      (¬∃ f, f ∈ lcs ∧ f.isDir = true ∧ f.name = d.name) →
      itemOf p d ∈ (compareDirContents o p lcs rcs).rightOnly ∧
      (∀ i ∈ (compareDirContents o p lcs rcs).leftOnly,
        ∀ q : List String, q ≠ [] → i.rpath ≠ p ++ d.name :: q) ∧
      (∀ i ∈ (compareDirContents o p lcs rcs).rightOnly,
        ∀ q : List String, q ≠ [] → i.rpath ≠ p ++ d.name :: q) ∧
      (∀ pr ∈ (compareDirContents o p lcs rcs).hashDiff,
        ∀ q : List String, q ≠ [] →
          pr.1.rpath ≠ p ++ d.name :: q ∧ pr.2.rpath ≠ p ++ d.name :: q)) := by
  constructor
  · intro d hd hdD hno
    have hnu := compare_no_items_under o p lcs rcs hwl hwr d.name
      (fun ⟨dl, hdl, dr, hdr, hdlD, hdrD, hn1, hn2⟩ =>
        hno ⟨dr, hdr, hdrD, hn2⟩)
    refine ⟨?_, hnu.1, hnu.2.1, hnu.2.2⟩
    exact (compare_leftOnly_iff o p lcs rcs hwl.1 hwr.1 (itemOf p d)).2
      (Or.inr (Or.inl ⟨d, hd, hdD, rfl, hno⟩))
  · intro d hd hdD hno
    have hnu := compare_no_items_under o p lcs rcs hwl hwr d.name
      (fun ⟨dl, hdl, dr, hdr, hdlD, hdrD, hn1, hn2⟩ =>
        hno ⟨dl, hdl, hdlD, hn1⟩)
    refine ⟨?_, hnu.1, hnu.2.1, hnu.2.2⟩
    exact (compare_rightOnly_iff o p lcs rcs hwl.1 hwr.1 (itemOf p d)).2
      (Or.inr (Or.inl ⟨d, hd, hdD, rfl, hno⟩))

theorem C5_witness :
    WfT scenC_L ∧ WfT ([] : FsTree) ∧
    itemOf [] (FSEntry.dir "sub" [.file "x.txt" [104, 105]])
      ∈ (compareDirContents oracleId [] scenC_L []).leftOnly := by
  have h1 : WfT scenC_L := by
    constructor
    · simp [scenC_L]
    · intro e he
      simp only [scenC_L, List.mem_singleton] at he
      subst he
      rw [WfE]
      constructor
      · simp
      · intro e2 he2
        simp only [List.mem_singleton] at he2
        subst he2
        simp [WfE]
  have h2 : WfT ([] : FsTree) := ⟨List.nodup_nil, fun e he => absurd he (List.not_mem_nil _)⟩
  refine ⟨h1, h2, ?_⟩
  exact ((C5_unmatched_subdir_whole oracleId [] scenC_L [] h1 h2).1
    (FSEntry.dir "sub" [.file "x.txt" [104, 105]])
    (by simp [scenC_L]) rfl
    (fun ⟨f, hf, hx1, hx2⟩ => absurd hf (List.not_mem_nil _))).1

/-- C9: when the same name is a regular file on one side and a directory
on the other, the file goes to its side's `-only` list and the directory
to the other side's `-only` list; no paired difference is recorded at that
relative path and the directory is never recursed into. -/
theorem C9_kind_mismatch (o : FileOracle) (p : List String)
    (lcs rcs : FsTree) (hwl : WfT lcs) (hwr : WfT rcs) :
    (∀ (n : String) (c : List Nat) (ch : List FSEntry),
      FSEntry.file n c ∈ lcs → FSEntry.dir n ch ∈ rcs →
      itemOf p (FSEntry.file n c) ∈ (compareDirContents o p lcs rcs).leftOnly ∧
      itemOf p (FSEntry.dir n ch) ∈ (compareDirContents o p lcs rcs).rightOnly ∧
      (∀ pr ∈ (compareDirContents o p lcs rcs).hashDiff,
        pr.1.rpath ≠ p ++ [n]) ∧
      (∀ i ∈ (compareDirContents o p lcs rcs).leftOnly,
        ∀ q : List String, q ≠ [] → i.rpath ≠ p ++ n :: q) ∧
      (∀ i ∈ (compareDirContents o p lcs rcs).rightOnly,
        ∀ q : List String, q ≠ [] → i.rpath ≠ p ++ n :: q)) ∧
    (∀ (n : String) (c : List Nat) (ch : List FSEntry),
      FSEntry.file n c ∈ rcs → FSEntry.dir n ch ∈ lcs →
      itemOf p (FSEntry.file n c) ∈ (compareDirContents o p lcs rcs).rightOnly ∧
      itemOf p (FSEntry.dir n ch) ∈ (compareDirContents o p lcs rcs).leftOnly ∧
      (∀ pr ∈ (compareDirContents o p lcs rcs).hashDiff,
        pr.1.rpath ≠ p ++ [n]) ∧
      (∀ i ∈ (compareDirContents o p lcs rcs).leftOnly,
        ∀ q : List String, q ≠ [] → i.rpath ≠ p ++ n :: q) ∧
      (∀ i ∈ (compareDirContents o p lcs rcs).rightOnly,
        ∀ q : List String, q ≠ [] → i.rpath ≠ p ++ n :: q)) := by
  have hcons : ∀ {m m' : String} {s s' : List String},
      p ++ m :: s = p ++ m' :: s' → m = m' ∧ s = s' := by
    intro m m' s s' h
    have h2 := List.append_cancel_left h
    rw [List.cons.injEq] at h2
    exact h2
  have hsplit : ∀ (x : String) (t : List String),
      (p ++ [x]) ++ t = p ++ x :: t := by
    intro x t
    rw [List.append_assoc]
    rfl
  constructor
  · intro n c ch hfm hdm
    have hnofile : ¬∃ f, f ∈ rcs ∧ f.isFile = true ∧
        f.name = (FSEntry.file n c).name := by
      rintro ⟨f, hf, hff, hfn⟩
      have heq : f = FSEntry.dir n ch :=
        mem_name_unique hwr.1 hf hdm (by simpa [FSEntry.name] using hfn)
      subst heq
      simp [FSEntry.isFile] at hff
    have hnodir : ¬∃ f, f ∈ lcs ∧ f.isDir = true ∧
        f.name = (FSEntry.dir n ch).name := by
      rintro ⟨f, hf, hfd, hfn⟩
      have heq : f = FSEntry.file n c :=
        mem_name_unique hwl.1 hf hfm (by simpa [FSEntry.name] using hfn)
      subst heq
      simp [FSEntry.isDir] at hfd
    have hnomatch : ¬∃ dl, dl ∈ lcs ∧ ∃ dr, dr ∈ rcs ∧ dl.isDir = true ∧
        dr.isDir = true ∧ dl.name = n ∧ dr.name = n := by
      rintro ⟨dl, hdl, dr, hdr, hdlD, hdrD, hn1, hn2⟩
      have heq : dl = FSEntry.file n c :=
        mem_name_unique hwl.1 hdl hfm (by simpa [FSEntry.name] using hn1)
      subst heq
      simp [FSEntry.isDir] at hdlD
    have hnu := compare_no_items_under o p lcs rcs hwl hwr n hnomatch
    refine ⟨?_, ?_, ?_, hnu.1, hnu.2.1⟩
    · exact (compare_leftOnly_iff o p lcs rcs hwl.1 hwr.1 _).2
        (Or.inl ⟨FSEntry.file n c, hfm, rfl, rfl, hnofile⟩)
    · exact (compare_rightOnly_iff o p lcs rcs hwl.1 hwr.1 _).2
        (Or.inr (Or.inl ⟨FSEntry.dir n ch, hdm, rfl, rfl, hnodir⟩))
    · intro pr hpr hrp
      rcases (compare_hashDiff_iff o p lcs rcs hwl.1 hwr.1 pr).1 hpr with
        ⟨e, he, hef, f, hf, hff, hpe, hn2, -⟩ |
        ⟨dl, hdl, dr, hdr, hdlD, hdrD, hn2, hin⟩
      · rw [hpe] at hrp
        have hnm := (hcons hrp).1
        exact hnofile ⟨f, hf, hff, by rw [← hn2]; exact hnm⟩
      · have hsh := (compare_shape o (p ++ [dl.name]) dl.childrenOf
          dr.childrenOf (hwl.childrenOf_mem hdl hdlD)
          (hwr.childrenOf_mem hdr hdrD)).2.2 pr hin
        obtain ⟨⟨e1, s1, -, hip⟩, -⟩ := hsh
        rw [hip, hsplit] at hrp
        have := (hcons hrp).2
        exact absurd this (List.cons_ne_nil _ _)
  · intro n c ch hfm hdm
    have hnofile : ¬∃ f, f ∈ lcs ∧ f.isFile = true ∧
        f.name = (FSEntry.file n c).name := by
      rintro ⟨f, hf, hff, hfn⟩
      have heq : f = FSEntry.dir n ch :=
        mem_name_unique hwl.1 hf hdm (by simpa [FSEntry.name] using hfn)
      subst heq
      simp [FSEntry.isFile] at hff
    have hnodir : ¬∃ f, f ∈ rcs ∧ f.isDir = true ∧
        f.name = (FSEntry.dir n ch).name := by
      rintro ⟨f, hf, hfd, hfn⟩
      have heq : f = FSEntry.file n c :=
        mem_name_unique hwr.1 hf hfm (by simpa [FSEntry.name] using hfn)
      subst heq
      simp [FSEntry.isDir] at hfd
    have hnomatch : ¬∃ dl, dl ∈ lcs ∧ ∃ dr, dr ∈ rcs ∧ dl.isDir = true ∧
        dr.isDir = true ∧ dl.name = n ∧ dr.name = n := by
      rintro ⟨dl, hdl, dr, hdr, hdlD, hdrD, hn1, hn2⟩
      have heq : dr = FSEntry.file n c :=
        mem_name_unique hwr.1 hdr hfm (by simpa [FSEntry.name] using hn2)
      subst heq
      simp [FSEntry.isDir] at hdrD
    have hnu := compare_no_items_under o p lcs rcs hwl hwr n hnomatch
    refine ⟨?_, ?_, ?_, hnu.1, hnu.2.1⟩
    · exact (compare_rightOnly_iff o p lcs rcs hwl.1 hwr.1 _).2
        (Or.inl ⟨FSEntry.file n c, hfm, rfl, rfl, hnofile⟩)
    · exact (compare_leftOnly_iff o p lcs rcs hwl.1 hwr.1 _).2
        (Or.inr (Or.inl ⟨FSEntry.dir n ch, hdm, rfl, rfl, hnodir⟩))
    · intro pr hpr hrp
      rcases (compare_hashDiff_iff o p lcs rcs hwl.1 hwr.1 pr).1 hpr with
        ⟨e, he, hef, f, hf, hff, hpe, hn2, -⟩ |
        ⟨dl, hdl, dr, hdr, hdlD, hdrD, hn2, hin⟩
      · rw [hpe] at hrp
        have hnm := (hcons hrp).1
        exact hnofile ⟨e, he, hef, hnm⟩
      · have hsh := (compare_shape o (p ++ [dl.name]) dl.childrenOf
          dr.childrenOf (hwl.childrenOf_mem hdl hdlD)
          (hwr.childrenOf_mem hdr hdrD)).2.2 pr hin
        obtain ⟨⟨e1, s1, -, hip⟩, -⟩ := hsh
        rw [hip, hsplit] at hrp
        have := (hcons hrp).2
        exact absurd this (List.cons_ne_nil _ _)

theorem C9_witness :
    WfT clashExL ∧ WfT clashExR ∧
    itemOf [] (FSEntry.file "a" [0])
      ∈ (compareDirContents oracleId [] clashExL clashExR).leftOnly ∧
    itemOf [] (FSEntry.dir "a" [])
      ∈ (compareDirContents oracleId [] clashExL clashExR).rightOnly := by
  refine ⟨WfT_clashExL, WfT_clashExR, ?_, ?_⟩
  · exact ((C9_kind_mismatch oracleId [] clashExL clashExR
      WfT_clashExL WfT_clashExR).1 "a" [0] []
      (by simp [clashExL]) (by simp [clashExR])).1
  · exact ((C9_kind_mismatch oracleId [] clashExL clashExR
      WfT_clashExL WfT_clashExR).1 "a" [0] []
      (by simp [clashExL]) (by simp [clashExR])).2.1

theorem mergeSubdirs_matched_names (p : List String) :
    ∀ (ls rs : List FSEntry) (pr : FSEntry × FSEntry),
      pr ∈ (mergeSubdirs p ls rs).2.2 → pr.1.name = pr.2.name := by
  intro ls rs
  induction ls, rs using mergeSubdirs.induct p with
  | case1 =>
    intro pr h
    simp [mergeSubdirs] at h
  | case2 r rs ih =>
    intro pr h
    simp only [mergeSubdirs] at h
    exact ih pr h
  | case3 l ls ih =>
    intro pr h
    simp only [mergeSubdirs] at h
    exact ih pr h
  | case4 l ls r rs hname ih =>
    intro pr h
    simp only [mergeSubdirs] at h
    rw [if_pos hname] at h
    rcases List.mem_cons.1 h with rfl | h2
    · exact hname
    · exact ih pr h2
  | case5 l ls r rs hname hlt ih =>
    intro pr h
    simp only [mergeSubdirs] at h
    rw [if_neg hname, if_pos hlt] at h
    exact ih pr h
  | case6 l ls r rs hname hnlt ih =>
    intro pr h
    simp only [mergeSubdirs] at h
    rw [if_neg hname, if_neg hnlt] at h
    exact ih pr h

theorem compare_eq_noattach (o : FileOracle) (p : List String)
    (lcs rcs : FsTree) :
    compareDirContents o p lcs rcs =
      (let lsort := lcs.mergeSort nameLe
       let rsort := rcs.mergeSort nameLe
       let dF := mergeFiles o p (lsort.filter FSEntry.isFile)
         (rsort.filter FSEntry.isFile)
       let dD := mergeSubdirs p (lsort.filter FSEntry.isDir)
         (rsort.filter FSEntry.isDir)
       let subResults := dD.2.2.map fun pr =>
         compareDirContents o (p ++ [pr.1.name]) pr.1.childrenOf pr.2.childrenOf
       ⟨dF.leftOnly ++ dD.1 ++ (subResults.map DiffResult.leftOnly).flatten,
        dF.rightOnly ++ dD.2.1 ++ (subResults.map DiffResult.rightOnly).flatten,
        dF.hashDiff ++ (subResults.map DiffResult.hashDiff).flatten⟩) := by
  rw [compareDirContents, List.map_attach]
  dsimp only
  rw [List.pmap_eq_map]

theorem SmallE_file {n : String} {c : List Nat} :
    SmallE (.file n c) ↔ c.length ≤ 1000000 := by
  rw [SmallE]

theorem SmallE_dir {n : String} {ch : List FSEntry} :
    SmallE (.dir n ch) ↔ ∀ e ∈ ch, SmallE e := by
  rw [SmallE]

theorem SmallE.content_le {e : FSEntry} (h : SmallE e) :
    e.content.length ≤ 1000000 := by
  cases e with
  | file n c => exact (SmallE_file.1 h)
  | dir n ch => simp [FSEntry.content]

theorem areFilesEqual_symm_small (o : FileOracle) {lc rc : List Nat}
    (hl : lc.length ≤ 1000000) (hr : rc.length ≤ 1000000) :
    areFilesEqual o rc lc = areFilesEqual o lc rc := by
  by_cases hlen : lc.length = rc.length
  · have h1 : ¬(o.isText lc = false ∧ lc.length > 1000000) := by
      rintro ⟨-, h2⟩
      omega
    have h2 : ¬(o.isText rc = false ∧ rc.length > 1000000) := by
      rintro ⟨-, h3⟩
      omega
    rw [areFilesEqual_hash o hlen h1, areFilesEqual_hash o hlen.symm h2]
    by_cases h3 : o.md5 lc = o.md5 rc
    · rw [h3]
    · have h4 : (o.md5 lc == o.md5 rc) = false := by
        rw [beq_eq_false_iff_ne]
        exact h3
      have h5 : (o.md5 rc == o.md5 lc) = false := by
        rw [beq_eq_false_iff_ne]
        exact fun hc => h3 hc.symm
      rw [h4, h5]
  · rw [areFilesEqual_of_length_ne o hlen,
      areFilesEqual_of_length_ne o (fun hc => hlen hc.symm)]

theorem SmallE.childrenOf_all {e : FSEntry} (h : SmallE e) :
    ∀ x ∈ e.childrenOf, SmallE x := by
  cases e with
  | file n c =>
    intro x hx
    exact absurd hx (List.not_mem_nil _)
  | dir n ch =>
    exact SmallE_dir.1 h

theorem compare_mirror (o : FileOracle) (p : List String) (lcs rcs : FsTree) :
    ((compareDirContents o p rcs lcs).leftOnly
        = (compareDirContents o p lcs rcs).rightOnly ∧
     (compareDirContents o p rcs lcs).rightOnly
        = (compareDirContents o p lcs rcs).leftOnly) ∧
    ((∀ e ∈ lcs, SmallE e) → (∀ e ∈ rcs, SmallE e) →
      (compareDirContents o p rcs lcs).hashDiff
        = (compareDirContents o p lcs rcs).hashDiff.map fun pr => (pr.2, pr.1)) := by
  induction p, lcs, rcs using compareDirContents.induct o with
  | _ p lcs rcs ls1 rs1 dD1 ih =>
  refine ⟨⟨?_, ?_⟩, ?_⟩
  · rw [compare_eq_noattach o p rcs lcs, compare_eq_noattach o p lcs rcs]
    dsimp only
    rw [(mergeFiles_swap_only o p _ _).1, (mergeSubdirs_swap p _ _).1,
      (mergeSubdirs_swap p _ _).2.2]
    congr 1
    rw [List.map_map, List.map_map, List.map_map]
    congr 1
    apply List.map_congr_left
    intro pr hpr
    dsimp [Function.comp]
    rw [← mergeSubdirs_matched_names p _ _ pr hpr]
    exact (ih ⟨pr, hpr⟩).1.1
  · rw [compare_eq_noattach o p rcs lcs, compare_eq_noattach o p lcs rcs]
    dsimp only
    rw [(mergeFiles_swap_only o p _ _).2, (mergeSubdirs_swap p _ _).2.1,
      (mergeSubdirs_swap p _ _).2.2]
    congr 1
    rw [List.map_map, List.map_map, List.map_map]
    congr 1
    apply List.map_congr_left
    intro pr hpr
    dsimp [Function.comp]
    rw [← mergeSubdirs_matched_names p _ _ pr hpr]
    exact (ih ⟨pr, hpr⟩).1.2
  · intro hsL hsR
    rw [compare_eq_noattach o p rcs lcs, compare_eq_noattach o p lcs rcs]
    dsimp only
    rw [List.map_append]
    have hsym : ∀ l ∈ (lcs.mergeSort nameLe).filter FSEntry.isFile,
        ∀ r ∈ (rcs.mergeSort nameLe).filter FSEntry.isFile,
        areFilesEqual o r.content l.content = areFilesEqual o l.content r.content := by
      intro l hl r hr
      have h1 := (mem_sortFilter _ _ _).1 hl
      have h2 := (mem_sortFilter _ _ _).1 hr
      exact areFilesEqual_symm_small o
        ((hsL l h1.1).content_le) ((hsR r h2.1).content_le)
    rw [mergeFiles_swap_hash o p _ _ hsym, (mergeSubdirs_swap p _ _).2.2]
    congr 1
    rw [List.map_flatten]
    rw [List.map_map, List.map_map, List.map_map, List.map_map]
    congr 1
    apply List.map_congr_left
    intro pr hpr
    dsimp [Function.comp]
    rw [← mergeSubdirs_matched_names p _ _ pr hpr]
    have hmem := mergeSubdirsMatchedMem p _ _ pr hpr
    have hs1 : ∀ e ∈ pr.1.childrenOf, SmallE e :=
      (hsL pr.1 ((mem_sortFilter _ _ _).1 hmem.1).1).childrenOf_all
    have hs2 : ∀ e ∈ pr.2.childrenOf, SmallE e :=
      (hsR pr.2 ((mem_sortFilter _ _ _).1 hmem.2).1).childrenOf_all
    exact (ih ⟨pr, hpr⟩).2 hs1 hs2

theorem bigBinary_length : bigBinary.length = 1000001 := by
  rw [bigBinary, List.length_replicate]

theorem bigText_length : bigText.length = 1000001 := by
  rw [bigText, List.length_cons, List.length_replicate]

theorem isText_bigBinary : oracleHead.isText bigBinary = false := by
  show (bigBinary.head? == some 1) = false
  rw [bigBinary, List.head?_replicate]
  norm_num

theorem isText_bigText : oracleHead.isText bigText = true := by
  show (bigText.head? == some 1) = true
  rw [bigText, List.head?_cons]
  rfl

theorem are_big_LR : areFilesEqual oracleHead bigBinary bigText = true :=
  areFilesEqual_shortcut oracleHead
    (by rw [bigBinary_length, bigText_length]) isText_bigBinary
    (by rw [bigBinary_length]; omega)

theorem are_big_RL : areFilesEqual oracleHead bigText bigBinary = false := by
  rw [areFilesEqual_hash oracleHead (by rw [bigBinary_length, bigText_length])
    (by rw [isText_bigText]; simp)]
  have h1 : oracleHead.md5 bigText = [1] := by
    show bigText.take 1 = [1]
    rw [bigText, List.take_one, List.head?_cons]
    rfl
  have h2 : oracleHead.md5 bigBinary = [0] := by
    show bigBinary.take 1 = [0]
    rw [bigBinary, List.take_replicate]
    norm_num
  rw [h1, h2]
  rfl

theorem WfT_mirrorExL : WfT mirrorExL := by
  constructor
  · simp [mirrorExL]
  · intro e he
    simp only [mirrorExL, List.mem_singleton] at he
    subst he
    simp [WfE]

theorem WfT_mirrorExR : WfT mirrorExR := by
  constructor
  · simp [mirrorExR]
  · intro e he
    simp only [mirrorExR, List.mem_singleton] at he
    subst he
    simp [WfE]

theorem mirror_eval_LR : checkDifferences oracleHead mirrorExL mirrorExR =
    ⟨[], [], []⟩ := by
  rw [checkDifferences, compareDirContents]
  simp [mirrorExL, mirrorExR, List.mergeSort_singleton, FSEntry.isFile,
    FSEntry.isDir, mergeFiles, mergeSubdirs, FSEntry.name, FSEntry.content,
    are_big_LR]

theorem mirror_eval_RL : checkDifferences oracleHead mirrorExR mirrorExL =
    ⟨[], [], [(⟨["a"], .file "a" bigText⟩, ⟨["a"], .file "a" bigBinary⟩)]⟩ := by
  rw [checkDifferences, compareDirContents]
  simp [mirrorExL, mirrorExR, List.mergeSort_singleton, FSEntry.isFile,
    FSEntry.isDir, mergeFiles, mergeSubdirs, FSEntry.name, FSEntry.content,
    are_big_RL, itemOf]

/-- C3 (counterexample): with a same-named, same-sized pair where the left
file is binary, larger than 1,000,000 bytes and the right file is text
with different contents, `diff(L,R)` records no content difference (the
shortcut fires) while `diff(R,L)` records the pair, so the two runs are
not mirror images. -/
theorem C3_counterexample :
    WfT mirrorExL ∧ WfT mirrorExR ∧
    ¬((checkDifferences oracleHead mirrorExL mirrorExR).leftOnly
        = (checkDifferences oracleHead mirrorExR mirrorExL).rightOnly ∧
      (checkDifferences oracleHead mirrorExL mirrorExR).rightOnly
        = (checkDifferences oracleHead mirrorExR mirrorExL).leftOnly ∧
      (checkDifferences oracleHead mirrorExL mirrorExR).hashDiff
        = (checkDifferences oracleHead mirrorExR mirrorExL).hashDiff.map
            (fun pr => (pr.2, pr.1))) := by
  refine ⟨WfT_mirrorExL, WfT_mirrorExR, ?_⟩
  rintro ⟨-, -, h3⟩
  rw [mirror_eval_LR, mirror_eval_RL] at h3
  simp at h3

/-- C3 (amended): when every file on both sides is at most 1,000,000
bytes, so the asymmetric large-binary shortcut of the equality oracle can
never fire, `diff(L,R)` and `diff(R,L)` are mirror images: the `-only`
lists swap sides and the content-differs lists consist of the
reversed-order pairs of one another. -/
theorem C3_mirror_small (o : FileOracle) (L R : FsTree)
    (hsL : SmallT L) (hsR : SmallT R) :
    (checkDifferences o L R).leftOnly = (checkDifferences o R L).rightOnly ∧
    (checkDifferences o L R).rightOnly = (checkDifferences o R L).leftOnly ∧
    (checkDifferences o L R).hashDiff
      = (checkDifferences o R L).hashDiff.map (fun pr => (pr.2, pr.1)) := by
  have h := compare_mirror o [] R L
  exact ⟨h.1.1, h.1.2, h.2 hsR hsL⟩

theorem C3_witness :
    SmallT [FSEntry.file "a" [0]] ∧ SmallT [FSEntry.file "a" [1]] ∧
    ((checkDifferences oracleId [FSEntry.file "a" [0]]
        [FSEntry.file "a" [1]]).leftOnly
      = (checkDifferences oracleId [FSEntry.file "a" [1]]
        [FSEntry.file "a" [0]]).rightOnly ∧
     (checkDifferences oracleId [FSEntry.file "a" [0]]
        [FSEntry.file "a" [1]]).rightOnly
      = (checkDifferences oracleId [FSEntry.file "a" [1]]
        [FSEntry.file "a" [0]]).leftOnly ∧
     (checkDifferences oracleId [FSEntry.file "a" [0]]
        [FSEntry.file "a" [1]]).hashDiff
      = (checkDifferences oracleId [FSEntry.file "a" [1]]
        [FSEntry.file "a" [0]]).hashDiff.map (fun pr => (pr.2, pr.1))) := by
  have hs1 : SmallT [FSEntry.file "a" [0]] := by
    intro e he
    simp only [List.mem_singleton] at he
    subst he
    rw [SmallE]
    simp
  have hs2 : SmallT [FSEntry.file "a" [1]] := by
    intro e he
    simp only [List.mem_singleton] at he
    subst he
    rw [SmallE]
    simp
  exact ⟨hs1, hs2, C3_mirror_small oracleId _ _ hs1 hs2⟩

theorem aligned_refl (o : FileOracle) :
    ∀ (k : Nat) (t : FsTree), sizeOf t ≤ k → WfT t → Aligned o t t := by
  intro k
  induction k with
  | zero =>
    intro t ht _
    exfalso
    cases t with
    | nil => simp at ht
    | cons a l => simp at ht
  | succ k ih =>
    intro t ht hw
    rw [Aligned]
    refine ⟨?_, ?_, ?_, ?_, ?_⟩
    · intro e he hef
      exact ⟨e, he, hef, rfl, areFilesEqual_refl o e.content⟩
    · intro f hf hff
      exact ⟨f, hf, hff, rfl⟩
    · intro e he hed
      exact ⟨e, he, hed, rfl⟩
    · intro f hf hfd
      exact ⟨f, hf, hfd, rfl⟩
    · intro n chA chB hA hB
      have heq : FSEntry.dir n chA = FSEntry.dir n chB :=
        mem_name_unique hw.1 hA hB rfl
      cases heq
      have hsz := List.sizeOf_lt_of_mem hA
      simp only [FSEntry.dir.sizeOf_spec] at hsz
      exact ih chA (by omega) (hw.children hA)

theorem Aligned.of_wf {o : FileOracle} {t : FsTree} (hw : WfT t) :
    Aligned o t t :=
  aligned_refl o (sizeOf t) t le_rfl hw

theorem compare_empty_of_aligned (o : FileOracle) (p : List String)
    (A B : FsTree) :
    WfT A → WfT B → Aligned o A B →
    compareDirContents o p A B = ⟨[], [], []⟩ := by
  induction p, A, B using compareDirContents.induct o with
  | _ p A B ls1 rs1 dD1 ih =>
  intro hwA hwB hal
  rw [Aligned] at hal
  obtain ⟨hc1, hc2, hc3, hc4, hc5⟩ := hal
  have hleft : (compareDirContents o p A B).leftOnly = [] := by
    rw [List.eq_nil_iff_forall_not_mem]
    intro i hi
    rcases (compare_leftOnly_iff o p A B hwA.1 hwB.1 i).1 hi with
      ⟨e, he, hef, -, hnone⟩ | ⟨e, he, hed, -, hnone⟩ |
      ⟨dl, hdl, dr, hdr, hdlD, hdrD, hn, hin⟩
    · obtain ⟨f, hf, hff, hfn, -⟩ := hc1 e he hef
      exact hnone ⟨f, hf, hff, hfn⟩
    · obtain ⟨f, hf, hfd, hfn⟩ := hc3 e he hed
      exact hnone ⟨f, hf, hfd, hfn⟩
    · have hmm : (dl, dr) ∈ (mergeSubdirs p
          ((A.mergeSort nameLe).filter FSEntry.isDir)
          ((B.mergeSort nameLe).filter FSEntry.isDir)).2.2 :=
        (mergeSubdirs_matched_iff p _ _
          ((sortedNames_mergeSort hwA.1).filter _)
          ((sortedNames_mergeSort hwB.1).filter _) (dl, dr)).2
          ⟨(mem_sortFilter _ _ _).2 ⟨hdl, hdlD⟩,
           (mem_sortFilter _ _ _).2 ⟨hdr, hdrD⟩, hn⟩
      have hch : Aligned o dl.childrenOf dr.childrenOf := by
        cases dl with
        | file nn cc => simp [FSEntry.isDir] at hdlD
        | dir nn chA =>
          cases dr with
          | file mm cc => simp [FSEntry.isDir] at hdrD
          | dir mm chB =>
            have : nn = mm := hn
            subst this
            exact hc5 nn chA chB hdl hdr
      have := ih ⟨(dl, dr), hmm⟩ (hwA.childrenOf_mem hdl hdlD)
        (hwB.childrenOf_mem hdr hdrD) hch
      rw [this] at hin
      exact absurd hin (List.not_mem_nil _)
  have hright : (compareDirContents o p A B).rightOnly = [] := by
    rw [List.eq_nil_iff_forall_not_mem]
    intro i hi
    rcases (compare_rightOnly_iff o p A B hwA.1 hwB.1 i).1 hi with
      ⟨e, he, hef, -, hnone⟩ | ⟨e, he, hed, -, hnone⟩ |
      ⟨dl, hdl, dr, hdr, hdlD, hdrD, hn, hin⟩
    · obtain ⟨f, hf, hff, hfn⟩ := hc2 e he hef
      exact hnone ⟨f, hf, hff, hfn⟩
    · obtain ⟨f, hf, hfd, hfn⟩ := hc4 e he hed
      exact hnone ⟨f, hf, hfd, hfn⟩
    · have hmm : (dl, dr) ∈ (mergeSubdirs p
          ((A.mergeSort nameLe).filter FSEntry.isDir)
          ((B.mergeSort nameLe).filter FSEntry.isDir)).2.2 :=
        (mergeSubdirs_matched_iff p _ _
          ((sortedNames_mergeSort hwA.1).filter _)
          ((sortedNames_mergeSort hwB.1).filter _) (dl, dr)).2
          ⟨(mem_sortFilter _ _ _).2 ⟨hdl, hdlD⟩,
           (mem_sortFilter _ _ _).2 ⟨hdr, hdrD⟩, hn⟩
      have hch : Aligned o dl.childrenOf dr.childrenOf := by
        cases dl with
        | file nn cc => simp [FSEntry.isDir] at hdlD
        | dir nn chA =>
          cases dr with
          | file mm cc => simp [FSEntry.isDir] at hdrD
          | dir mm chB =>
            have : nn = mm := hn
            subst this
            exact hc5 nn chA chB hdl hdr
      have := ih ⟨(dl, dr), hmm⟩ (hwA.childrenOf_mem hdl hdlD)
        (hwB.childrenOf_mem hdr hdrD) hch
      rw [this] at hin
      exact absurd hin (List.not_mem_nil _)
  have hhash : (compareDirContents o p A B).hashDiff = [] := by
    rw [List.eq_nil_iff_forall_not_mem]
    intro pr hpr
    rcases (compare_hashDiff_iff o p A B hwA.1 hwB.1 pr).1 hpr with
      ⟨e, he, hef, f, hf, hff, -, hn, hv⟩ |
      ⟨dl, hdl, dr, hdr, hdlD, hdrD, hn, hin⟩
    · obtain ⟨f2, hf2, hff2, hfn2, hv2⟩ := hc1 e he hef
      have : f2 = f := mem_name_unique hwB.1 hf2 hf (by rw [hfn2, hn])
      subst this
      rw [hv] at hv2
      exact absurd hv2 (by simp)
    · have hmm : (dl, dr) ∈ (mergeSubdirs p
          ((A.mergeSort nameLe).filter FSEntry.isDir)
          ((B.mergeSort nameLe).filter FSEntry.isDir)).2.2 :=
        (mergeSubdirs_matched_iff p _ _
          ((sortedNames_mergeSort hwA.1).filter _)
          ((sortedNames_mergeSort hwB.1).filter _) (dl, dr)).2
          ⟨(mem_sortFilter _ _ _).2 ⟨hdl, hdlD⟩,
           (mem_sortFilter _ _ _).2 ⟨hdr, hdrD⟩, hn⟩
      have hch : Aligned o dl.childrenOf dr.childrenOf := by
        cases dl with
        | file nn cc => simp [FSEntry.isDir] at hdlD
        | dir nn chA =>
          cases dr with
          | file mm cc => simp [FSEntry.isDir] at hdrD
          | dir mm chB =>
            have : nn = mm := hn
            subst this
            exact hc5 nn chA chB hdl hdr
      have := ih ⟨(dl, dr), hmm⟩ (hwA.childrenOf_mem hdl hdlD)
        (hwB.childrenOf_mem hdr hdrD) hch
      rw [this] at hin
      exact absurd hin (List.not_mem_nil _)
  cases hres : compareDirContents o p A B with
  | mk a b c =>
    rw [hres] at hleft hright hhash
    simp only at hleft hright hhash
    rw [hleft, hright, hhash]


theorem find?_name_eq_some_of_mem :
    ∀ {t : FsTree}, (t.map FSEntry.name).Nodup → ∀ {e : FSEntry}, e ∈ t →
      t.find? (fun x => x.name == e.name) = some e := by
  intro t
  induction t with
  | nil =>
    intro _ e he
    exact absurd he (List.not_mem_nil _)
  | cons x xs ih =>
    intro h e he
    rw [List.map_cons, List.nodup_cons] at h
    rcases List.mem_cons.1 he with rfl | he2
    · rw [List.find?_cons]
      simp
    · rw [List.find?_cons]
      have hne : x.name ≠ e.name := by
        intro hc
        exact h.1 (by rw [hc]; exact List.mem_map_of_mem _ he2)
      have : (x.name == e.name) = false := by
        rw [beq_eq_false_iff_ne]
        exact hne
      rw [this]
      exact ih h.2 he2

theorem find?_name_some {t : FsTree} {m : String} {e : FSEntry}
    (h : t.find? (fun x => x.name == m) = some e) : e ∈ t ∧ e.name = m :=
  ⟨List.mem_of_find?_eq_some h, by
    have := List.find?_some h
    simpa using this⟩

theorem find?_name_none {t : FsTree} {m : String} :
    t.find? (fun x => x.name == m) = none ↔ ∀ x ∈ t, x.name ≠ m := by
  rw [List.find?_eq_none]
  simp

theorem replaceChild_name (n : String) (ch : FsTree) (e : FSEntry) :
    (replaceChild n ch e).name = e.name := by
  cases e with
  | file m c => rfl
  | dir m ch2 =>
    simp only [replaceChild]
    by_cases hm : m = n
    · rw [if_pos hm]
      rfl
    · rw [if_neg hm]

theorem replaceChild_of_ne {n : String} (ch : FsTree) {e : FSEntry}
    (h : e.name ≠ n) : replaceChild n ch e = e := by
  cases e with
  | file m c => rfl
  | dir m ch2 =>
    simp only [FSEntry.name] at h
    simp only [replaceChild, if_neg h]

theorem setChildren_eq_map (t : FsTree) (n : String) (ch : FsTree) :
    setChildren t n ch = t.map (replaceChild n ch) := by
  rw [setChildren]
  apply List.map_congr_left
  intro e _
  cases e <;> rfl

theorem setChildren_names (t : FsTree) (n : String) (ch : FsTree) :
    (setChildren t n ch).map FSEntry.name = t.map FSEntry.name := by
  rw [setChildren_eq_map, List.map_map]
  apply List.map_congr_left
  intro e _
  exact replaceChild_name n ch e

theorem find?_setChildren_ne (t : FsTree) (n : String) (ch : FsTree)
    {m : String} (hm : m ≠ n) :
    (setChildren t n ch).find? (fun x => x.name == m)
      = t.find? (fun x => x.name == m) := by
  rw [setChildren_eq_map, List.find?_map]
  have hp : ((fun x : FSEntry => x.name == m) ∘ replaceChild n ch)
      = fun x : FSEntry => x.name == m := by
    funext e
    simp only [Function.comp_apply, replaceChild_name]
  rw [hp]
  cases hf : t.find? (fun x => x.name == m) with
  | none => rfl
  | some e =>
    have he := find?_name_some hf
    rw [Option.map_some']
    rw [replaceChild_of_ne ch (by rw [he.2]; exact hm)]

theorem find?_setChildren_dir (t : FsTree) (n : String) (ch : FsTree)
    {ch0 : FsTree} (hf : t.find? (fun x => x.name == n) = some (.dir n ch0)) :
    (setChildren t n ch).find? (fun x => x.name == n) = some (.dir n ch) := by
  rw [setChildren_eq_map, List.find?_map]
  have hp : ((fun x : FSEntry => x.name == n) ∘ replaceChild n ch)
      = fun x : FSEntry => x.name == n := by
    funext e
    simp only [Function.comp_apply, replaceChild_name]
  rw [hp, hf, Option.map_some']
  simp [replaceChild]

theorem setChildren_setChildren (t : FsTree) (n : String) (x y : FsTree) :
    setChildren (setChildren t n x) n y = setChildren t n y := by
  rw [setChildren_eq_map, setChildren_eq_map, setChildren_eq_map, List.map_map]
  apply List.map_congr_left
  intro e _
  cases e with
  | file m c => rfl
  | dir m ch2 =>
    by_cases hm : m = n <;>
      simp [replaceChild, hm]

theorem setChildren_of_not_mem {t : FsTree} {n : String} {ch : FsTree}
    (h : ∀ y ∈ t, y.name ≠ n) : setChildren t n ch = t := by
  rw [setChildren_eq_map]
  conv_rhs => rw [← List.map_id t]
  apply List.map_congr_left
  intro e he
  rw [replaceChild_of_ne ch (h e he)]
  rfl

theorem setChildren_self {t : FsTree} (h : (t.map FSEntry.name).Nodup)
    {n : String} {ch : FsTree}
    (hf : t.find? (fun x => x.name == n) = some (.dir n ch)) :
    setChildren t n ch = t := by
  have hmem : FSEntry.dir n ch ∈ t := (find?_name_some hf).1
  rw [setChildren_eq_map]
  conv_rhs => rw [← List.map_id t]
  apply List.map_congr_left
  intro y hy
  by_cases hyn : y.name = n
  · have hname : y.name = (FSEntry.dir n ch).name := by
      rw [hyn]
      rfl
    have : y = FSEntry.dir n ch := mem_name_unique h hy hmem hname
    subst this
    simp [replaceChild]
  · rw [replaceChild_of_ne ch hyn]
    rfl

theorem WfT_setChildren {t : FsTree} (hw : WfT t) {ch : FsTree}
    (hch : WfT ch) (n : String) : WfT (setChildren t n ch) := by
  constructor
  · rw [setChildren_names]
    exact hw.1
  · intro x hx
    rw [setChildren_eq_map, List.mem_map] at hx
    obtain ⟨e, he, rfl⟩ := hx
    cases e with
    | file m c => exact hw.2 _ he
    | dir m ch2 =>
      simp only [replaceChild]
      by_cases hm : m = n
      · rw [if_pos hm]
        rw [WfE]
        exact hch
      · rw [if_neg hm]
        exact hw.2 _ he

theorem getAt_single (t : FsTree) (n : String) :
    getAt t [n] = t.find? (fun e => e.name == n) := rfl

theorem getAt_cons_dir {t : FsTree} {m : String} {q : List String}
    (hq : q ≠ []) {m' : String} {ch : FsTree}
    (hf : t.find? (fun e => e.name == m) = some (.dir m' ch)) :
    getAt t (m :: q) = getAt ch q := by
  cases q with
  | nil => exact absurd rfl hq
  | cons a as => simp only [getAt, hf]

theorem getAt_cons_none {t : FsTree} {m : String} {q : List String}
    (hq : q ≠ []) (hf : t.find? (fun e => e.name == m) = none) :
    getAt t (m :: q) = none := by
  cases q with
  | nil => exact absurd rfl hq
  | cons a as => simp only [getAt, hf]

theorem copyfileAt_level_file {t : FsTree} {n n' : String} {c c' : List Nat}
    (hf : t.find? (fun e => e.name == n) = some (.file n' c')) :
    copyfileAt t [n] c
      = some (t.map fun e => if e.name = n then .file n c else e) := by
  simp only [copyfileAt, hf]

theorem copyfileAt_level_none {t : FsTree} {n : String} {c : List Nat}
    (hf : t.find? (fun e => e.name == n) = none) :
    copyfileAt t [n] c = some (t ++ [.file n c]) := by
  simp only [copyfileAt, hf]

theorem copyfileAt_cons_dir {t : FsTree} {m : String} {q : List String}
    (hq : q ≠ []) {m' : String} {ch : FsTree} {c : List Nat}
    (hf : t.find? (fun e => e.name == m) = some (.dir m' ch)) :
    copyfileAt t (m :: q) c = (copyfileAt ch q c).map (setChildren t m) := by
  cases q with
  | nil => exact absurd rfl hq
  | cons a as => simp only [copyfileAt, hf]

theorem copytreeAt_level_none {t : FsTree} {n : String} {ch : FsTree}
    (hf : t.find? (fun e => e.name == n) = none) :
    copytreeAt t [n] ch = some (t ++ [.dir n ch]) := by
  simp only [copytreeAt, hf]

theorem copytreeAt_cons_dir {t : FsTree} {m : String} {q : List String}
    (hq : q ≠ []) {m' : String} {ch2 : FsTree} {ch : FsTree}
    (hf : t.find? (fun e => e.name == m) = some (.dir m' ch2)) :
    copytreeAt t (m :: q) ch = (copytreeAt ch2 q ch).map (setChildren t m) := by
  cases q with
  | nil => exact absurd rfl hq
  | cons a as => simp only [copytreeAt, hf]

theorem removeAt_single (t : FsTree) (n : String) :
    removeAt t [n] = t.filter (fun e => !(e.name == n)) := rfl

theorem removeAt_cons {t : FsTree} (h : (t.map FSEntry.name).Nodup)
    {m : String} {q : List String} (hq : q ≠ []) {ch : FsTree}
    (hf : t.find? (fun e => e.name == m) = some (.dir m ch)) :
    removeAt t (m :: q) = setChildren t m (removeAt ch q) := by
  cases q with
  | nil => exact absurd rfl hq
  | cons a as =>
    rw [setChildren_eq_map]
    simp only [removeAt]
    apply List.map_congr_left
    intro e he
    cases e with
    | file n c => rfl
    | dir n ch' =>
      by_cases hn : n = m
      · subst hn
        have h2 : FSEntry.dir n ch' = FSEntry.dir n ch := by
          have h3 : t.find? (fun x => x.name == n) = some (FSEntry.dir n ch') :=
            find?_name_eq_some_of_mem h he
          rw [h3] at hf
          injection hf
        injection h2 with _ h4
        subst h4
        simp [replaceChild]
      · simp [replaceChild, hn]

theorem removeItem_level (t : FsTree) (n : String) :
    removeItem t [n] = t.filter (fun e => !(e.name == n)) := by
  rw [removeItem, getAt_single]
  cases hf : t.find? (fun e => e.name == n) with
  | some e => simp only [hf, Option.isSome_some, if_pos]; exact removeAt_single t n
  | none =>
    simp only [hf, Option.isSome_none, Bool.false_eq_true, if_false]
    rw [find?_name_none] at hf
    symm
    rw [List.filter_eq_self]
    intro a ha
    simp only [Bool.not_eq_true']
    rw [beq_eq_false_iff_ne]
    exact hf a ha

theorem removeItem_child {t : FsTree} (h : (t.map FSEntry.name).Nodup)
    {m : String} {q : List String} (hq : q ≠ []) {ch : FsTree}
    (hf : t.find? (fun e => e.name == m) = some (.dir m ch)) :
    removeItem t (m :: q) = setChildren t m (removeItem ch q) := by
  rw [removeItem, removeItem, getAt_cons_dir hq hf]
  cases hg : (getAt ch q).isSome with
  | true =>
    rw [if_pos rfl, if_pos rfl]
    exact removeAt_cons h hq hf
  | false =>
    rw [if_neg Bool.false_ne_true, if_neg Bool.false_ne_true]
    exact (setChildren_self h hf).symm

theorem syncItems_child {S t : FsTree} (h : (t.map FSEntry.name).Nodup)
    {m : String} {q : List String} (hq : q ≠ []) {chS chD : FsTree}
    (hfS : S.find? (fun e => e.name == m) = some (.dir m chS))
    (hfD : t.find? (fun e => e.name == m) = some (.dir m chD))
    (ov : Bool) :
    syncItems S t (m :: q) (m :: q) ov
      = (syncItems chS chD q q ov).map (setChildren t m) := by
  rw [syncItems, syncItems, getAt_cons_dir hq hfS, getAt_cons_dir hq hfD]
  cases hg : getAt chS q with
  | none => simp [setChildren_self h hfD]
  | some e1 =>
    simp only
    by_cases hc : ov = false ∧ (getAt chD q).isNone = true
    · rw [if_pos hc, if_pos hc]
      cases he1 : e1.isDir with
      | true =>
        rw [if_pos rfl, if_pos rfl]
        exact copytreeAt_cons_dir hq hfD
      | false =>
        rw [if_neg Bool.false_ne_true, if_neg Bool.false_ne_true]
        exact copyfileAt_cons_dir hq hfD
    · rw [if_neg hc, if_neg hc]
      cases hov : ov with
      | false =>
        rw [if_neg Bool.false_ne_true, if_neg Bool.false_ne_true]
        simp [setChildren_self h hfD]
      | true =>
        rw [if_pos rfl, if_pos rfl]
        cases he1 : e1.isDir with
        | false =>
          rw [if_neg Bool.false_ne_true, if_neg Bool.false_ne_true]
          exact copyfileAt_cons_dir hq hfD
        | true =>
          rw [if_pos rfl, if_pos rfl]
          cases hg2 : getAt chD q with
          | none => exact copytreeAt_cons_dir hq hfD
          | some e2 =>
            cases e2 with
            | file n2 c2 => rfl
            | dir n2 ch2 =>
              simp only
              rw [removeAt_cons h hq hfD]
              rw [copytreeAt_cons_dir hq
                (find?_setChildren_dir t m (removeAt chD q) hfD)]
              congr 1
              funext x
              exact setChildren_setChildren t m (removeAt chD q) x

theorem itemOf_shift (p : List String) (m : String) (e : FSEntry) :
    itemOf (m :: p) e = shiftItem m (itemOf p e) := rfl

theorem mergeFiles_shift (o : FileOracle) (p : List String) (m : String) :
    ∀ ls rs, mergeFiles o (m :: p) ls rs = shiftDiff m (mergeFiles o p ls rs) := by
  intro ls rs
  induction ls, rs using mergeFiles.induct o p with
  | case1 => simp [mergeFiles, shiftDiff]
  | case2 r rs ih =>
    simp only [mergeFiles]
    rw [ih]
    simp [shiftDiff, itemOf_shift]
  | case3 l ls ih =>
    simp only [mergeFiles]
    rw [ih]
    simp [shiftDiff, itemOf_shift]
  | case4 l ls r rs hname hv ih =>
    simp only [mergeFiles]
    rw [if_pos hname, if_pos hname, if_pos hv, if_pos hv, ih]
  | case5 l ls r rs hname hv ih =>
    simp only [mergeFiles]
    rw [if_pos hname, if_pos hname, if_neg hv, if_neg hv, ih]
    simp [shiftDiff, itemOf_shift]
  | case6 l ls r rs hname hlt ih =>
    simp only [mergeFiles]
    rw [if_neg hname, if_neg hname, if_pos hlt, if_pos hlt, ih]
    simp [shiftDiff, itemOf_shift]
  | case7 l ls r rs hname hlt ih =>
    simp only [mergeFiles]
    rw [if_neg hname, if_neg hname, if_neg hlt, if_neg hlt, ih]
    simp [shiftDiff, itemOf_shift]

theorem mergeSubdirs_shift (p : List String) (m : String) :
    ∀ ls rs, mergeSubdirs (m :: p) ls rs =
      ⟨(mergeSubdirs p ls rs).1.map (shiftItem m),
       (mergeSubdirs p ls rs).2.1.map (shiftItem m),
       (mergeSubdirs p ls rs).2.2⟩ := by
  intro ls rs
  induction ls, rs using mergeSubdirs.induct p with
  | case1 => simp [mergeSubdirs]
  | case2 r rs ih =>
    simp only [mergeSubdirs]
    rw [ih]
    simp [itemOf_shift]
  | case3 l ls ih =>
    simp only [mergeSubdirs]
    rw [ih]
    simp [itemOf_shift]
  | case4 l ls r rs hname ih =>
    simp only [mergeSubdirs]
    rw [if_pos hname, if_pos hname, ih]
  | case5 l ls r rs hname hlt ih =>
    simp only [mergeSubdirs]
    rw [if_neg hname, if_neg hname, if_pos hlt, if_pos hlt, ih]
    simp [itemOf_shift]
  | case6 l ls r rs hname hlt ih =>
    simp only [mergeSubdirs]
    rw [if_neg hname, if_neg hname, if_neg hlt, if_neg hlt, ih]
    simp [itemOf_shift]

theorem compare_shift (o : FileOracle) :
    ∀ (p : List String) (lcs rcs : FsTree) (m : String),
      compareDirContents o (m :: p) lcs rcs
        = shiftDiff m (compareDirContents o p lcs rcs) := by
  intro p lcs rcs
  induction p, lcs, rcs using compareDirContents.induct o with
  | _ p lcs rcs ls1 rs1 dD1 ih =>
  intro m
  rw [compare_eq_noattach o (m :: p), compare_eq_noattach o p]
  simp only
  rw [mergeFiles_shift o p m, mergeSubdirs_shift p m]
  have hsub : (mergeSubdirs p ((lcs.mergeSort nameLe).filter FSEntry.isDir)
        ((rcs.mergeSort nameLe).filter FSEntry.isDir)).2.2.map
        (fun pr => compareDirContents o ((m :: p) ++ [pr.1.name])
          pr.1.childrenOf pr.2.childrenOf)
      = (mergeSubdirs p ((lcs.mergeSort nameLe).filter FSEntry.isDir)
        ((rcs.mergeSort nameLe).filter FSEntry.isDir)).2.2.map
        (fun pr => shiftDiff m (compareDirContents o (p ++ [pr.1.name])
          pr.1.childrenOf pr.2.childrenOf)) := by
    apply List.map_congr_left
    intro pr hpr
    have h1 : (m :: p) ++ [pr.1.name] = m :: (p ++ [pr.1.name]) := rfl
    rw [h1]
    exact ih ⟨pr, hpr⟩ m
  rw [hsub]
  simp only [shiftDiff, List.map_append, List.map_flatten, List.map_map,
    Function.comp_def]

theorem itemOf_rpath (p : List String) (e : FSEntry) :
    (itemOf p e).rpath = p ++ [e.name] := rfl

theorem itemOf_rpath_inj {p : List String} {a b : FSEntry}
    (h : (itemOf p a).rpath = (itemOf p b).rpath) : a.name = b.name := by
  simp only [itemOf] at h
  simpa using List.append_cancel_left h

theorem SortedNames.head_lt {x : FSEntry} {xs : List FSEntry}
    (h : SortedNames (x :: xs)) : ∀ e ∈ xs, x.name < e.name :=
  fun _ he => List.rel_of_pairwise_cons h he

theorem mergeFiles_nodups (o : FileOracle) (p : List String) :
    ∀ ls rs, SortedNames ls → SortedNames rs →
      ((mergeFiles o p ls rs).leftOnly.map Item.rpath).Nodup ∧
      ((mergeFiles o p ls rs).rightOnly.map Item.rpath).Nodup ∧
      ((mergeFiles o p ls rs).hashDiff.map (fun pr => pr.1.rpath)).Nodup ∧
      ((mergeFiles o p ls rs).hashDiff.map (fun pr => pr.2.rpath)).Nodup := by
  intro ls rs
  induction ls, rs using mergeFiles.induct o p with
  | case1 =>
    intro _ _
    simp [mergeFiles]
  | case2 r rs ih =>
    intro hl hr
    obtain ⟨ih1, ih2, ih3, ih4⟩ := ih hl hr.of_cons
    simp only [mergeFiles, List.map_cons, List.nodup_cons]
    refine ⟨ih1, ⟨?_, ih2⟩, ih3, ih4⟩
    intro hmem
    obtain ⟨i, hi, hieq⟩ := List.mem_map.1 hmem
    obtain ⟨e, he, hie, -⟩ :=
      (mergeFiles_rightOnly_iff o p (by constructor) hr.of_cons i).1 hi
    rw [hie] at hieq
    have : e.name = r.name := itemOf_rpath_inj (a := e) (b := r) hieq
    have hlt := hr.head_lt e he
    rw [this] at hlt
    exact lt_irrefl _ hlt
  | case3 l ls ih =>
    intro hl hr
    obtain ⟨ih1, ih2, ih3, ih4⟩ := ih hl.of_cons hr
    simp only [mergeFiles, List.map_cons, List.nodup_cons]
    refine ⟨⟨?_, ih1⟩, ih2, ih3, ih4⟩
    intro hmem
    obtain ⟨i, hi, hieq⟩ := List.mem_map.1 hmem
    obtain ⟨e, he, hie, -⟩ :=
      (mergeFiles_leftOnly_iff o p _ _ hl.of_cons hr i).1 hi
    rw [hie] at hieq
    have : e.name = l.name := itemOf_rpath_inj (a := e) (b := l) hieq
    have hlt := hl.head_lt e he
    rw [this] at hlt
    exact lt_irrefl _ hlt
  | case4 l ls r rs hname hv ih =>
    intro hl hr
    simp only [mergeFiles]
    rw [if_pos hname, if_pos hv]
    exact ih hl.of_cons hr.of_cons
  | case5 l ls r rs hname hv ih =>
    intro hl hr
    obtain ⟨ih1, ih2, ih3, ih4⟩ := ih hl.of_cons hr.of_cons
    simp only [mergeFiles]
    rw [if_pos hname, if_neg hv]
    simp only [List.map_cons, List.nodup_cons]
    refine ⟨ih1, ih2, ⟨?_, ih3⟩, ⟨?_, ih4⟩⟩
    · intro hmem
      obtain ⟨pr, hpr, hpreq⟩ := List.mem_map.1 hmem
      obtain ⟨e, he, f, hf, hpre, -, -⟩ :=
        (mergeFiles_hashDiff_iff o p _ _ hl.of_cons hr.of_cons pr).1 hpr
      rw [hpre] at hpreq
      have : e.name = l.name := itemOf_rpath_inj (a := e) (b := l) hpreq
      have hlt := hl.head_lt e he
      rw [this] at hlt
      exact lt_irrefl _ hlt
    · intro hmem
      obtain ⟨pr, hpr, hpreq⟩ := List.mem_map.1 hmem
      obtain ⟨e, he, f, hf, hpre, -, -⟩ :=
        (mergeFiles_hashDiff_iff o p _ _ hl.of_cons hr.of_cons pr).1 hpr
      rw [hpre] at hpreq
      have : f.name = r.name := itemOf_rpath_inj (a := f) (b := r) hpreq
      have hlt := hr.head_lt f hf
      rw [this] at hlt
      exact lt_irrefl _ hlt
  | case6 l ls r rs hname hlt ih =>
    intro hl hr
    obtain ⟨ih1, ih2, ih3, ih4⟩ := ih hl.of_cons hr
    simp only [mergeFiles]
    rw [if_neg hname, if_pos hlt]
    simp only [List.map_cons, List.nodup_cons]
    refine ⟨⟨?_, ih1⟩, ih2, ih3, ih4⟩
    intro hmem
    obtain ⟨i, hi, hieq⟩ := List.mem_map.1 hmem
    obtain ⟨e, he, hie, -⟩ :=
      (mergeFiles_leftOnly_iff o p _ _ hl.of_cons hr i).1 hi
    rw [hie] at hieq
    have : e.name = l.name := itemOf_rpath_inj (a := e) (b := l) hieq
    have hlt2 := hl.head_lt e he
    rw [this] at hlt2
    exact lt_irrefl _ hlt2
  | case7 l ls r rs hname hnlt ih =>
    intro hl hr
    obtain ⟨ih1, ih2, ih3, ih4⟩ := ih hl hr.of_cons
    simp only [mergeFiles]
    rw [if_neg hname, if_neg hnlt]
    simp only [List.map_cons, List.nodup_cons]
    refine ⟨ih1, ⟨?_, ih2⟩, ih3, ih4⟩
    intro hmem
    obtain ⟨i, hi, hieq⟩ := List.mem_map.1 hmem
    obtain ⟨e, he, hie, -⟩ :=
      (mergeFiles_rightOnly_iff o p hl hr.of_cons i).1 hi
    rw [hie] at hieq
    have : e.name = r.name := itemOf_rpath_inj (a := e) (b := r) hieq
    have hlt2 := hr.head_lt e he
    rw [this] at hlt2
    exact lt_irrefl _ hlt2

theorem mergeSubdirs_nodups (p : List String) :
    ∀ ls rs, SortedNames ls → SortedNames rs →
      ((mergeSubdirs p ls rs).1.map Item.rpath).Nodup ∧
      ((mergeSubdirs p ls rs).2.1.map Item.rpath).Nodup ∧
      ((mergeSubdirs p ls rs).2.2.map (fun pr => pr.1.name)).Nodup := by
  intro ls rs
  induction ls, rs using mergeSubdirs.induct p with
  | case1 =>
    intro _ _
    simp [mergeSubdirs]
  | case2 r rs ih =>
    intro hl hr
    obtain ⟨ih1, ih2, ih3⟩ := ih hl hr.of_cons
    simp only [mergeSubdirs, List.map_cons, List.nodup_cons]
    refine ⟨ih1, ⟨?_, ih2⟩, ih3⟩
    intro hmem
    obtain ⟨i, hi, hieq⟩ := List.mem_map.1 hmem
    obtain ⟨e, he, hie, -⟩ :=
      (mergeSubdirs_rightOnly_iff p (by constructor) hr.of_cons i).1 hi
    rw [hie] at hieq
    have : e.name = r.name := itemOf_rpath_inj (a := e) (b := r) hieq
    have hlt := hr.head_lt e he
    rw [this] at hlt
    exact lt_irrefl _ hlt
  | case3 l ls ih =>
    intro hl hr
    obtain ⟨ih1, ih2, ih3⟩ := ih hl.of_cons hr
    simp only [mergeSubdirs, List.map_cons, List.nodup_cons]
    refine ⟨⟨?_, ih1⟩, ih2, ih3⟩
    intro hmem
    obtain ⟨i, hi, hieq⟩ := List.mem_map.1 hmem
    obtain ⟨e, he, hie, -⟩ :=
      (mergeSubdirs_leftOnly_iff p _ _ hl.of_cons hr i).1 hi
    rw [hie] at hieq
    have : e.name = l.name := itemOf_rpath_inj (a := e) (b := l) hieq
    have hlt := hl.head_lt e he
    rw [this] at hlt
    exact lt_irrefl _ hlt
  | case4 l ls r rs hname ih =>
    intro hl hr
    obtain ⟨ih1, ih2, ih3⟩ := ih hl.of_cons hr.of_cons
    simp only [mergeSubdirs]
    rw [if_pos hname]
    simp only [List.map_cons, List.nodup_cons]
    refine ⟨ih1, ih2, ?_, ih3⟩
    intro hmem
    obtain ⟨pr, hpr, hpreq⟩ := List.mem_map.1 hmem
    have hm := (mergeSubdirs_matched_iff p _ _ hl.of_cons hr.of_cons pr).1 hpr
    have hlt := hl.head_lt pr.1 hm.1
    rw [hpreq] at hlt
    exact lt_irrefl _ hlt
  | case5 l ls r rs hname hlt ih =>
    intro hl hr
    obtain ⟨ih1, ih2, ih3⟩ := ih hl.of_cons hr
    simp only [mergeSubdirs]
    rw [if_neg hname, if_pos hlt]
    simp only [List.map_cons, List.nodup_cons]
    refine ⟨⟨?_, ih1⟩, ih2, ih3⟩
    intro hmem
    obtain ⟨i, hi, hieq⟩ := List.mem_map.1 hmem
    obtain ⟨e, he, hie, -⟩ :=
      (mergeSubdirs_leftOnly_iff p _ _ hl.of_cons hr i).1 hi
    rw [hie] at hieq
    have : e.name = l.name := itemOf_rpath_inj (a := e) (b := l) hieq
    have hlt2 := hl.head_lt e he
    rw [this] at hlt2
    exact lt_irrefl _ hlt2
  | case6 l ls r rs hname hnlt ih =>
    intro hl hr
    obtain ⟨ih1, ih2, ih3⟩ := ih hl hr.of_cons
    simp only [mergeSubdirs]
    rw [if_neg hname, if_neg hnlt]
    simp only [List.map_cons, List.nodup_cons]
    refine ⟨ih1, ⟨?_, ih2⟩, ih3⟩
    intro hmem
    obtain ⟨i, hi, hieq⟩ := List.mem_map.1 hmem
    obtain ⟨e, he, hie, -⟩ :=
      (mergeSubdirs_rightOnly_iff p hl hr.of_cons i).1 hi
    rw [hie] at hieq
    have : e.name = r.name := itemOf_rpath_inj (a := e) (b := r) hieq
    have hlt2 := hr.head_lt e he
    rw [this] at hlt2
    exact lt_irrefl _ hlt2

theorem compare_root_decomp (o : FileOracle) (A B : FsTree) :
    compareDirContents o [] A B =
      ⟨(mergeFiles o [] ((A.mergeSort nameLe).filter FSEntry.isFile)
          ((B.mergeSort nameLe).filter FSEntry.isFile)).leftOnly
        ++ (mergeSubdirs [] ((A.mergeSort nameLe).filter FSEntry.isDir)
            ((B.mergeSort nameLe).filter FSEntry.isDir)).1
        ++ ((mergeSubdirs [] ((A.mergeSort nameLe).filter FSEntry.isDir)
            ((B.mergeSort nameLe).filter FSEntry.isDir)).2.2.map
            fun pr => ((compareDirContents o [] pr.1.childrenOf
                pr.2.childrenOf).leftOnly).map (shiftItem pr.1.name)).flatten,
       (mergeFiles o [] ((A.mergeSort nameLe).filter FSEntry.isFile)
          ((B.mergeSort nameLe).filter FSEntry.isFile)).rightOnly
        ++ (mergeSubdirs [] ((A.mergeSort nameLe).filter FSEntry.isDir)
            ((B.mergeSort nameLe).filter FSEntry.isDir)).2.1
        ++ ((mergeSubdirs [] ((A.mergeSort nameLe).filter FSEntry.isDir)
            ((B.mergeSort nameLe).filter FSEntry.isDir)).2.2.map
            fun pr => ((compareDirContents o [] pr.1.childrenOf
                pr.2.childrenOf).rightOnly).map (shiftItem pr.1.name)).flatten,
       (mergeFiles o [] ((A.mergeSort nameLe).filter FSEntry.isFile)
          ((B.mergeSort nameLe).filter FSEntry.isFile)).hashDiff
        ++ ((mergeSubdirs [] ((A.mergeSort nameLe).filter FSEntry.isDir)
            ((B.mergeSort nameLe).filter FSEntry.isDir)).2.2.map
            fun pr => ((compareDirContents o [] pr.1.childrenOf
                pr.2.childrenOf).hashDiff).map
              fun qr => (shiftItem pr.1.name qr.1,
                shiftItem pr.1.name qr.2)).flatten⟩ := by
  rw [compare_eq_noattach o []]
  simp only
  have hsub : (mergeSubdirs [] ((A.mergeSort nameLe).filter FSEntry.isDir)
        ((B.mergeSort nameLe).filter FSEntry.isDir)).2.2.map
        (fun pr => compareDirContents o ([] ++ [pr.1.name])
          pr.1.childrenOf pr.2.childrenOf)
      = (mergeSubdirs [] ((A.mergeSort nameLe).filter FSEntry.isDir)
        ((B.mergeSort nameLe).filter FSEntry.isDir)).2.2.map
        (fun pr => shiftDiff pr.1.name (compareDirContents o []
          pr.1.childrenOf pr.2.childrenOf)) := by
    apply List.map_congr_left
    intro pr hpr
    have h1 : ([] : List String) ++ [pr.1.name] = pr.1.name :: [] := rfl
    rw [h1]
    exact compare_shift o [] pr.1.childrenOf pr.2.childrenOf pr.1.name
  rw [hsub]
  simp only [shiftDiff, List.map_map, Function.comp_def]

theorem diff_decomp_left (o : FileOracle) (flip : Bool) (S D : FsTree) :
    (diffOf o flip S D).leftOnly
      = levelAdds o flip S D
        ++ ((matchedOf flip S D).map fun pr =>
            ((diffOf o flip pr.1.childrenOf pr.2.childrenOf).leftOnly).map
              (shiftItem pr.1.name)).flatten := by
  cases flip with
  | false =>
    simp only [diffOf, Bool.false_eq_true, if_false, levelAdds, matchedOf]
    rw [compare_root_decomp o S D]
  | true =>
    simp only [diffOf, if_true, levelAdds, matchedOf]
    rw [compare_root_decomp o D S]
    simp only [List.append_assoc, List.map_map]
    congr 2
    congr 1
    apply List.map_congr_left
    intro pr hpr
    have hn := mergeSubdirs_matched_names [] _ _ pr hpr
    simp only [Function.comp_apply]
    rw [hn]

theorem diff_decomp_right (o : FileOracle) (flip : Bool) (S D : FsTree) :
    (diffOf o flip S D).rightOnly
      = levelRms o flip S D
        ++ ((matchedOf flip S D).map fun pr =>
            ((diffOf o flip pr.1.childrenOf pr.2.childrenOf).rightOnly).map
              (shiftItem pr.1.name)).flatten := by
  cases flip with
  | false =>
    simp only [diffOf, Bool.false_eq_true, if_false, levelRms, matchedOf]
    rw [compare_root_decomp o S D]
  | true =>
    simp only [diffOf, if_true, levelRms, matchedOf]
    rw [compare_root_decomp o D S]
    simp only [List.append_assoc, List.map_map]
    congr 2
    congr 1
    apply List.map_congr_left
    intro pr hpr
    have hn := mergeSubdirs_matched_names [] _ _ pr hpr
    simp only [Function.comp_apply]
    rw [hn]

theorem diff_decomp_hash (o : FileOracle) (flip : Bool) (S D : FsTree) :
    (diffOf o flip S D).hashDiff
      = levelOws o flip S D
        ++ ((matchedOf flip S D).map fun pr =>
            ((diffOf o flip pr.1.childrenOf pr.2.childrenOf).hashDiff).map
              fun qr => (shiftItem pr.1.name qr.1,
                shiftItem pr.1.name qr.2)).flatten := by
  cases flip with
  | false =>
    simp only [diffOf, Bool.false_eq_true, if_false, levelOws, matchedOf]
    rw [compare_root_decomp o S D]
  | true =>
    simp only [diffOf, if_true, levelOws, matchedOf]
    rw [compare_root_decomp o D S]
    simp only [List.map_append, List.map_flatten, List.map_map]
    congr 1
    congr 1
    apply List.map_congr_left
    intro pr hpr
    have hn := mergeSubdirs_matched_names [] _ _ pr hpr
    simp only [Function.comp_apply, List.map_map]
    apply List.map_congr_left
    intro qr _
    simp only [Function.comp_apply]
    rw [hn]

theorem matchedOf_mem {flip : Bool} {S D : FsTree}
    (hS : (S.map FSEntry.name).Nodup) (hD : (D.map FSEntry.name).Nodup) :
    ∀ pr ∈ matchedOf flip S D, pr.1 ∈ S ∧ pr.2 ∈ D ∧ pr.1.isDir = true ∧
      pr.2.isDir = true ∧ pr.1.name = pr.2.name := by
  cases flip with
  | false =>
    intro pr hpr
    have h := (mergeSubdirs_matched_iff [] _ _
      ((sortedNames_mergeSort hS).filter _)
      ((sortedNames_mergeSort hD).filter _) pr).1 hpr
    have h1 := (mem_sortFilter _ _ _).1 h.1
    have h2 := (mem_sortFilter _ _ _).1 h.2.1
    exact ⟨h1.1, h2.1, h1.2, h2.2, h.2.2⟩
  | true =>
    intro pr hpr
    simp only [matchedOf, List.mem_map] at hpr
    obtain ⟨qr, hqr, rfl⟩ := hpr
    have h := (mergeSubdirs_matched_iff [] _ _
      ((sortedNames_mergeSort hD).filter _)
      ((sortedNames_mergeSort hS).filter _) qr).1 hqr
    have h1 := (mem_sortFilter _ _ _).1 h.1
    have h2 := (mem_sortFilter _ _ _).1 h.2.1
    exact ⟨h2.1, h1.1, h2.2, h1.2, h.2.2.symm⟩

theorem matchedOf_complete {flip : Bool} {S D : FsTree}
    (hS : (S.map FSEntry.name).Nodup) (hD : (D.map FSEntry.name).Nodup) :
    ∀ e ∈ S, ∀ f ∈ D, e.isDir = true → f.isDir = true → e.name = f.name →
      (e, f) ∈ matchedOf flip S D := by
  intro e he f hf hed hfd hn
  cases flip with
  | false =>
    exact (mergeSubdirs_matched_iff [] _ _
      ((sortedNames_mergeSort hS).filter _)
      ((sortedNames_mergeSort hD).filter _) (e, f)).2
      ⟨(mem_sortFilter _ _ _).2 ⟨he, hed⟩,
       (mem_sortFilter _ _ _).2 ⟨hf, hfd⟩, hn⟩
  | true =>
    simp only [matchedOf, List.mem_map]
    refine ⟨(f, e), ?_, rfl⟩
    exact (mergeSubdirs_matched_iff [] _ _
      ((sortedNames_mergeSort hD).filter _)
      ((sortedNames_mergeSort hS).filter _) (f, e)).2
      ⟨(mem_sortFilter _ _ _).2 ⟨hf, hfd⟩,
       (mem_sortFilter _ _ _).2 ⟨he, hed⟩, hn.symm⟩

theorem matchedOf_names_nodup {flip : Bool} {S D : FsTree}
    (hS : (S.map FSEntry.name).Nodup) (hD : (D.map FSEntry.name).Nodup) :
    ((matchedOf flip S D).map (fun pr => pr.1.name)).Nodup := by
  cases flip with
  | false =>
    exact (mergeSubdirs_nodups [] _ _
      ((sortedNames_mergeSort hS).filter _)
      ((sortedNames_mergeSort hD).filter _)).2.2
  | true =>
    simp only [matchedOf, List.map_map]
    have h := (mergeSubdirs_nodups []
      ((D.mergeSort nameLe).filter FSEntry.isDir)
      ((S.mergeSort nameLe).filter FSEntry.isDir)
      ((sortedNames_mergeSort hD).filter _)
      ((sortedNames_mergeSort hS).filter _)).2.2
    have heq : (mergeSubdirs [] ((D.mergeSort nameLe).filter FSEntry.isDir)
          ((S.mergeSort nameLe).filter FSEntry.isDir)).2.2.map
          ((fun pr : FSEntry × FSEntry => pr.1.name) ∘ fun pr => (pr.2, pr.1))
        = (mergeSubdirs [] ((D.mergeSort nameLe).filter FSEntry.isDir)
          ((S.mergeSort nameLe).filter FSEntry.isDir)).2.2.map
          (fun pr => pr.1.name) := by
      apply List.map_congr_left
      intro pr hpr
      have hn := mergeSubdirs_matched_names [] _ _ pr hpr
      simp only [Function.comp_apply]
      exact hn.symm
    rw [heq]
    exact h

theorem vFlip_false (o : FileOracle) (a b : List Nat) :
    vFlip o false a b = areFilesEqual o a b := rfl

theorem vFlip_true (o : FileOracle) (a b : List Nat) :
    vFlip o true a b = areFilesEqual o b a := rfl

theorem levelAdds_mem {o : FileOracle} {flip : Bool} {S D : FsTree}
    (hS : (S.map FSEntry.name).Nodup) (hD : (D.map FSEntry.name).Nodup) :
    ∀ it ∈ levelAdds o flip S D, ∃ e, e ∈ S ∧ it = ⟨[e.name], e⟩ ∧
      ((e.isFile = true ∧ ¬∃ f, f ∈ D ∧ f.isFile = true ∧ f.name = e.name) ∨
       (e.isDir = true ∧ ¬∃ f, f ∈ D ∧ f.isDir = true ∧ f.name = e.name)) := by
  intro it hit
  cases flip with
  | false =>
    simp only [levelAdds] at hit
    rcases List.mem_append.1 hit with h | h
    · obtain ⟨e, he, hie, hnames⟩ := (mergeFiles_leftOnly_iff o [] _ _
        ((sortedNames_mergeSort hS).filter _)
        ((sortedNames_mergeSort hD).filter _) it).1 h
      have he2 := (mem_sortFilter _ _ _).1 he
      rw [mem_names_sortFilter] at hnames
      exact ⟨e, he2.1, by rw [hie]; rfl, Or.inl ⟨he2.2, hnames⟩⟩
    · obtain ⟨e, he, hie, hnames⟩ := (mergeSubdirs_leftOnly_iff [] _ _
        ((sortedNames_mergeSort hS).filter _)
        ((sortedNames_mergeSort hD).filter _) it).1 h
      have he2 := (mem_sortFilter _ _ _).1 he
      rw [mem_names_sortFilter] at hnames
      exact ⟨e, he2.1, by rw [hie]; rfl, Or.inr ⟨he2.2, hnames⟩⟩
  | true =>
    simp only [levelAdds] at hit
    rcases List.mem_append.1 hit with h | h
    · obtain ⟨e, he, hie, hnames⟩ := (mergeFiles_rightOnly_iff o []
        ((sortedNames_mergeSort hD).filter _)
        ((sortedNames_mergeSort hS).filter _) it).1 h
      have he2 := (mem_sortFilter _ _ _).1 he
      rw [mem_names_sortFilter] at hnames
      exact ⟨e, he2.1, by rw [hie]; rfl, Or.inl ⟨he2.2, hnames⟩⟩
    · obtain ⟨e, he, hie, hnames⟩ := (mergeSubdirs_rightOnly_iff []
        ((sortedNames_mergeSort hD).filter _)
        ((sortedNames_mergeSort hS).filter _) it).1 h
      have he2 := (mem_sortFilter _ _ _).1 he
      rw [mem_names_sortFilter] at hnames
      exact ⟨e, he2.1, by rw [hie]; rfl, Or.inr ⟨he2.2, hnames⟩⟩

theorem levelAdds_complete {o : FileOracle} {flip : Bool} {S D : FsTree}
    (hS : (S.map FSEntry.name).Nodup) (hD : (D.map FSEntry.name).Nodup) :
    ∀ e ∈ S,
      ((e.isFile = true ∧ ¬∃ f, f ∈ D ∧ f.isFile = true ∧ f.name = e.name) ∨
       (e.isDir = true ∧ ¬∃ f, f ∈ D ∧ f.isDir = true ∧ f.name = e.name)) →
      (⟨[e.name], e⟩ : Item) ∈ levelAdds o flip S D := by
  intro e he hcond
  cases flip with
  | false =>
    simp only [levelAdds]
    rcases hcond with ⟨hkind, hno⟩ | ⟨hkind, hno⟩
    · apply List.mem_append.2 (Or.inl _)
      apply (mergeFiles_leftOnly_iff o [] _ _
        ((sortedNames_mergeSort hS).filter _)
        ((sortedNames_mergeSort hD).filter _) _).2
      refine ⟨e, (mem_sortFilter _ _ _).2 ⟨he, hkind⟩, rfl, ?_⟩
      rw [mem_names_sortFilter]
      exact hno
    · apply List.mem_append.2 (Or.inr _)
      apply (mergeSubdirs_leftOnly_iff [] _ _
        ((sortedNames_mergeSort hS).filter _)
        ((sortedNames_mergeSort hD).filter _) _).2
      refine ⟨e, (mem_sortFilter _ _ _).2 ⟨he, hkind⟩, rfl, ?_⟩
      rw [mem_names_sortFilter]
      exact hno
  | true =>
    simp only [levelAdds]
    rcases hcond with ⟨hkind, hno⟩ | ⟨hkind, hno⟩
    · apply List.mem_append.2 (Or.inl _)
      apply (mergeFiles_rightOnly_iff o []
        ((sortedNames_mergeSort hD).filter _)
        ((sortedNames_mergeSort hS).filter _) _).2
      refine ⟨e, (mem_sortFilter _ _ _).2 ⟨he, hkind⟩, rfl, ?_⟩
      rw [mem_names_sortFilter]
      exact hno
    · apply List.mem_append.2 (Or.inr _)
      apply (mergeSubdirs_rightOnly_iff []
        ((sortedNames_mergeSort hD).filter _)
        ((sortedNames_mergeSort hS).filter _) _).2
      refine ⟨e, (mem_sortFilter _ _ _).2 ⟨he, hkind⟩, rfl, ?_⟩
      rw [mem_names_sortFilter]
      exact hno

theorem levelAdds_nodup {o : FileOracle} {flip : Bool} {S D : FsTree}
    (hS : (S.map FSEntry.name).Nodup) (hD : (D.map FSEntry.name).Nodup) :
    ((levelAdds o flip S D).map Item.rpath).Nodup := by
  cases flip with
  | false =>
    simp only [levelAdds, List.map_append]
    rw [List.nodup_append]
    refine ⟨(mergeFiles_nodups o [] _ _
        ((sortedNames_mergeSort hS).filter _)
        ((sortedNames_mergeSort hD).filter _)).1,
      (mergeSubdirs_nodups [] _ _
        ((sortedNames_mergeSort hS).filter _)
        ((sortedNames_mergeSort hD).filter _)).1, ?_⟩
    intro a haf had
    obtain ⟨i, hi, hieq⟩ := List.mem_map.1 haf
    obtain ⟨j, hj, hjeq⟩ := List.mem_map.1 had
    obtain ⟨e, he, hie, -⟩ := (mergeFiles_leftOnly_iff o [] _ _
      ((sortedNames_mergeSort hS).filter _)
      ((sortedNames_mergeSort hD).filter _) i).1 hi
    obtain ⟨f, hf, hjf, -⟩ := (mergeSubdirs_leftOnly_iff [] _ _
      ((sortedNames_mergeSort hS).filter _)
      ((sortedNames_mergeSort hD).filter _) j).1 hj
    have hne : e.name = f.name := by
      apply itemOf_rpath_inj (p := ([] : List String))
      rw [← hie, ← hjf, hieq, hjeq]
    have he2 := (mem_sortFilter _ _ _).1 he
    have hf2 := (mem_sortFilter _ _ _).1 hf
    have heq : e = f := mem_name_unique hS he2.1 hf2.1 hne
    rw [← heq] at hf2
    have h1 := he2.2
    have h2 := hf2.2
    cases e with
    | file n c => simp [FSEntry.isDir] at h2
    | dir n ch => simp [FSEntry.isFile] at h1
  | true =>
    simp only [levelAdds, List.map_append]
    rw [List.nodup_append]
    refine ⟨(mergeFiles_nodups o [] _ _
        ((sortedNames_mergeSort hD).filter _)
        ((sortedNames_mergeSort hS).filter _)).2.1,
      (mergeSubdirs_nodups [] _ _
        ((sortedNames_mergeSort hD).filter _)
        ((sortedNames_mergeSort hS).filter _)).2.1, ?_⟩
    intro a haf had
    obtain ⟨i, hi, hieq⟩ := List.mem_map.1 haf
    obtain ⟨j, hj, hjeq⟩ := List.mem_map.1 had
    obtain ⟨e, he, hie, -⟩ := (mergeFiles_rightOnly_iff o []
      ((sortedNames_mergeSort hD).filter _)
      ((sortedNames_mergeSort hS).filter _) i).1 hi
    obtain ⟨f, hf, hjf, -⟩ := (mergeSubdirs_rightOnly_iff []
      ((sortedNames_mergeSort hD).filter _)
      ((sortedNames_mergeSort hS).filter _) j).1 hj
    have hne : e.name = f.name := by
      apply itemOf_rpath_inj (p := ([] : List String))
      rw [← hie, ← hjf, hieq, hjeq]
    have he2 := (mem_sortFilter _ _ _).1 he
    have hf2 := (mem_sortFilter _ _ _).1 hf
    have heq : e = f := mem_name_unique hS he2.1 hf2.1 hne
    rw [← heq] at hf2
    have h1 := he2.2
    have h2 := hf2.2
    cases e with
    | file n c => simp [FSEntry.isDir] at h2
    | dir n ch => simp [FSEntry.isFile] at h1

theorem levelRms_mem {o : FileOracle} {flip : Bool} {S D : FsTree}
    (hS : (S.map FSEntry.name).Nodup) (hD : (D.map FSEntry.name).Nodup) :
    ∀ it ∈ levelRms o flip S D, ∃ f, f ∈ D ∧ it = ⟨[f.name], f⟩ ∧
      ((f.isFile = true ∧ ¬∃ e, e ∈ S ∧ e.isFile = true ∧ e.name = f.name) ∨
       (f.isDir = true ∧ ¬∃ e, e ∈ S ∧ e.isDir = true ∧ e.name = f.name)) := by
  intro it hit
  cases flip with
  | false =>
    simp only [levelRms] at hit
    rcases List.mem_append.1 hit with h | h
    · obtain ⟨e, he, hie, hnames⟩ := (mergeFiles_rightOnly_iff o []
        ((sortedNames_mergeSort hS).filter _)
        ((sortedNames_mergeSort hD).filter _) it).1 h
      have he2 := (mem_sortFilter _ _ _).1 he
      rw [mem_names_sortFilter] at hnames
      exact ⟨e, he2.1, by rw [hie]; rfl, Or.inl ⟨he2.2, hnames⟩⟩
    · obtain ⟨e, he, hie, hnames⟩ := (mergeSubdirs_rightOnly_iff []
        ((sortedNames_mergeSort hS).filter _)
        ((sortedNames_mergeSort hD).filter _) it).1 h
      have he2 := (mem_sortFilter _ _ _).1 he
      rw [mem_names_sortFilter] at hnames
      exact ⟨e, he2.1, by rw [hie]; rfl, Or.inr ⟨he2.2, hnames⟩⟩
  | true =>
    simp only [levelRms] at hit
    rcases List.mem_append.1 hit with h | h
    · obtain ⟨e, he, hie, hnames⟩ := (mergeFiles_leftOnly_iff o [] _ _
        ((sortedNames_mergeSort hD).filter _)
        ((sortedNames_mergeSort hS).filter _) it).1 h
      have he2 := (mem_sortFilter _ _ _).1 he
      rw [mem_names_sortFilter] at hnames
      exact ⟨e, he2.1, by rw [hie]; rfl, Or.inl ⟨he2.2, hnames⟩⟩
    · obtain ⟨e, he, hie, hnames⟩ := (mergeSubdirs_leftOnly_iff [] _ _
        ((sortedNames_mergeSort hD).filter _)
        ((sortedNames_mergeSort hS).filter _) it).1 h
      have he2 := (mem_sortFilter _ _ _).1 he
      rw [mem_names_sortFilter] at hnames
      exact ⟨e, he2.1, by rw [hie]; rfl, Or.inr ⟨he2.2, hnames⟩⟩

theorem levelRms_complete {o : FileOracle} {flip : Bool} {S D : FsTree}
    (hS : (S.map FSEntry.name).Nodup) (hD : (D.map FSEntry.name).Nodup) :
    ∀ f ∈ D,
      ((f.isFile = true ∧ ¬∃ e, e ∈ S ∧ e.isFile = true ∧ e.name = f.name) ∨
       (f.isDir = true ∧ ¬∃ e, e ∈ S ∧ e.isDir = true ∧ e.name = f.name)) →
      (⟨[f.name], f⟩ : Item) ∈ levelRms o flip S D := by
  intro f hf hcond
  cases flip with
  | false =>
    simp only [levelRms]
    rcases hcond with ⟨hkind, hno⟩ | ⟨hkind, hno⟩
    · apply List.mem_append.2 (Or.inl _)
      apply (mergeFiles_rightOnly_iff o []
        ((sortedNames_mergeSort hS).filter _)
        ((sortedNames_mergeSort hD).filter _) _).2
      refine ⟨f, (mem_sortFilter _ _ _).2 ⟨hf, hkind⟩, rfl, ?_⟩
      rw [mem_names_sortFilter]
      exact hno
    · apply List.mem_append.2 (Or.inr _)
      apply (mergeSubdirs_rightOnly_iff []
        ((sortedNames_mergeSort hS).filter _)
        ((sortedNames_mergeSort hD).filter _) _).2
      refine ⟨f, (mem_sortFilter _ _ _).2 ⟨hf, hkind⟩, rfl, ?_⟩
      rw [mem_names_sortFilter]
      exact hno
  | true =>
    simp only [levelRms]
    rcases hcond with ⟨hkind, hno⟩ | ⟨hkind, hno⟩
    · apply List.mem_append.2 (Or.inl _)
      apply (mergeFiles_leftOnly_iff o [] _ _
        ((sortedNames_mergeSort hD).filter _)
        ((sortedNames_mergeSort hS).filter _) _).2
      refine ⟨f, (mem_sortFilter _ _ _).2 ⟨hf, hkind⟩, rfl, ?_⟩
      rw [mem_names_sortFilter]
      exact hno
    · apply List.mem_append.2 (Or.inr _)
      apply (mergeSubdirs_leftOnly_iff [] _ _
        ((sortedNames_mergeSort hD).filter _)
        ((sortedNames_mergeSort hS).filter _) _).2
      refine ⟨f, (mem_sortFilter _ _ _).2 ⟨hf, hkind⟩, rfl, ?_⟩
      rw [mem_names_sortFilter]
      exact hno

theorem levelOws_mem {o : FileOracle} {flip : Bool} {S D : FsTree}
    (hS : (S.map FSEntry.name).Nodup) (hD : (D.map FSEntry.name).Nodup) :
    ∀ qr ∈ levelOws o flip S D, ∃ e f, e ∈ S ∧ f ∈ D ∧
      e.isFile = true ∧ f.isFile = true ∧ e.name = f.name ∧
      qr = (⟨[e.name], e⟩, ⟨[f.name], f⟩) ∧
      vFlip o flip e.content f.content = false := by
  intro qr hqr
  cases flip with
  | false =>
    simp only [levelOws] at hqr
    obtain ⟨e, he, f, hf, hpre, hn, hv⟩ := (mergeFiles_hashDiff_iff o [] _ _
      ((sortedNames_mergeSort hS).filter _)
      ((sortedNames_mergeSort hD).filter _) qr).1 hqr
    have he2 := (mem_sortFilter _ _ _).1 he
    have hf2 := (mem_sortFilter _ _ _).1 hf
    exact ⟨e, f, he2.1, hf2.1, he2.2, hf2.2, hn, by rw [hpre]; rfl, hv⟩
  | true =>
    simp only [levelOws, List.mem_map] at hqr
    obtain ⟨qr2, hqr2, rfl⟩ := hqr
    obtain ⟨f, hf, e, he, hpre, hn, hv⟩ := (mergeFiles_hashDiff_iff o [] _ _
      ((sortedNames_mergeSort hD).filter _)
      ((sortedNames_mergeSort hS).filter _) qr2).1 hqr2
    have he2 := (mem_sortFilter _ _ _).1 he
    have hf2 := (mem_sortFilter _ _ _).1 hf
    exact ⟨e, f, he2.1, hf2.1, he2.2, hf2.2, hn.symm, by rw [hpre]; rfl, hv⟩

theorem levelOws_complete {o : FileOracle} {flip : Bool} {S D : FsTree}
    (hS : (S.map FSEntry.name).Nodup) (hD : (D.map FSEntry.name).Nodup) :
    ∀ e ∈ S, ∀ f ∈ D, e.isFile = true → f.isFile = true → e.name = f.name →
      vFlip o flip e.content f.content = false →
      ((⟨[e.name], e⟩, ⟨[f.name], f⟩) : Item × Item) ∈ levelOws o flip S D := by
  intro e he f hf hef hff hn hv
  cases flip with
  | false =>
    simp only [levelOws]
    apply (mergeFiles_hashDiff_iff o [] _ _
      ((sortedNames_mergeSort hS).filter _)
      ((sortedNames_mergeSort hD).filter _) _).2
    exact ⟨e, (mem_sortFilter _ _ _).2 ⟨he, hef⟩,
      f, (mem_sortFilter _ _ _).2 ⟨hf, hff⟩, rfl, hn, hv⟩
  | true =>
    simp only [levelOws, List.mem_map]
    refine ⟨(⟨[f.name], f⟩, ⟨[e.name], e⟩), ?_, rfl⟩
    apply (mergeFiles_hashDiff_iff o [] _ _
      ((sortedNames_mergeSort hD).filter _)
      ((sortedNames_mergeSort hS).filter _) _).2
    exact ⟨f, (mem_sortFilter _ _ _).2 ⟨hf, hff⟩,
      e, (mem_sortFilter _ _ _).2 ⟨he, hef⟩, rfl, hn.symm, hv⟩

theorem levelOws_nodup {o : FileOracle} {flip : Bool} {S D : FsTree}
    (hS : (S.map FSEntry.name).Nodup) (hD : (D.map FSEntry.name).Nodup) :
    ((levelOws o flip S D).map (fun qr => qr.1.rpath)).Nodup := by
  cases flip with
  | false =>
    exact (mergeFiles_nodups o [] _ _
      ((sortedNames_mergeSort hS).filter _)
      ((sortedNames_mergeSort hD).filter _)).2.2.1
  | true =>
    simp only [levelOws, List.map_map]
    exact (mergeFiles_nodups o []
      ((D.mergeSort nameLe).filter FSEntry.isFile)
      ((S.mergeSort nameLe).filter FSEntry.isFile)
      ((sortedNames_mergeSort hD).filter _)
      ((sortedNames_mergeSort hS).filter _)).2.2.2

theorem diffOf_shape {o : FileOracle} {flip : Bool} {S D : FsTree}
    (hS : WfT S) (hD : WfT D) :
    (∀ i ∈ (diffOf o flip S D).leftOnly, i.rpath ≠ []) ∧
    (∀ i ∈ (diffOf o flip S D).rightOnly, i.rpath ≠ []) ∧
    (∀ qr ∈ (diffOf o flip S D).hashDiff,
      qr.1.rpath = qr.2.rpath ∧ qr.1.rpath ≠ []) := by
  cases flip with
  | false =>
    obtain ⟨h1, h2, h3⟩ := compare_shape o [] S D hS hD
    simp only [diffOf, Bool.false_eq_true, if_false]
    refine ⟨?_, ?_, ?_⟩
    · intro i hi
      obtain ⟨e, s, -, hp⟩ := h1 i hi
      rw [hp]
      simp
    · intro i hi
      obtain ⟨e, s, -, hp⟩ := h2 i hi
      rw [hp]
      simp
    · intro qr hqr
      obtain ⟨⟨e, s, -, hp⟩, heq⟩ := h3 qr hqr
      exact ⟨heq.symm, by rw [hp]; simp⟩
  | true =>
    obtain ⟨h1, h2, h3⟩ := compare_shape o [] D S hD hS
    simp only [diffOf, if_true]
    refine ⟨?_, ?_, ?_⟩
    · intro i hi
      obtain ⟨e, s, -, hp⟩ := h2 i hi
      rw [hp]
      simp
    · intro i hi
      obtain ⟨e, s, -, hp⟩ := h1 i hi
      rw [hp]
      simp
    · intro qr hqr
      simp only [List.mem_map] at hqr
      obtain ⟨qr2, hqr2, rfl⟩ := hqr
      obtain ⟨⟨e, s, -, hp⟩, heq⟩ := h3 qr2 hqr2
      refine ⟨heq, ?_⟩
      simp only
      rw [heq, hp]
      simp

theorem find?_filter_of_imp {α : Type} {p q : α → Bool}
    (h : ∀ x, p x = true → q x = true) :
    ∀ l : List α, (l.filter q).find? p = l.find? p := by
  intro l
  induction l with
  | nil => rfl
  | cons x xs ih =>
    rw [List.filter_cons]
    cases hq : q x with
    | true =>
      rw [if_pos rfl, List.find?_cons, List.find?_cons]
      cases hp : p x with
      | true => rfl
      | false => exact ih
    | false =>
      rw [if_neg Bool.false_ne_true, List.find?_cons]
      cases hp : p x with
      | true =>
        exact absurd (h x hp) (by rw [hq]; exact Bool.false_ne_true)
      | false => exact ih

theorem foldlM_congr_mem {α β : Type} {f g : β → α → Option β} :
    ∀ {l : List α}, (∀ b, ∀ a ∈ l, f b a = g b a) →
      ∀ b, l.foldlM f b = l.foldlM g b := by
  intro l
  induction l with
  | nil => intro _ b; rfl
  | cons x xs ih =>
    intro h b
    rw [List.foldlM_cons, List.foldlM_cons, h b x (List.mem_cons_self _ _)]
    cases g b x with
    | none => rfl
    | some b2 =>
      exact ih (fun b' a ha => h b' a (List.mem_cons_of_mem _ ha)) b2

theorem syncItems_new {S D : FsTree} {e : FSEntry}
    (hS : S.find? (fun x => x.name == e.name) = some e)
    (hD : D.find? (fun x => x.name == e.name) = none) (ov : Bool) :
    syncItems S D [e.name] [e.name] ov = some (D ++ [e]) := by
  rw [syncItems, getAt_single, getAt_single, hS, hD]
  dsimp only
  cases e with
  | file n c =>
    cases ov with
    | false =>
      have hcond : (false = false ∧ (none : Option FSEntry).isNone = true) :=
        ⟨rfl, rfl⟩
      rw [if_pos hcond]
      have hdir : FSEntry.isDir (.file n c) = false := rfl
      rw [if_neg (by rw [hdir]; exact Bool.false_ne_true)]
      exact copyfileAt_level_none hD
    | true =>
      have hcond : ¬(true = false ∧ (none : Option FSEntry).isNone = true) := by
        intro hc
        exact absurd hc.1 (by simp)
      rw [if_neg hcond, if_pos rfl]
      have hdir : FSEntry.isDir (.file n c) = false := rfl
      rw [if_neg (by rw [hdir]; exact Bool.false_ne_true)]
      exact copyfileAt_level_none hD
  | dir n ch =>
    cases ov with
    | false =>
      have hcond : (false = false ∧ (none : Option FSEntry).isNone = true) :=
        ⟨rfl, rfl⟩
      rw [if_pos hcond,
        if_pos (show FSEntry.isDir (.dir n ch) = true from rfl)]
      exact copytreeAt_level_none hD
    | true =>
      have hcond : ¬(true = false ∧ (none : Option FSEntry).isNone = true) := by
        intro hc
        exact absurd hc.1 (by simp)
      rw [if_neg hcond, if_pos rfl,
        if_pos (show FSEntry.isDir (.dir n ch) = true from rfl)]
      exact copytreeAt_level_none hD

theorem addLevel_fold {S : FsTree} (hS : (S.map FSEntry.name).Nodup)
    (ov : Bool) :
    ∀ (items : List Item) (T : FsTree),
      (∀ it ∈ items, ∃ e, e ∈ S ∧ it.rpath = [e.name] ∧
        ∀ f ∈ T, f.name ≠ e.name) →
      (items.map Item.rpath).Nodup →
      ∃ es, items.foldlM (fun b it => syncItems S b it.rpath it.rpath ov) T
          = some (T ++ es) ∧
        (∀ e ∈ es, e ∈ S) ∧
        es.map (fun e => ([e.name] : List String)) = items.map Item.rpath := by
  intro items
  induction items with
  | nil =>
    intro T _ _
    exact ⟨[], by simp, by simp, by simp⟩
  | cons it its ih =>
    intro T hprop hnodup
    obtain ⟨e, heS, hrp, hfresh⟩ := hprop it (List.mem_cons_self _ _)
    have hfind : S.find? (fun x => x.name == e.name) = some e :=
      find?_name_eq_some_of_mem hS heS
    have hDnone : T.find? (fun x => x.name == e.name) = none :=
      find?_name_none.2 hfresh
    rw [List.foldlM_cons, hrp, syncItems_new hfind hDnone ov]
    have hprop2 : ∀ jt ∈ its, ∃ e2, e2 ∈ S ∧ jt.rpath = [e2.name] ∧
        ∀ f ∈ T ++ [e], f.name ≠ e2.name := by
      intro jt hjt
      obtain ⟨e2, he2S, hrp2, hfresh2⟩ := hprop jt (List.mem_cons_of_mem _ hjt)
      refine ⟨e2, he2S, hrp2, ?_⟩
      intro f hf
      rcases List.mem_append.1 hf with hf1 | hf2
      · exact hfresh2 f hf1
      · rw [List.mem_singleton] at hf2
        subst hf2
        intro hc
        have hmem : it.rpath ∈ its.map Item.rpath := by
          rw [hrp, hc, ← hrp2]
          exact List.mem_map_of_mem _ hjt
        rw [List.map_cons, List.nodup_cons] at hnodup
        exact hnodup.1 hmem
    have hnodup2 : (its.map Item.rpath).Nodup := by
      rw [List.map_cons, List.nodup_cons] at hnodup
      exact hnodup.2
    obtain ⟨es, hfold, hesS, hmap⟩ := ih (T ++ [e]) hprop2 hnodup2
    refine ⟨e :: es, ?_, ?_, ?_⟩
    · show its.foldlM (fun b it => syncItems S b it.rpath it.rpath ov)
          (T ++ [e]) = some (T ++ e :: es)
      rw [hfold]
      congr 1
      simp
    · intro x hx
      rcases List.mem_cons.1 hx with rfl | hx2
      · exact heS
      · exact hesS x hx2
    · rw [List.map_cons, List.map_cons, hmap, hrp]

theorem segFoldSync {S : FsTree} {m : String} {chS : FsTree}
    (hfS : S.find? (fun x => x.name == m) = some (.dir m chS)) (ov : Bool) :
    ∀ (cits : List Item), (∀ a ∈ cits, a.rpath ≠ []) →
      ∀ (T chD : FsTree), (T.map FSEntry.name).Nodup →
        T.find? (fun x => x.name == m) = some (.dir m chD) →
        cits.foldlM (fun b a => syncItems S b (m :: a.rpath) (m :: a.rpath) ov) T
          = (cits.foldlM (fun b a => syncItems chS b a.rpath a.rpath ov)
              chD).map (setChildren T m) := by
  intro cits
  induction cits with
  | nil =>
    intro _ T chD hT hfD
    show (some T : Option FsTree) = Option.map (setChildren T m) (some chD)
    rw [Option.map_some', setChildren_self hT hfD]
  | cons a as ih =>
    intro hne T chD hT hfD
    rw [List.foldlM_cons, List.foldlM_cons,
      syncItems_child hT (hne a (List.mem_cons_self _ _)) hfS hfD ov]
    cases hstep : syncItems chS chD a.rpath a.rpath ov with
    | none => rfl
    | some chD2 =>
      show List.foldlM
          (fun b a => syncItems S b (m :: a.rpath) (m :: a.rpath) ov)
          (setChildren T m chD2) as
        = Option.map (setChildren T m)
            (List.foldlM (fun b a => syncItems chS b a.rpath a.rpath ov)
              chD2 as)
      rw [ih (fun x hx => hne x (List.mem_cons_of_mem _ hx))
        (setChildren T m chD2) chD2
        (by rw [setChildren_names]; exact hT)
        (find?_setChildren_dir T m chD2 hfD)]
      cases hrest : as.foldlM
          (fun b a => syncItems chS b a.rpath a.rpath ov) chD2 with
      | none => rfl
      | some x =>
        simp only [Option.map_some']
        rw [setChildren_setChildren]

theorem shiftItem_rpath (m : String) (i : Item) :
    (shiftItem m i).rpath = m :: i.rpath := rfl

theorem segFoldSyncMap {S : FsTree} {m : String} {chS : FsTree}
    (hfS : S.find? (fun x => x.name == m) = some (.dir m chS)) (ov : Bool)
    (cits : List Item) (hne : ∀ a ∈ cits, a.rpath ≠ [])
    (T chD : FsTree) (hT : (T.map FSEntry.name).Nodup)
    (hfD : T.find? (fun x => x.name == m) = some (.dir m chD)) :
    (cits.map (shiftItem m)).foldlM
        (fun b a => syncItems S b a.rpath a.rpath ov) T
      = (cits.foldlM (fun b a => syncItems chS b a.rpath a.rpath ov)
          chD).map (setChildren T m) := by
  rw [List.foldlM_map]
  exact segFoldSync hfS ov cits hne T chD hT hfD

theorem segsAll_sync {S : FsTree} (ov : Bool) :
    ∀ (mpl : List (FSEntry × FSEntry)) (G : FSEntry × FSEntry → List Item)
      (T : FsTree),
      (T.map FSEntry.name).Nodup →
      ((mpl.map fun pr => pr.1.name).Nodup) →
      (∀ pr ∈ mpl, (∀ it ∈ G pr, it.rpath ≠ []) ∧ ∃ chS chD c,
        S.find? (fun x => x.name == pr.1.name) = some (.dir pr.1.name chS) ∧
        T.find? (fun x => x.name == pr.1.name) = some (.dir pr.1.name chD) ∧
        (G pr).foldlM (fun b it => syncItems chS b it.rpath it.rpath ov) chD
          = some c) →
      ∃ T2, ((mpl.map fun pr => (G pr).map (shiftItem pr.1.name)).flatten).foldlM
          (fun b it => syncItems S b it.rpath it.rpath ov) T = some T2 ∧
        T2.map FSEntry.name = T.map FSEntry.name ∧
        (∀ n, n ∉ (mpl.map fun pr => pr.1.name) →
          T2.find? (fun x => x.name == n) = T.find? (fun x => x.name == n)) ∧
        (∀ pr ∈ mpl, ∀ chS chD c,
          S.find? (fun x => x.name == pr.1.name) = some (.dir pr.1.name chS) →
          T.find? (fun x => x.name == pr.1.name) = some (.dir pr.1.name chD) →
          (G pr).foldlM (fun b it => syncItems chS b it.rpath it.rpath ov) chD
            = some c →
          T2.find? (fun x => x.name == pr.1.name)
            = some (.dir pr.1.name c)) := by
  intro mpl
  induction mpl with
  | nil =>
    intro G T hT _ _
    refine ⟨T, ?_, rfl, fun n _ => rfl, fun pr hpr => absurd hpr (List.not_mem_nil _)⟩
    simp
  | cons pr rest ih =>
    intro G T hT hnames hprs
    obtain ⟨hne, chS, chD, c, hfS, hfD, hcf⟩ := hprs pr (List.mem_cons_self _ _)
    rw [List.map_cons, List.nodup_cons] at hnames
    have hseg : ((G pr).map (shiftItem pr.1.name)).foldlM
        (fun b it => syncItems S b it.rpath it.rpath ov) T
        = some (setChildren T pr.1.name c) := by
      rw [segFoldSyncMap hfS ov (G pr) hne T chD hT hfD, hcf]
      rfl
    set T1 := setChildren T pr.1.name c with hT1def
    have hT1names : T1.map FSEntry.name = T.map FSEntry.name :=
      setChildren_names T pr.1.name c
    have hT1nodup : (T1.map FSEntry.name).Nodup := by
      rw [hT1names]; exact hT
    have hprs2 : ∀ qr ∈ rest, (∀ it ∈ G qr, it.rpath ≠ []) ∧ ∃ chS2 chD2 c2,
        S.find? (fun x => x.name == qr.1.name) = some (.dir qr.1.name chS2) ∧
        T1.find? (fun x => x.name == qr.1.name) = some (.dir qr.1.name chD2) ∧
        (G qr).foldlM (fun b it => syncItems chS2 b it.rpath it.rpath ov) chD2
          = some c2 := by
      intro qr hqr
      obtain ⟨hne2, chS2, chD2, c2, hfS2, hfD2, hcf2⟩ :=
        hprs qr (List.mem_cons_of_mem _ hqr)
      have hnn : qr.1.name ≠ pr.1.name := by
        intro hc
        exact hnames.1 (by rw [← hc]; exact List.mem_map_of_mem _ hqr)
      refine ⟨hne2, chS2, chD2, c2, hfS2, ?_, hcf2⟩
      rw [hT1def, find?_setChildren_ne T pr.1.name c hnn]
      exact hfD2
    obtain ⟨T2, hfold2, hT2names, hT2pres, hT2pairs⟩ :=
      ih G T1 hT1nodup hnames.2 hprs2
    refine ⟨T2, ?_, ?_, ?_, ?_⟩
    · rw [List.map_cons, List.flatten_cons, List.foldlM_append, hseg]
      exact hfold2
    · rw [hT2names, hT1names]
    · intro n hn
      rw [List.map_cons, List.mem_cons, not_or] at hn
      rw [hT2pres n hn.2, hT1def, find?_setChildren_ne T pr.1.name c hn.1]
    · intro qr hqr chS2 chD2 c2 hfS2 hfD2 hcf2
      rcases List.mem_cons.1 hqr with rfl | hqr2
      · have hc1 : chS2 = chS := by
          rw [hfS2] at hfS
          injection hfS with h1
          injection h1 with hx1 hx2
        subst hc1
        have hc2 : chD2 = chD := by
          rw [hfD2] at hfD
          injection hfD with h1
          injection h1 with hx1 hx2
        subst hc2
        have hc3 : c2 = c := by
          rw [hcf2] at hcf
          injection hcf
        subst hc3
        have hmm : qr.1.name ∉ rest.map (fun pr => pr.1.name) := hnames.1
        rw [hT2pres qr.1.name hmm, hT1def]
        exact find?_setChildren_dir T qr.1.name c2 hfD
      · have hnn : qr.1.name ≠ pr.1.name := by
          intro hc
          exact hnames.1 (by rw [← hc]; exact List.mem_map_of_mem _ hqr2)
        apply hT2pairs qr hqr2 chS2 chD2 c2 hfS2
        · rw [hT1def, find?_setChildren_ne T pr.1.name c hnn]
          exact hfD2
        · exact hcf2

theorem rmLevel_fold :
    ∀ (items : List Item), (∀ it ∈ items, ∃ n, it.rpath = [n]) →
      ∀ T : FsTree, ∃ T2,
        items.foldl (fun b it => removeItem b it.rpath) T = T2 ∧
        (T2.map FSEntry.name).Sublist (T.map FSEntry.name) ∧
        (∀ n, (¬∃ it ∈ items, it.rpath = [n]) →
          T2.find? (fun x => x.name == n) = T.find? (fun x => x.name == n)) ∧
        (∀ n, (∃ it ∈ items, it.rpath = [n]) → ∀ x ∈ T2, x.name ≠ n) ∧
        (∀ x ∈ T2, x ∈ T) := by
  intro items
  induction items with
  | nil =>
    intro _ T
    refine ⟨T, rfl, List.Sublist.refl _, fun n _ => rfl, ?_, fun x hx => hx⟩
    intro n hn
    obtain ⟨it, hit, -⟩ := hn
    exact absurd hit (List.not_mem_nil _)
  | cons it its ih =>
    intro hshape T
    obtain ⟨n0, hn0⟩ := hshape it (List.mem_cons_self _ _)
    have hstep : removeItem T it.rpath
        = T.filter (fun e => !(e.name == n0)) := by
      rw [hn0]
      exact removeItem_level T n0
    obtain ⟨T2, hfold, hsub, hpres, hgone, hprov⟩ :=
      ih (fun jt hjt => hshape jt (List.mem_cons_of_mem _ hjt))
        (T.filter (fun e => !(e.name == n0)))
    refine ⟨T2, ?_, ?_, ?_, ?_, ?_⟩
    · rw [List.foldl_cons, hstep]
      exact hfold
    · apply hsub.trans
      apply List.Sublist.map
      exact List.filter_sublist _
    · intro n hn
      have hn1 : it.rpath ≠ [n] := by
        intro hc
        exact hn ⟨it, List.mem_cons_self _ _, hc⟩
      have hn2 : ¬∃ jt ∈ its, jt.rpath = [n] := by
        intro ⟨jt, hjt, hc⟩
        exact hn ⟨jt, List.mem_cons_of_mem _ hjt, hc⟩
      rw [hpres n hn2]
      apply find?_filter_of_imp
      intro x hx
      simp only [Bool.not_eq_true']
      rw [beq_eq_false_iff_ne]
      intro hc
      apply hn1
      rw [hn0]
      congr 1
      rw [← hc]
      exact (beq_iff_eq.1 hx)
    · intro n hn x hx
      obtain ⟨jt, hjt, hjn⟩ := hn
      rcases List.mem_cons.1 hjt with rfl | hjt2
      · have : n0 = n := by
          rw [hn0] at hjn
          injection hjn
        subst this
        have hx2 := hprov x hx
        rw [List.mem_filter] at hx2
        have := hx2.2
        simp only [Bool.not_eq_true'] at this
        rw [beq_eq_false_iff_ne] at this
        exact this
      · exact hgone n ⟨jt, hjt2, hjn⟩ x hx
    · intro x hx
      have := hprov x hx
      rw [List.mem_filter] at this
      exact this.1

theorem segFoldRm {m : String} :
    ∀ (cits : List Item), (∀ a ∈ cits, a.rpath ≠ []) →
      ∀ (T chD : FsTree), (T.map FSEntry.name).Nodup →
        T.find? (fun x => x.name == m) = some (.dir m chD) →
        (cits.map (shiftItem m)).foldl (fun b a => removeItem b a.rpath) T
          = setChildren T m
              (cits.foldl (fun b a => removeItem b a.rpath) chD) := by
  intro cits
  induction cits with
  | nil =>
    intro _ T chD hT hfD
    exact (setChildren_self hT hfD).symm
  | cons a as ih =>
    intro hne T chD hT hfD
    rw [List.map_cons, List.foldl_cons, List.foldl_cons]
    have hstep : removeItem T (shiftItem m a).rpath
        = setChildren T m (removeItem chD a.rpath) :=
      removeItem_child hT (hne a (List.mem_cons_self _ _)) hfD
    rw [hstep]
    rw [ih (fun x hx => hne x (List.mem_cons_of_mem _ hx))
      (setChildren T m (removeItem chD a.rpath)) (removeItem chD a.rpath)
      (by rw [setChildren_names]; exact hT)
      (find?_setChildren_dir T m (removeItem chD a.rpath) hfD)]
    rw [setChildren_setChildren]

theorem segsAll_rm :
    ∀ (mpl : List (FSEntry × FSEntry)) (G : FSEntry × FSEntry → List Item)
      (T : FsTree),
      (T.map FSEntry.name).Nodup →
      ((mpl.map fun pr => pr.1.name).Nodup) →
      (∀ pr ∈ mpl, (∀ it ∈ G pr, it.rpath ≠ []) ∧ ∃ chD,
        T.find? (fun x => x.name == pr.1.name) = some (.dir pr.1.name chD)) →
      ∃ T2, ((mpl.map fun pr => (G pr).map (shiftItem pr.1.name)).flatten).foldl
          (fun b it => removeItem b it.rpath) T = T2 ∧
        T2.map FSEntry.name = T.map FSEntry.name ∧
        (∀ n, n ∉ (mpl.map fun pr => pr.1.name) →
          T2.find? (fun x => x.name == n) = T.find? (fun x => x.name == n)) ∧
        (∀ pr ∈ mpl, ∀ chD,
          T.find? (fun x => x.name == pr.1.name) = some (.dir pr.1.name chD) →
          T2.find? (fun x => x.name == pr.1.name)
            = some (.dir pr.1.name
                ((G pr).foldl (fun b it => removeItem b it.rpath) chD))) := by
  intro mpl
  induction mpl with
  | nil =>
    intro G T hT _ _
    exact ⟨T, by simp, rfl, fun n _ => rfl,
      fun pr hpr => absurd hpr (List.not_mem_nil _)⟩
  | cons pr rest ih =>
    intro G T hT hnames hprs
    obtain ⟨hne, chD, hfD⟩ := hprs pr (List.mem_cons_self _ _)
    rw [List.map_cons, List.nodup_cons] at hnames
    set c := (G pr).foldl (fun b it => removeItem b it.rpath) chD with hcdef
    have hseg : ((G pr).map (shiftItem pr.1.name)).foldl
        (fun b it => removeItem b it.rpath) T
        = setChildren T pr.1.name c :=
      segFoldRm (G pr) hne T chD hT hfD
    set T1 := setChildren T pr.1.name c with hT1def
    have hT1names : T1.map FSEntry.name = T.map FSEntry.name :=
      setChildren_names T pr.1.name c
    have hprs2 : ∀ qr ∈ rest, (∀ it ∈ G qr, it.rpath ≠ []) ∧ ∃ chD2,
        T1.find? (fun x => x.name == qr.1.name)
          = some (.dir qr.1.name chD2) := by
      intro qr hqr
      obtain ⟨hne2, chD2, hfD2⟩ := hprs qr (List.mem_cons_of_mem _ hqr)
      have hnn : qr.1.name ≠ pr.1.name := by
        intro hc
        exact hnames.1 (by rw [← hc]; exact List.mem_map_of_mem _ hqr)
      refine ⟨hne2, chD2, ?_⟩
      rw [hT1def, find?_setChildren_ne T pr.1.name c hnn]
      exact hfD2
    obtain ⟨T2, hfold2, hT2names, hT2pres, hT2pairs⟩ :=
      ih G T1 (by rw [hT1names]; exact hT) hnames.2 hprs2
    refine ⟨T2, ?_, ?_, ?_, ?_⟩
    · rw [List.map_cons, List.flatten_cons, List.foldl_append, hseg]
      exact hfold2
    · rw [hT2names, hT1names]
    · intro n hn
      rw [List.map_cons, List.mem_cons, not_or] at hn
      rw [hT2pres n hn.2, hT1def, find?_setChildren_ne T pr.1.name c hn.1]
    · intro qr hqr chD2 hfD2
      rcases List.mem_cons.1 hqr with rfl | hqr2
      · have hc2 : chD2 = chD := by
          rw [hfD2] at hfD
          injection hfD with h1
          injection h1 with hx1 hx2
        subst hc2
        have hmm : qr.1.name ∉ rest.map (fun pr => pr.1.name) := hnames.1
        rw [hT2pres qr.1.name hmm, hT1def]
        exact find?_setChildren_dir T qr.1.name c hfD
      · have hnn : qr.1.name ≠ pr.1.name := by
          intro hc
          exact hnames.1 (by rw [← hc]; exact List.mem_map_of_mem _ hqr2)
        apply hT2pairs qr hqr2 chD2
        rw [hT1def, find?_setChildren_ne T pr.1.name c hnn]
        exact hfD2

theorem owmap_names (t : FsTree) (n : String) (c : List Nat) :
    (t.map fun e => if e.name = n then FSEntry.file n c else e).map
        FSEntry.name = t.map FSEntry.name := by
  rw [List.map_map]
  apply List.map_congr_left
  intro e _
  by_cases he : e.name = n
  · simp only [Function.comp_apply, if_pos he]
    rw [← he]
    rfl
  · simp only [Function.comp_apply, if_neg he]

theorem find?_owmap_ne {t : FsTree} {n : String} {c : List Nat} {m : String}
    (hm : m ≠ n) :
    (t.map fun e => if e.name = n then FSEntry.file n c else e).find?
        (fun x => x.name == m)
      = t.find? (fun x => x.name == m) := by
  rw [List.find?_map]
  have hp : ((fun x : FSEntry => x.name == m) ∘
      fun e => if e.name = n then FSEntry.file n c else e)
      = fun x : FSEntry => x.name == m := by
    funext e
    by_cases he : e.name = n
    · simp only [Function.comp_apply, if_pos he]
      have h1 : (FSEntry.file n c).name = e.name := by rw [he]; rfl
      rw [h1]
    · simp only [Function.comp_apply, if_neg he]
  rw [hp]
  cases hf : t.find? (fun x => x.name == m) with
  | none => rfl
  | some e =>
    have he := find?_name_some hf
    rw [Option.map_some']
    have hne : e.name ≠ n := by rw [he.2]; exact hm
    rw [if_neg hne]

theorem find?_owmap_self {t : FsTree} {n : String} {c : List Nat} {f : FSEntry}
    (hf : t.find? (fun x => x.name == n) = some f) :
    (t.map fun e => if e.name = n then FSEntry.file n c else e).find?
        (fun x => x.name == n)
      = some (FSEntry.file n c) := by
  rw [List.find?_map]
  have hp : ((fun x : FSEntry => x.name == n) ∘
      fun e => if e.name = n then FSEntry.file n c else e)
      = fun x : FSEntry => x.name == n := by
    funext e
    by_cases he : e.name = n
    · simp only [Function.comp_apply, if_pos he]
      have h1 : (FSEntry.file n c).name = e.name := by rw [he]; rfl
      rw [h1]
    · simp only [Function.comp_apply, if_neg he]
  rw [hp, hf, Option.map_some', if_pos (find?_name_some hf).2]

theorem syncItems_ow_file {S T : FsTree} {n : String} {c c' : List Nat}
    (hfS : S.find? (fun x => x.name == n) = some (.file n c))
    (hfT : T.find? (fun x => x.name == n) = some (.file n c')) :
    syncItems S T [n] [n] true
      = some (T.map fun x => if x.name = n then .file n c else x) := by
  rw [syncItems, getAt_single, getAt_single, hfS, hfT]
  dsimp only
  rw [if_neg (show ¬(true = false ∧ ((some (FSEntry.file n c')).isNone = true))
    from fun hc => absurd hc.1 (by simp)), if_pos rfl]
  rw [if_neg (show ¬(FSEntry.isDir (.file n c) = true)
    from Bool.false_ne_true)]
  exact copyfileAt_level_file hfT

theorem owLevel_fold {S : FsTree} :
    ∀ (hps : List (Item × Item)) (T : FsTree),
      (∀ qr ∈ hps, ∃ n cS c2,
        S.find? (fun x => x.name == n) = some (.file n cS) ∧
        qr.1.rpath = [n] ∧ qr.2.rpath = [n] ∧
        T.find? (fun x => x.name == n) = some (.file n c2)) →
      ((hps.map fun qr => qr.1.rpath).Nodup) →
      ∃ T2, hps.foldlM (fun b qr => syncItems S b qr.1.rpath qr.2.rpath true) T
          = some T2 ∧
        T2.map FSEntry.name = T.map FSEntry.name ∧
        (∀ m, (¬∃ qr ∈ hps, qr.1.rpath = [m]) →
          T2.find? (fun x => x.name == m) = T.find? (fun x => x.name == m)) ∧
        (∀ n cS, S.find? (fun x => x.name == n) = some (.file n cS) →
          (∃ qr ∈ hps, qr.1.rpath = [n]) →
          T2.find? (fun x => x.name == n) = some (.file n cS)) := by
  intro hps
  induction hps with
  | nil =>
    intro T _ _
    refine ⟨T, by simp, rfl, fun m _ => rfl, ?_⟩
    intro n cS _ hn
    obtain ⟨qr, hqr, -⟩ := hn
    exact absurd hqr (List.not_mem_nil _)
  | cons qr rest ih =>
    intro T hprop hnodup
    obtain ⟨n, cS, c2, hfS, hr1, hr2, hfT⟩ := hprop qr (List.mem_cons_self _ _)
    rw [List.map_cons, List.nodup_cons] at hnodup
    set T1 := T.map (fun x => if x.name = n then FSEntry.file n cS else x)
      with hT1def
    have hstep : syncItems S T qr.1.rpath qr.2.rpath true = some T1 := by
      rw [hr1, hr2]
      exact syncItems_ow_file hfS hfT
    have hT1names : T1.map FSEntry.name = T.map FSEntry.name :=
      owmap_names T n cS
    have hprop2 : ∀ qr2 ∈ rest, ∃ n2 cS2 c3,
        S.find? (fun x => x.name == n2) = some (.file n2 cS2) ∧
        qr2.1.rpath = [n2] ∧ qr2.2.rpath = [n2] ∧
        T1.find? (fun x => x.name == n2) = some (.file n2 c3) := by
      intro qr2 hqr2
      obtain ⟨n2, cS2, c3, hfS2, hr12, hr22, hfT2⟩ :=
        hprop qr2 (List.mem_cons_of_mem _ hqr2)
      have hnn : n2 ≠ n := by
        intro hc
        apply hnodup.1
        rw [hr1]
        have : qr2.1.rpath ∈ rest.map (fun qr => qr.1.rpath) :=
          List.mem_map_of_mem _ hqr2
        rw [hr12, hc] at this
        exact this
      refine ⟨n2, cS2, c3, hfS2, hr12, hr22, ?_⟩
      rw [hT1def, find?_owmap_ne hnn]
      exact hfT2
    obtain ⟨T2, hfold2, hT2names, hT2pres, hT2cont⟩ := ih T1 hprop2 hnodup.2
    refine ⟨T2, ?_, ?_, ?_, ?_⟩
    · rw [List.foldlM_cons, hstep]
      exact hfold2
    · rw [hT2names, hT1names]
    · intro m hm
      have hm1 : qr.1.rpath ≠ [m] := by
        intro hc
        exact hm ⟨qr, List.mem_cons_self _ _, hc⟩
      have hm2 : ¬∃ qr2 ∈ rest, qr2.1.rpath = [m] := by
        intro ⟨qr2, hqr2, hc⟩
        exact hm ⟨qr2, List.mem_cons_of_mem _ hqr2, hc⟩
      rw [hT2pres m hm2, hT1def]
      have hmn : m ≠ n := by
        intro hc
        apply hm1
        rw [hr1, hc]
      rw [find?_owmap_ne hmn]
    · intro n2 cS2 hfS2 hex
      obtain ⟨qr2, hqr2, hc⟩ := hex
      rcases List.mem_cons.1 hqr2 with rfl | hqr3
      · have hn2 : n2 = n := by
          rw [hr1] at hc
          injection hc.symm
        subst hn2
        have hcs : cS2 = cS := by
          rw [hfS2] at hfS
          injection hfS with h1
          injection h1 with hx1 hx2
        subst hcs
        have hnr : ¬∃ qr3 ∈ rest, qr3.1.rpath = [n2] := by
          intro ⟨qr3, hqr3, hc3⟩
          apply hnodup.1
          rw [hr1, ← hc3]
          exact List.mem_map_of_mem _ hqr3
        rw [hT2pres n2 hnr, hT1def]
        exact find?_owmap_self hfT
      · exact hT2cont n2 cS2 hfS2 ⟨qr2, hqr3, hc⟩

theorem NoClashT.descend {a b : FsTree} (h : NoClashT a b) {n : String}
    {chA chB : List FSEntry} (hA : FSEntry.dir n chA ∈ a)
    (hB : FSEntry.dir n chB ∈ b) : NoClashT chA chB := by
  rw [NoClashT] at h
  exact h.2.2 n chA chB hA hB

theorem NoClashT.not_dir_of_file {a b : FsTree} (h : NoClashT a b)
    {n : String} {c : List Nat} (hf : FSEntry.file n c ∈ a) :
    ¬∃ ch, FSEntry.dir n ch ∈ b := by
  rw [NoClashT] at h
  intro ⟨ch, hch⟩
  exact h.1 n ⟨⟨c, hf⟩, ⟨ch, hch⟩⟩

theorem NoClashT.not_file_of_dir {a b : FsTree} (h : NoClashT a b)
    {n : String} {ch : List FSEntry} (hd : FSEntry.dir n ch ∈ a) :
    ¬∃ c, FSEntry.file n c ∈ b := by
  rw [NoClashT] at h
  intro ⟨c, hc⟩
  exact h.2.1 n ⟨⟨ch, hd⟩, ⟨c, hc⟩⟩

theorem syncPhases_all_eq (S D : FsTree) (add rm : List Item)
    (prs : List (Item × Item)) :
    syncPhases S D add rm prs true true true
      = match add.foldlM (fun b it => syncItems S b it.rpath it.rpath true) D
          with
        | none => none
        | some d1 =>
          prs.foldlM (fun b pr => syncItems S b pr.1.rpath pr.2.rpath true)
            (rm.foldl (fun b it => removeItem b it.rpath) d1) := rfl

theorem syncPhases_empty (S D : FsTree) (o a r : Bool) :
    syncPhases S D [] [] [] o a r = some D := by
  cases o <;> cases a <;> cases r <;> rfl

theorem find?_append_some {α : Type} {l1 l2 : List α} {p : α → Bool}
    {x : α} (h : l1.find? p = some x) : (l1 ++ l2).find? p = some x := by
  rw [List.find?_append, h]
  rfl

theorem find?_append_none {α : Type} {l1 l2 : List α} {p : α → Bool}
    (h : l1.find? p = none) : (l1 ++ l2).find? p = l2.find? p := by
  rw [List.find?_append, h]
  rfl
